import Mathlib

/-!
Verification of the PrivEx terminal new-tab extension core
(virtual file system, path utilities, argument parser, command dispatch,
autocomplete pipeline), shallowly embedded from the TypeScript sources.

Strings are modelled by Lean `String` (a list of Unicode code points);
JavaScript's UTF-16 based `String.prototype.length` is modelled by
`jsLength`.  JavaScript objects used as string-keyed maps are modelled by
association lists together with `objGet`/`objSet`/`objDel`, which mirror
property read, property write (update in place, insertion order kept) and
the `delete` operator.  `Date.now()` is passed in as an explicit `now`
parameter, and the random content-id generator is modelled by a counter
stored in the state (no claim depends on the concrete id or timestamp
values).
-/

namespace PrivEx

/-- JS string length: the number of UTF-16 code units. -/
def jsLength (s : String) : Nat :=
  (s.data.map (fun c => if c.val < 0x10000 then 1 else 2)).sum

/-- Spec-side notion for claim C1: the byte length of the UTF-8 encoding
of a string, via `Char.utf8Size`. -/
def utf8Len (s : String) : Nat :=
  (s.data.map Char.utf8Size).sum

/-- JS string falsiness (`!s` for a string): true exactly on `""`. -/
def jsFalsyStr (s : Option String) : Bool :=
  match s with
  | none => true
  | some s => s = ""

/-- Prefix test on character lists (first argument is the prefix). -/
def listStarts : List Char → List Char → Bool
  | [], _ => true
  | _ :: _, [] => false
  | a :: as, b :: bs => a == b && listStarts as bs

/-- `String.prototype.startsWith`. -/
def jsStartsWith (s pre : String) : Bool :=
  listStarts pre.data s.data

/-- `String.prototype.toUpperCase` (ASCII, as every use here is). -/
def jsToUpper (s : String) : String :=
  ⟨s.data.map Char.toUpper⟩

/-- `String.prototype.toLowerCase` (ASCII, as every use here is). -/
def jsToLower (s : String) : String :=
  ⟨s.data.map Char.toLower⟩

/-- JS `/\s/` on the characters the terminal feeds the engine. -/
def isWS (c : Char) : Bool :=
  c == ' ' || c == '\t' || c == '\n' || c == '\r'

/-- `String.prototype.trim`. -/
def jsTrim (s : String) : String :=
  ⟨((s.data.dropWhile isWS).reverse.dropWhile isWS).reverse⟩

/-- Read a property of a JS object (string-keyed map). -/
def objGet {α : Type} (l : List (String × α)) (k : String) : Option α :=
  match l with
  | [] => none
  | (k', v) :: t => if k' = k then some v else objGet t k

/-- Write a property of a JS object: update in place if the key exists,
append at the end otherwise (JS insertion order). -/
def objSet {α : Type} (l : List (String × α)) (k : String) (v : α) :
    List (String × α) :=
  match l with
  | [] => [(k, v)]
  | (k', v') :: t => if k' = k then (k, v) :: t else (k', v') :: objSet t k v

/-- The JS `delete obj[k]` operator. -/
def objDel {α : Type} (l : List (String × α)) (k : String) :
    List (String × α) :=
  match l with
  | [] => []
  | (k', v') :: t => if k' = k then t else (k', v') :: objDel t k

/-- `Object.assign(target, source)`: write every property of `source`
into `target` in order. -/
def objAssign {α : Type} (target source : List (String × α)) :
    List (String × α) :=
  source.foldl (fun acc kv => objSet acc kv.1 kv.2) target

@[simp] theorem objGet_nil {α : Type} (k : String) :
    objGet ([] : List (String × α)) k = none := rfl

@[simp] theorem objGet_cons {α : Type} (k' k : String) (v : α) (t) :
    objGet ((k', v) :: t) k = if k' = k then some v else objGet t k := rfl

theorem objGet_objSet_self {α : Type} (l : List (String × α)) (k : String)
    (v : α) : objGet (objSet l k v) k = some v := by
  induction l with
  | nil => simp [objSet, objGet]
  | cons h t ih =>
    by_cases hk : h.1 = k
    · simp [objSet, hk, objGet]
    · simp [objSet, hk, objGet, ih]

theorem objGet_objSet_ne {α : Type} (l : List (String × α)) (k k' : String)
    (v : α) (h : k ≠ k') : objGet (objSet l k v) k' = objGet l k' := by
  induction l with
  | nil => simp [objSet, objGet, h]
  | cons hd t ih =>
    by_cases hk : hd.1 = k
    · simp [objSet, hk, objGet, h]
    · simp [objSet, hk, objGet, ih]

theorem objGet_objDel_ne {α : Type} (l : List (String × α)) (k k' : String)
    (hnd : (l.map Prod.fst).Nodup) (h : k ≠ k') :
    objGet (objDel l k) k' = objGet l k' := by
  induction l with
  | nil => simp [objDel]
  | cons hd t ih =>
    simp only [List.map_cons, List.nodup_cons] at hnd
    by_cases hk : hd.1 = k
    · subst hk
      have hdel : objDel (hd :: t) hd.1 = t := by simp [objDel]
      rw [hdel, objGet_cons, if_neg h]
    · simp [objDel, hk, objGet, ih hnd.2]

theorem objGet_eq_none_of_not_mem {α : Type} (l : List (String × α))
    (k : String) (h : k ∉ l.map Prod.fst) : objGet l k = none := by
  induction l with
  | nil => rfl
  | cons hd t ih =>
    simp only [List.map_cons, List.mem_cons, not_or] at h
    have hne : hd.1 ≠ k := fun hc => h.1 hc.symm
    simp [objGet, hne, ih h.2]

theorem objGet_objDel_self {α : Type} (l : List (String × α)) (k : String)
    (hnd : (l.map Prod.fst).Nodup) : objGet (objDel l k) k = none := by
  induction l with
  | nil => simp [objDel]
  | cons hd t ih =>
    simp only [List.map_cons, List.nodup_cons] at hnd
    by_cases hk : hd.1 = k
    · subst hk
      simp only [objDel, if_pos rfl]
      exact objGet_eq_none_of_not_mem t hd.1 hnd.1
    · simp [objDel, hk, objGet, ih hnd.2]

theorem objSet_map_fst {α : Type} (l : List (String × α)) (k : String)
    (v : α) :
    (objSet l k v).map Prod.fst =
      if k ∈ l.map Prod.fst then l.map Prod.fst else l.map Prod.fst ++ [k] := by
  induction l with
  | nil => simp [objSet]
  | cons hd t ih =>
    by_cases hk : hd.1 = k
    · simp [objSet, hk]
    · have : ¬ k = hd.1 := fun hc => hk hc.symm
      simp only [objSet, if_neg hk, List.map_cons, List.mem_cons, this,
        false_or, ih]
      by_cases hm : k ∈ t.map Prod.fst <;> simp [hm]

theorem objSet_nodup {α : Type} (l : List (String × α)) (k : String) (v : α)
    (h : (l.map Prod.fst).Nodup) : ((objSet l k v).map Prod.fst).Nodup := by
  rw [objSet_map_fst]
  by_cases hm : k ∈ l.map Prod.fst
  · simpa [hm]
  · simpa [hm, List.nodup_append] using h

theorem objDel_map_fst_sublist {α : Type} (l : List (String × α))
    (k : String) : ((objDel l k).map Prod.fst).Sublist (l.map Prod.fst) := by
  induction l with
  | nil => simp [objDel]
  | cons hd t ih =>
    by_cases hk : hd.1 = k
    · simp only [objDel, if_pos hk, List.map_cons]
      exact (List.sublist_cons_self _ _)
    · simp only [objDel, if_neg hk, List.map_cons]
      exact ih.cons₂ _

theorem objDel_nodup {α : Type} (l : List (String × α)) (k : String)
    (h : (l.map Prod.fst).Nodup) : ((objDel l k).map Prod.fst).Nodup :=
  (objDel_map_fst_sublist l k).nodup h

theorem objGet_mem {α : Type} (l : List (String × α)) (k : String) (v : α)
    (h : objGet l k = some v) : (k, v) ∈ l := by
  induction l with
  | nil => simp [objGet] at h
  | cons hd t ih =>
    by_cases hk : hd.1 = k
    · rw [objGet_cons, if_pos hk] at h
      cases h
      subst hk
      cases hd
      exact List.mem_cons_self _ _
    · rw [objGet_cons, if_neg hk] at h
      exact List.mem_cons_of_mem _ (ih h)

/-- Stable insertion used to model `Array.prototype.sort` (JS sorts are
stable; on a consistent comparator a stable insertion sort produces the
same result). `le b a` keeps `b` in front, so equal elements keep their
original relative order. -/
def insertLe {α : Type} (le : α → α → Bool) (a : α) : List α → List α
  | [] => [a]
  | b :: t => if le b a then b :: insertLe le a t else a :: b :: t

/-- Stable sort modelling `Array.prototype.sort(cmp)` with
`le x y = (cmp x y ≤ 0)`. -/
def jsSort {α : Type} (le : α → α → Bool) (l : List α) : List α :=
  l.foldl (fun acc a => insertLe le a acc) []

theorem mem_insertLe {α : Type} (le : α → α → Bool) (a x : α)
    (l : List α) : x ∈ insertLe le a l ↔ x = a ∨ x ∈ l := by
  induction l with
  | nil => simp [insertLe]
  | cons b t ih =>
    by_cases h : le b a = true
    · simp only [insertLe, if_pos h, List.mem_cons, ih]
      tauto
    · simp only [insertLe, if_neg h, List.mem_cons]

theorem mem_jsSort {α : Type} (le : α → α → Bool) (x : α) (l : List α) :
    x ∈ jsSort le l ↔ x ∈ l := by
  suffices h : ∀ acc, x ∈ l.foldl (fun acc a => insertLe le a acc) acc ↔
      x ∈ l ∨ x ∈ acc by
    simpa [jsSort] using h []
  induction l with
  | nil => simp
  | cons b t ih =>
    intro acc
    simp only [List.foldl_cons, ih, mem_insertLe, List.mem_cons]
    tauto

/-- First-seen deduplication used when merging completion-provider
outputs: keeps the first occurrence of each value, in order. -/
def dedupKeepFirst (seen : List String) : List String → List String
  | [] => []
  | x :: t =>
    if x ∈ seen then dedupKeepFirst seen t
    else x :: dedupKeepFirst (x :: seen) t

theorem mem_dedupKeepFirst (x : String) :
    ∀ (l seen : List String), x ∈ dedupKeepFirst seen l ↔
      (x ∈ l ∧ x ∉ seen) := by
  intro l
  induction l with
  | nil => simp [dedupKeepFirst]
  | cons b t ih =>
    intro seen
    by_cases hb : b ∈ seen
    · simp only [dedupKeepFirst, if_pos hb, ih, List.mem_cons]
      constructor
      · rintro ⟨h1, h2⟩
        exact ⟨Or.inr h1, h2⟩
      · rintro ⟨h1 | h1, h2⟩
        · exact absurd hb (h1 ▸ h2)
        · exact ⟨h1, h2⟩
    · simp only [dedupKeepFirst, if_neg hb, List.mem_cons, ih]
      by_cases hx : x = b
      · subst hx
        simp [hb]
      · simp only [hx, false_or, List.mem_cons, not_or]
        try tauto

/-! ## Path Utility (`PathUtils` in `filesystem-types.ts`)

Character-level helpers model `String.prototype.split('/')` and
`Array.prototype.join('/')`. -/

/-- `s.split('/')` on the character list: `n` separators yield `n + 1`
(possibly empty) parts. -/
def sepSplit : List Char → List (List Char)
  | [] => [[]]
  | c :: cs =>
    if c = '/' then [] :: sepSplit cs
    else
      match sepSplit cs with
      | p :: ps => (c :: p) :: ps
      | [] => [[c]]

/-- `parts.join('/')` on character lists. -/
def interSep : List (List Char) → List Char
  | [] => []
  | [p] => p
  | p :: ps => p ++ '/' :: interSep ps

/-- The segment-processing loop of `PathUtils.normalize`: `..` pops the
previous segment unless there is none or it is itself `..`; a leading
`..` is kept only on relative paths; everything else is pushed. -/
def normSegs (abs : Bool) (acc : List (List Char)) :
    List (List Char) → List (List Char)
  | [] => acc
  | seg :: rest =>
    if seg = ['.', '.'] then
      if acc ≠ [] ∧ acc.getLast? ≠ some ['.', '.'] then
        normSegs abs acc.dropLast rest
      else if ¬ abs then normSegs abs (acc ++ [seg]) rest
      else normSegs abs acc rest
    else normSegs abs (acc ++ [seg]) rest

namespace PathUtils

/-- `PathUtils.isAbsolute`: the path starts with the separator. -/
def isAbsolute (path : String) : Bool :=
  match path.data with
  | '/' :: _ => true
  | _ => false

/-- Core of `PathUtils.normalize`, after the backslash replacement. -/
def normCore (chars : List Char) : String :=
  let abs := match chars with | '/' :: _ => true | _ => false
  let segs := (sepSplit chars).filter fun s => !s.isEmpty && !(s == ['.'])
  let norm := normSegs abs [] segs
  let res := (if abs then ['/'] else []) ++ interSep norm
  if res = [] then (if abs then "/" else ".") else ⟨res⟩

/-- `PathUtils.normalize`. -/
def normalize (path : String) : String :=
  if path = "" then "/"
  else normCore (path.data.map fun c => if c = '\\' then '/' else c)

/-- `PathUtils.join` restricted to two segments (the only arity used by
the file-system engine). -/
def join (a b : String) : String :=
  normalize (a ++ "/" ++ b)

/-- `PathUtils.basename` (without the optional suffix argument, which no
file-system code path passes). -/
def basename (path : String) : String :=
  let n := (normalize path).data
  ⟨(n.reverse.takeWhile (· ≠ '/')).reverse⟩

/-- `PathUtils.dirname`. -/
def dirname (path : String) : String :=
  let n := normalize path
  if n = "/" then "/"
  else
    let pre := (n.data.reverse.dropWhile (· ≠ '/')).reverse
    match pre with
    | [] => "."
    | ['/'] => "/"
    | _ => ⟨pre.dropLast⟩

/-- `PathUtils.extname`: empty when the basename has no dot or the last
dot is its first character. -/
def extname (path : String) : String :=
  let b := (basename path).data
  if '.' ∈ b then
    let t := b.reverse.takeWhile (· ≠ '.')
    if b.length - t.length - 1 = 0 then ""
    else ⟨'.' :: t.reverse⟩
  else ""

/-- `PathUtils.resolve`. -/
def resolve (from' to' : String) : String :=
  if isAbsolute to' then normalize to'
  else normalize (join from' to')

/-- `PathUtils.parseInfo` (the fields used by the file-system engine). -/
structure PathInfo where
  isAbs : Bool
  normalized : String
  parent : String
  base : String
  extension : String
deriving Repr, DecidableEq

def parseInfo (path : String) : PathInfo :=
  let n := normalize path
  { isAbs := isAbsolute path
    normalized := n
    parent := dirname n
    base := basename n
    extension := extname n }

end PathUtils

/-! ### Structure of normalized absolute paths

A normalized absolute path is `/` followed by `/`-joined clean segments:
nonempty, free of separators and backslashes, and neither `.` nor `..`.
-/

/-- A clean path segment (as a character list). -/
def goodSeg (s : List Char) : Prop :=
  s ≠ [] ∧ '/' ∉ s ∧ '\\' ∉ s ∧ s ≠ ['.'] ∧ s ≠ ['.', '.']

instance (s : List Char) : Decidable (goodSeg s) := by
  unfold goodSeg
  infer_instance

/-- The absolute path made of the given segments. -/
def mkAbs (l : List (List Char)) : String :=
  ⟨'/' :: interSep l⟩

/-- `p` is a normalized absolute path. -/
def NormAbs (p : String) : Prop :=
  ∃ l, (∀ s ∈ l, goodSeg s) ∧ p = mkAbs l

/-- A valid child name: a single clean segment. -/
def ValidSeg (name : String) : Prop :=
  goodSeg name.data

instance (name : String) : Decidable (ValidSeg name) := by
  unfold ValidSeg
  infer_instance

theorem sepSplit_ne_nil : ∀ l : List Char, sepSplit l ≠ [] := by
  intro l
  induction l with
  | nil => simp [sepSplit]
  | cons c cs ih =>
    by_cases hc : c = '/'
    · simp [sepSplit, hc]
    · simp only [sepSplit, if_neg hc]
      cases h : sepSplit cs with
      | nil => simp
      | cons p ps => simp

theorem sepSplit_mem (l : List Char) :
    ∀ s ∈ sepSplit l, '/' ∉ s ∧ ∀ c ∈ s, c ∈ l := by
  induction l with
  | nil =>
    intro s hs
    simp [sepSplit] at hs
    simp [hs]
  | cons c cs ih =>
    intro s hs
    by_cases hc : c = '/'
    · rw [sepSplit, if_pos hc] at hs
      rcases List.mem_cons.mp hs with h | h
      · simp [h]
      · rcases ih s h with ⟨h1, h2⟩
        exact ⟨h1, fun x hx => List.mem_cons_of_mem _ (h2 x hx)⟩
    · rw [sepSplit, if_neg hc] at hs
      rcases hsep : sepSplit cs with _ | ⟨p, ps⟩
      · exact absurd hsep (sepSplit_ne_nil cs)
      · rw [hsep] at hs
        rcases List.mem_cons.mp hs with h | h
        · subst h
          have hp := ih p (hsep ▸ List.mem_cons_self _ _)
          constructor
          · simp only [List.mem_cons, not_or]
            exact ⟨fun hcc => hc hcc.symm, hp.1⟩
          · intro x hx
            rcases List.mem_cons.mp hx with h | h
            · simp [h]
            · exact List.mem_cons_of_mem _ (hp.2 x h)
        · rcases ih s (hsep ▸ List.mem_cons_of_mem _ h) with ⟨h1, h2⟩
          exact ⟨h1, fun x hx => List.mem_cons_of_mem _ (h2 x hx)⟩

theorem sepSplit_no_slash (a : List Char) (h : '/' ∉ a) :
    sepSplit a = [a] := by
  induction a with
  | nil => rfl
  | cons c cs ih =>
    simp only [List.mem_cons, not_or] at h
    rw [sepSplit, if_neg (fun hc => h.1 hc.symm), ih h.2]

theorem sepSplit_append (a rest : List Char) (h : '/' ∉ a) :
    sepSplit (a ++ '/' :: rest) = a :: sepSplit rest := by
  induction a with
  | nil => simp [sepSplit]
  | cons c cs ih =>
    simp only [List.mem_cons, not_or] at h
    rw [List.cons_append, sepSplit, if_neg (fun hc => h.1 hc.symm), ih h.2]

theorem interSep_cons (p : List Char) (l : List (List Char)) (h : l ≠ []) :
    interSep (p :: l) = p ++ '/' :: interSep l := by
  cases l with
  | nil => exact absurd rfl h
  | cons q t => rfl

theorem sepSplit_interSep (l : List (List Char)) (hne : l ≠ [])
    (h : ∀ s ∈ l, '/' ∉ s) : sepSplit (interSep l) = l := by
  induction l with
  | nil => exact absurd rfl hne
  | cons p t ih =>
    cases t with
    | nil =>
      show sepSplit p = [p]
      exact sepSplit_no_slash p (h p (List.mem_cons_self _ _))
    | cons q t' =>
      rw [interSep_cons p _ (by simp),
        sepSplit_append _ _ (h p (List.mem_cons_self _ _)),
        ih (by simp) (fun s hs => h s (List.mem_cons_of_mem _ hs))]

theorem normSegs_all_push (abs : Bool) (l : List (List Char))
    (h : ∀ s ∈ l, s ≠ ['.', '.']) :
    ∀ acc, normSegs abs acc l = acc ++ l := by
  induction l with
  | nil => intro acc; simp [normSegs]
  | cons s t ih =>
    intro acc
    have hs : s ≠ ['.', '.'] := h s (List.mem_cons_self _ _)
    rw [show normSegs abs acc (s :: t) =
        normSegs abs (acc ++ [s]) t from by simp [normSegs, hs],
      ih (fun x hx => h x (List.mem_cons_of_mem _ hx))]
    simp

theorem normSegs_abs_good (l : List (List Char))
    (hl : ∀ s ∈ l, s ≠ [] ∧ '/' ∉ s ∧ '\\' ∉ s ∧ s ≠ ['.']) :
    ∀ acc, (∀ s ∈ acc, goodSeg s) → ∀ s ∈ normSegs true acc l, goodSeg s := by
  induction l with
  | nil =>
    intro acc hacc s hs
    exact hacc s hs
  | cons seg t ih =>
    intro acc hacc s hs
    have ht : ∀ s ∈ t, s ≠ [] ∧ '/' ∉ s ∧ '\\' ∉ s ∧ s ≠ ['.'] :=
      fun x hx => hl x (List.mem_cons_of_mem _ hx)
    by_cases hdd : seg = ['.', '.']
    · rw [show normSegs true acc (seg :: t) =
          if acc ≠ [] ∧ acc.getLast? ≠ some ['.', '.'] then
            normSegs true acc.dropLast t
          else normSegs true acc t from by
            simp [normSegs, hdd]] at hs
      by_cases hc : acc ≠ [] ∧ acc.getLast? ≠ some ['.', '.']
      · rw [if_pos hc] at hs
        exact ih ht acc.dropLast
          (fun x hx => hacc x ((List.dropLast_sublist acc).subset hx)) s hs
      · rw [if_neg hc] at hs
        exact ih ht acc hacc s hs
    · rw [show normSegs true acc (seg :: t) =
          normSegs true (acc ++ [seg]) t from by simp [normSegs, hdd]] at hs
      refine ih ht (acc ++ [seg]) (fun x hx => ?_) s hs
      rcases List.mem_append.mp hx with h | h
      · exact hacc x h
      · have hx' : x = seg := by simpa using h
        subst hx'
        rcases hl x (List.mem_cons_self _ _) with ⟨h1, h2, h3, h4⟩
        exact ⟨h1, h2, h3, h4, hdd⟩

theorem mem_interSep (l : List (List Char)) :
    ∀ c ∈ interSep l, c = '/' ∨ ∃ s ∈ l, c ∈ s := by
  induction l with
  | nil => intro c hc; simp [interSep] at hc
  | cons p t ih =>
    intro c hc
    cases t with
    | nil =>
      rw [show interSep [p] = p from rfl] at hc
      exact Or.inr ⟨p, List.mem_cons_self _ _, hc⟩
    | cons q t' =>
      rw [interSep_cons p _ (by simp)] at hc
      rcases List.mem_append.mp hc with h | h
      · exact Or.inr ⟨p, List.mem_cons_self _ _, h⟩
      · rcases List.mem_cons.mp h with h | h
        · exact Or.inl h
        · rcases ih c h with h | ⟨s, hs, hcs⟩
          · exact Or.inl h
          · exact Or.inr ⟨s, List.mem_cons_of_mem _ hs, hcs⟩

theorem map_id_of_no_bs (cs : List Char) (h : '\\' ∉ cs) :
    (cs.map fun c => if c = '\\' then '/' else c) = cs := by
  induction cs with
  | nil => rfl
  | cons c t ih =>
    simp only [List.mem_cons, not_or] at h
    have hc : c ≠ '\\' := fun hcc => h.1 hcc.symm
    simp [hc, ih h.2]

theorem string_ne_empty_of_data (p : String) (c : Char) (rest : List Char)
    (h : p.data = c :: rest) : p ≠ "" := by
  intro hc
  rw [hc] at h
  exact absurd h (by simp)

namespace PathUtils

theorem normCore_abs (rest : List Char) :
    normCore ('/' :: rest) =
      mkAbs (normSegs true []
        ((sepSplit ('/' :: rest)).filter fun s => !s.isEmpty && !(s == ['.']))) := by
  rw [normCore]
  simp only [mkAbs]
  rfl

theorem isAbsolute_data (p : String) :
    isAbsolute p = true ↔ ∃ rest, p.data = '/' :: rest := by
  unfold isAbsolute
  constructor
  · intro h
    split at h
    · next heq => exact ⟨_, heq⟩
    · exact absurd h (by simp)
  · rintro ⟨rest, hrest⟩
    rw [hrest]
    rfl

/-- Every normalization of an absolute path is `mkAbs` of clean
segments. -/
theorem normalize_abs_repr (p : String) (h : isAbsolute p = true) :
    ∃ l, (∀ s ∈ l, goodSeg s) ∧ normalize p = mkAbs l := by
  rcases (isAbsolute_data p).mp h with ⟨rest, hrest⟩
  have hne : p ≠ "" := string_ne_empty_of_data p '/' rest hrest
  have hchars : (p.data.map fun c => if c = '\\' then '/' else c) =
      '/' :: (rest.map fun c => if c = '\\' then '/' else c) := by
    rw [hrest]
    simp
  rw [normalize, if_neg hne, hchars, normCore_abs]
  set segs := (sepSplit ('/' :: (rest.map fun c => if c = '\\' then '/' else c))).filter
      fun s => !s.isEmpty && !(s == ['.']) with hsegs
  refine ⟨_, ?_, rfl⟩
  refine normSegs_abs_good segs ?_ [] (by simp)
  intro s hs
  have hmem := List.mem_of_mem_filter hs
  have hfilt := List.of_mem_filter hs
  rcases sepSplit_mem _ s hmem with ⟨hslash, hsub⟩
  simp only [Bool.and_eq_true, Bool.not_eq_true'] at hfilt
  refine ⟨by simpa using hfilt.1, hslash, ?_, by simpa using hfilt.2⟩
  intro hbs
  have := hsub '\\' hbs
  rcases List.mem_cons.mp this with h | h
  · exact absurd h (by decide)
  · rcases List.mem_map.mp h with ⟨c, _, hc⟩
    by_cases hcb : c = '\\'
    · rw [if_pos hcb] at hc
      exact absurd hc (by decide)
    · rw [if_neg hcb] at hc
      exact hcb hc

/-- Normalization fixes `mkAbs` of clean segments. -/
theorem normalize_mkAbs (l : List (List Char)) (hl : ∀ s ∈ l, goodSeg s) :
    normalize (mkAbs l) = mkAbs l := by
  have hdata : (mkAbs l).data = '/' :: interSep l := rfl
  have hne : mkAbs l ≠ "" := string_ne_empty_of_data _ '/' _ hdata
  have hnobs : '\\' ∉ (mkAbs l).data := by
    rw [hdata]
    intro hmem
    rcases List.mem_cons.mp hmem with h | h
    · exact absurd h (by decide)
    · rcases mem_interSep l '\\' h with h | ⟨s, hs, hcs⟩
      · exact absurd h (by decide)
      · exact (hl s hs).2.2.1 hcs
  rw [normalize, if_neg hne, map_id_of_no_bs _ hnobs, hdata, normCore_abs]
  cases hcase : l with
  | nil =>
    rw [show interSep ([] : List (List Char)) = [] from rfl]
    rw [show sepSplit ('/' :: ([] : List Char)) = [[], []] from rfl]
    rfl
  | cons p t =>
    have hlne : l ≠ [] := by rw [hcase]; simp
    rw [← hcase]
    have hsplit : sepSplit ('/' :: interSep l) = [] :: l := by
      rw [show sepSplit ('/' :: interSep l) = [] :: sepSplit (interSep l) from by
        rw [sepSplit, if_pos rfl]]
      rw [sepSplit_interSep l hlne (fun s hs => (hl s hs).2.1)]
    rw [hsplit]
    have hfilter : (([] :: l).filter fun s => !s.isEmpty && !(s == ['.'])) = l := by
      rw [show (([] :: l).filter fun s => !s.isEmpty && !(s == ['.'])) =
          l.filter fun s => !s.isEmpty && !(s == ['.']) from by simp [List.filter]]
      rw [List.filter_eq_self]
      intro s hs
      rcases hl s hs with ⟨h1, _, _, h4, _⟩
      simp [h1, h4]
    rw [hfilter, normSegs_all_push true l (fun s hs => (hl s hs).2.2.2.2) []]
    simp

/-- `normalize` of an absolute path is idempotent (the shared core of
claim C8). -/
theorem normalize_idem_abs (p : String) (h : isAbsolute p = true) :
    normalize (normalize p) = normalize p := by
  rcases normalize_abs_repr p h with ⟨l, hl, heq⟩
  rw [heq, normalize_mkAbs l hl]

theorem isAbsolute_mkAbs (l : List (List Char)) :
    isAbsolute (mkAbs l) = true := by
  rw [isAbsolute]
  rfl

theorem normAbs_of_abs (p : String) (h : isAbsolute p = true) :
    NormAbs (normalize p) := by
  rcases normalize_abs_repr p h with ⟨l, hl, heq⟩
  exact ⟨l, hl, heq⟩

end PathUtils

theorem NormAbs.norm_eq {p : String} (h : NormAbs p) :
    PathUtils.normalize p = p := by
  rcases h with ⟨l, hl, rfl⟩
  exact PathUtils.normalize_mkAbs l hl

theorem NormAbs.isAbs {p : String} (h : NormAbs p) :
    PathUtils.isAbsolute p = true := by
  rcases h with ⟨l, _, rfl⟩
  exact PathUtils.isAbsolute_mkAbs l

/-! ## Virtual File System Engine (`filesystem.ts`)

The in-memory `FileSystemState` plus the persisted content blobs are
modelled as one record; `storage.setItem`/`removeItem` on
`file-content-<id>` keys act on the `contents` map, and `saveState` (the
write-through persistence of the state blob) is a no-op on the model.
The engine is assumed initialized (`initialize` loads or seeds state
before every public operation and is idempotent). -/

inductive FType where
  | file
  | directory
deriving Repr, DecidableEq

/-- `FileNode` of `filesystem-types.ts`.  Optional TS fields are
`Option`s. -/
structure FileNode where
  name : String
  type : FType
  path : String
  parent : Option String := none
  size : Nat := 0
  createdAt : Nat := 0
  modifiedAt : Nat := 0
  permissions : String := ""
  extension : Option String := none
  children : Option (List String) := none
  contentId : Option String := none
deriving Repr, DecidableEq

/-- `FileContent`. -/
structure FileContent where
  id : String
  content : String
  encoding : String := "utf-8"
deriving Repr, DecidableEq

/-- The whole engine state: `FileSystemState` (nodes, cwd) together with
the content-blob store and the id counter that models the fresh
content-id generator. -/
structure FS where
  nodes : List (String × FileNode)
  cwd : String
  contents : List (String × FileContent)
  nextId : Nat := 0
deriving Repr, DecidableEq

/-- POSIX-style error codes (`FS_ERRORS`), plus `fuel` for the modelling
artifact of running out of recursion fuel (never reached on well-formed
states and inputs). -/
inductive FsErr where
  | enoent
  | eexist
  | enotdir
  | eisdir
  | enotempty
  | eperm
  | enospc
  | einval
  | fuel
deriving Repr, DecidableEq

/-- The engine monad: state threading with exceptions that keep the
state mutated so far (TS mutates `this.state` in place, so a thrown
error leaves prior mutations visible). -/
def FsM (α : Type) : Type :=
  FS → Except FsErr α × FS

instance : Monad FsM where
  pure a := fun s => (.ok a, s)
  bind m f := fun s =>
    match m s with
    | (.ok a, s') => f a s'
    | (.error e, s') => (.error e, s')

def throwFs {α : Type} (e : FsErr) : FsM α := fun s => (.error e, s)

def getFs : FsM FS := fun s => (.ok s, s)

def setFs (s' : FS) : FsM Unit := fun _ => (.ok (), s')

def modifyFs (f : FS → FS) : FsM Unit := fun s => (.ok (), f s)

@[simp] theorem pure_apply {α : Type} (a : α) (s : FS) :
    (pure a : FsM α) s = (.ok a, s) := rfl

@[simp] theorem bind_apply {α β : Type} (m : FsM α) (f : α → FsM β)
    (s : FS) :
    (m >>= f) s =
      match m s with
      | (.ok a, s') => f a s'
      | (.error e, s') => (.error e, s') := rfl

@[simp] theorem throwFs_apply {α : Type} (e : FsErr) (s : FS) :
    (throwFs e : FsM α) s = (.error e, s) := rfl

@[simp] theorem getFs_apply (s : FS) : getFs s = (.ok s, s) := rfl

@[simp] theorem setFs_apply (s s' : FS) : setFs s' s = (.ok (), s') := rfl

@[simp] theorem modifyFs_apply (f : FS → FS) (s : FS) :
    modifyFs f s = (.ok (), f s) := rfl

/-- `FS_CONFIG`. -/
def maxTotalSize : Nat := 10 * 1024 * 1024

def maxPathLength : Nat := 260

def maxFilenameLength : Nat := 255

def reservedNames : List String :=
  ["CON", "PRN", "AUX", "NUL", "COM1", "COM2", "COM3", "COM4", "COM5",
   "COM6", "COM7", "COM8", "COM9", "LPT1", "LPT2", "LPT3", "LPT4", "LPT5",
   "LPT6", "LPT7", "LPT8", "LPT9"]

def invalidChars : List Char :=
  ['<', '>', ':', '\"', '|', '?', '*', '\x00']

def permissionsFile : String := "rw-r--r--"

def permissionsDirectory : String := "rwxr-xr-x"

/-- Storage key of a content blob (`FS_STORAGE_KEYS.FILE_CONTENT_PREFIX`
followed by the id). -/
def contentKey (id : String) : String := "file-content-" ++ id

/-- Model of the fresh content id
`file-${Date.now()}-${Math.random()...}` (deterministic counter; no
claim depends on the id text). -/
def freshContentId (n : Nat) : String := "file-" ++ toString n

namespace FileSystemService

/-- `resolvePath`: absolute paths are normalized, relative ones resolved
against the current working directory. -/
def resolvePath (path : String) : FsM String := do
  let s ← getFs
  if PathUtils.isAbsolute path then pure (PathUtils.normalize path)
  else pure (PathUtils.resolve s.cwd path)

/-- Pure counterpart of `resolvePath` for stating theorems. -/
def resolveIn (s : FS) (path : String) : String :=
  if PathUtils.isAbsolute path then PathUtils.normalize path
  else PathUtils.resolve s.cwd path

@[simp] theorem resolvePath_apply (path : String) (s : FS) :
    resolvePath path s = (.ok (resolveIn s path), s) := by
  unfold resolvePath resolveIn
  by_cases h : PathUtils.isAbsolute path <;> simp [h]

/-- `getCurrentDirectory`. -/
def getCurrentDirectory : FsM String := do
  let s ← getFs
  pure s.cwd

/-- `validatePath`: the pure check. -/
def pathViolation (path : String) : Bool :=
  if jsLength path > maxPathLength then true
  else if jsLength (PathUtils.basename path) > maxFilenameLength then true
  else if invalidChars.any (fun c => c ∈ path.data) then true
  else if jsToUpper (PathUtils.basename path) ∈ reservedNames then true
  else false

/-- `validatePath` (all violations throw `EINVAL`). -/
def validatePath (path : String) : FsM Unit :=
  if pathViolation path then throwFs .einval else pure ()

/-- `getStats().storageUsed`: the sum of all file-node sizes. -/
def storageUsed (s : FS) : Nat :=
  (s.nodes.map fun kv => if kv.2.type = .file then kv.2.size else 0).sum

/-- `checkStorageLimit` (the additional size can be negative for
shrinking writes). -/
def checkStorageLimit (additionalSize : Int) : FsM Unit := do
  let s ← getFs
  if (storageUsed s : Int) + additionalSize > (maxTotalSize : Int) then
    throwFs .enospc
  else pure ()

/-- `changeDirectory`. -/
def changeDirectory (path : String) : FsM Unit := do
  let resolved ← resolvePath path
  let s ← getFs
  match objGet s.nodes resolved with
  | none => throwFs .enoent
  | some node =>
    if node.type ≠ .directory then throwFs .enotdir
    else setFs { s with cwd := resolved }

/-- `ListingOptions` (the fields `listDirectory` reads). -/
inductive SortBy where
  | byName
  | bySize
  | byDate
  | byType
deriving Repr, DecidableEq

structure ListingOptions where
  showHidden : Bool := false
  sortBy : SortBy := .byName
  reverse : Bool := false
deriving Repr, DecidableEq

/-- `localeCompare`, modelled as code-point comparison (no claim depends
on listing order). -/
def locCmp (a b : String) : Int :=
  match compare a b with
  | .lt => -1
  | .eq => 0
  | .gt => 1

/-- The comparator of `sortItems`. -/
def cmpNodes (sortBy : SortBy) (a b : FileNode) : Int :=
  if a.type ≠ b.type then (if a.type = .directory then -1 else 1)
  else
    match sortBy with
    | .bySize => (a.size : Int) - (b.size : Int)
    | .byDate => (a.modifiedAt : Int) - (b.modifiedAt : Int)
    | .byType => locCmp (a.extension.getD "") (b.extension.getD "")
    | .byName => locCmp a.name b.name

/-- `sortItems` (`Array.prototype.sort` with the comparator above,
modelled by a stable sort). -/
def sortItems (options : ListingOptions) (items : List FileNode) :
    List FileNode :=
  jsSort
    (fun a b =>
      decide ((if options.reverse then -(cmpNodes options.sortBy a b)
               else cmpNodes options.sortBy a b) ≤ 0))
    items

/-- The child-collection loop of `listDirectory`. -/
def collectChildren (s : FS) (targetPath : String)
    (showHidden : Bool) : List String → List FileNode
  | [] => []
  | childName :: rest =>
    let childPath := PathUtils.join targetPath childName
    match objGet s.nodes childPath with
    | none => collectChildren s targetPath showHidden rest
    | some childNode =>
      if !showHidden && jsStartsWith childName "." then
        collectChildren s targetPath showHidden rest
      else childNode :: collectChildren s targetPath showHidden rest

/-- `listDirectory`. -/
def listDirectory (path : Option String) (options : ListingOptions) :
    FsM (List FileNode) := do
  let s ← getFs
  let targetPath ←
    match path with
    | some p => resolvePath p
    | none => pure s.cwd
  match objGet s.nodes targetPath with
  | none => throwFs .enoent
  | some node =>
    if node.type ≠ .directory then throwFs .enotdir
    else
      let children := node.children.getD []
      pure (sortItems options (collectChildren s targetPath
        options.showHidden children))

/-- `readFile`. -/
def readFile (path : String) : FsM String := do
  let resolved ← resolvePath path
  let s ← getFs
  match objGet s.nodes resolved with
  | none => throwFs .enoent
  | some node =>
    if node.type ≠ .file then throwFs .eisdir
    else
      match node.contentId with
      | none => pure ""
      | some cid =>
        match objGet s.contents (contentKey cid) with
        | none => pure ""
        | some fc => pure fc.content

/-- `exists`. -/
def existsPath (path : String) : FsM Bool := do
  let resolved ← resolvePath path
  let s ← getFs
  pure (objGet s.nodes resolved).isSome

/-- `stat` (the defensive copy `{...node}` is the node value itself in
the model). -/
def stat (path : String) : FsM FileNode := do
  let resolved ← resolvePath path
  let s ← getFs
  match objGet s.nodes resolved with
  | none => throwFs .enoent
  | some node => pure node

/-- The sorted children list after `push` + `sort()` (JS default sort:
lexicographic string order, modelled with a stable sort). -/
def childSort (l : List String) : List String :=
  jsSort (fun a b => decide (a ≤ b)) l

/-- The trailing parent-registration step of `createDirectory` (`if
(parent && parent.children) { push; sort; modifiedAt }`), as a pure state
transform. -/
def registerDirInParent (now : Nat) (parentPath base : String) (s : FS) :
    FS :=
  match objGet s.nodes parentPath with
  | some parent =>
    match parent.children with
    | some cs =>
      let parent' : FileNode :=
        { parent with
          children := some (childSort (cs ++ [base]))
          modifiedAt := now }
      { s with nodes := objSet s.nodes parentPath parent' }
    | none => s
  | none => s

/-- The trailing parent-registration step of `createFile` (`if (parent &&
parent.children) { if (!includes) { push; sort; } modifiedAt }`). -/
def registerFileInParent (now : Nat) (parentPath base : String) (s : FS) :
    FS :=
  match objGet s.nodes parentPath with
  | some parent =>
    match parent.children with
    | some cs =>
      if base ∈ cs then
        let parent' : FileNode := { parent with modifiedAt := now }
        { s with nodes := objSet s.nodes parentPath parent' }
      else
        let parent' : FileNode :=
          { parent with
            children := some (childSort (cs ++ [base]))
            modifiedAt := now }
        { s with nodes := objSet s.nodes parentPath parent' }
    | none => s
  | none => s

/-- `createDirectory`, with explicit recursion fuel (the TS recursion on
the parent path terminates because paths shrink; fuel exhaustion is the
distinguished `FsErr.fuel`, never reached by the wrapper's bound). -/
def createDirectoryFuel (now : Nat) : Nat → String → Bool → FsM Unit
  | 0, _, _ => throwFs .fuel
  | fuel + 1, path, recursive => do
    let resolved ← resolvePath path
    validatePath resolved
    let s ← getFs
    if (objGet s.nodes resolved).isSome then throwFs .eexist
    else do
      let info := PathUtils.parseInfo resolved
      let parentPath := info.parent
      (match objGet s.nodes parentPath with
       | none =>
          if recursive then createDirectoryFuel now fuel parentPath true
          else throwFs .enoent
       | some parentNode =>
          if parentNode.type ≠ .directory then throwFs .enotdir
          else pure ())
      let s ← getFs
      let newNode : FileNode :=
        { name := info.base
          type := .directory
          path := resolved
          parent := some parentPath
          size := 0
          createdAt := now
          modifiedAt := now
          permissions := permissionsDirectory
          children := some [] }
      setFs { s with nodes := objSet s.nodes resolved newNode }
      let s ← getFs
      setFs (registerDirInParent now parentPath info.base s)

/-- `createDirectory`. -/
def createDirectory (now : Nat) (path : String) (recursive : Bool) :
    FsM Unit := do
  let s ← getFs
  createDirectoryFuel now (jsLength s.cwd + jsLength path + 2) path recursive

/-- `createFile`. -/
def createFile (now : Nat) (path content : String) (force : Bool) :
    FsM Unit := do
  let resolved ← resolvePath path
  validatePath resolved
  let s ← getFs
  if (objGet s.nodes resolved).isSome && !force then throwFs .eexist
  else do
    let info := PathUtils.parseInfo resolved
    let parentPath := info.parent
    match objGet s.nodes parentPath with
    | none => throwFs .enoent
    | some parentNode =>
      if parentNode.type ≠ .directory then throwFs .enotdir
      else do
        checkStorageLimit (jsLength content)
        let s ← getFs
        let contentId := freshContentId s.nextId
        let blob : FileContent := ⟨contentId, content, "utf-8"⟩
        setFs { s with
          nextId := s.nextId + 1
          contents := objSet s.contents (contentKey contentId) blob }
        let s ← getFs
        let newNode : FileNode :=
          { name := info.base
            type := .file
            path := resolved
            parent := some parentPath
            size := jsLength content
            createdAt := now
            modifiedAt := now
            permissions := permissionsFile
            extension := some info.extension
            contentId := some contentId }
        setFs { s with nodes := objSet s.nodes resolved newNode }
        let s ← getFs
        setFs (registerFileInParent now parentPath info.base s)

/-- `writeFile`. -/
def writeFile (now : Nat) (path content : String) (append : Bool) :
    FsM Unit := do
  let resolved ← resolvePath path
  let s ← getFs
  match objGet s.nodes resolved with
  | some node =>
    if node.type ≠ .file then throwFs .eisdir
    else do
      let finalContent ←
        if append then do
          let existingContent ← readFile path
          pure (existingContent ++ content)
        else pure content
      checkStorageLimit ((jsLength finalContent : Int) - (node.size : Int))
      let s ← getFs
      let contentId ←
        match node.contentId with
        | some cid => pure cid
        | none => do
          let cid := freshContentId s.nextId
          setFs { s with nextId := s.nextId + 1 }
          pure cid
      let s ← getFs
      let blob : FileContent := ⟨contentId, finalContent, "utf-8"⟩
      let contents' := objSet s.contents (contentKey contentId) blob
      setFs { s with contents := contents' }
      let s ← getFs
      let node' : FileNode :=
        { node with
          size := jsLength finalContent
          modifiedAt := now
          contentId := some contentId }
      setFs { s with nodes := objSet s.nodes resolved node' }
  | none => createFile now path content false

/-- The parent-detach step of `delete` (`splice(indexOf(name), 1)` plus
the `modifiedAt` bump, guarded on the parent and its children array
existing and the name being found). -/
def detachFromParent (now : Nat) (node : FileNode) (s : FS) : FS :=
  match node.parent with
  | some pp =>
    match objGet s.nodes pp with
    | some parent =>
      match parent.children with
      | some cs =>
        if node.name ∈ cs then
          let parent' : FileNode :=
            { parent with
              children := some (cs.erase node.name)
              modifiedAt := now }
          { s with nodes := objSet s.nodes pp parent' }
        else s
      | none => s
    | none => s
  | none => s

mutual

/-- `delete`, with explicit fuel.  The `for (const childName of
children)` loop iterates the live `children` array that the recursive
child deletions splice, so the loop is modelled by an index into the
current children list of the node (`deleteChildren`); if the node itself
disappeared the iteration stops (the captured array is then empty for
every code path reachable here). -/
def deleteFuel (now : Nat) : Nat → String → Bool → FsM Unit
  | 0, _, _ => throwFs .fuel
  | fuel + 1, path, recursive => do
    let resolved ← resolvePath path
    let s ← getFs
    match objGet s.nodes resolved with
    | none => throwFs .enoent
    | some node => do
      (if node.type = .directory then do
        let children := node.children.getD []
        if children.length > 0 && !recursive then throwFs .enotempty
        else deleteChildren now fuel resolved 0
      else
        match node.contentId with
        | some cid =>
          modifyFs fun s =>
            { s with contents := objDel s.contents (contentKey cid) }
        | none => pure ())
      modifyFs (detachFromParent now node)
      modifyFs fun s => { s with nodes := objDel s.nodes resolved }

/-- The live-array child loop of `delete`. -/
def deleteChildren (now : Nat) : Nat → String → Nat → FsM Unit
  | 0, _, _ => throwFs .fuel
  | fuel + 1, p, i => do
    let s ← getFs
    match objGet s.nodes p with
    | none => pure ()
    | some node =>
      let cs := node.children.getD []
      if h : i < cs.length then do
        deleteFuel now fuel (PathUtils.join p cs[i]) true
        deleteChildren now fuel p (i + 1)
      else pure ()

end

/-- Fuel bound used by the `delete` and `copy` wrappers: generous for
every well-formed state. -/
def opFuel (s : FS) : Nat :=
  s.nodes.length +
    (s.nodes.map fun kv => (kv.2.children.getD []).length).sum + 2

/-- `delete`. -/
def deleteOp (now : Nat) (path : String) (recursive : Bool) : FsM Unit := do
  let s ← getFs
  deleteFuel now (opFuel s) path recursive

/-- The `preserveTimestamps` re-stamp step of `copy`. -/
def restampDest (sourceNode : FileNode) (resolvedDest : String) (s : FS) :
    FS :=
  match objGet s.nodes resolvedDest with
  | some newNode =>
    let newNode' : FileNode :=
      { newNode with
        createdAt := sourceNode.createdAt
        modifiedAt := sourceNode.modifiedAt }
    { s with nodes := objSet s.nodes resolvedDest newNode' }
  | none => s

/-- `CopyOptions`. -/
structure CopyOptions where
  recursive : Bool := false
  force : Bool := false
  preserveTimestamps : Bool := false
deriving Repr, DecidableEq

mutual

/-- `copy`, with explicit fuel (like `delete`, the child loop iterates
the live source children array). -/
def copyFuel (now : Nat) :
    Nat → String → String → CopyOptions → FsM Unit
  | 0, _, _, _ => throwFs .fuel
  | fuel + 1, sourcePath, destPath, options => do
    let resolvedSource ← resolvePath sourcePath
    let resolvedDest ← resolvePath destPath
    let s ← getFs
    match objGet s.nodes resolvedSource with
    | none => throwFs .enoent
    | some sourceNode => do
      (if (objGet s.nodes resolvedDest).isSome && !options.force then
        (throwFs .eexist : FsM Unit)
      else pure ())
      if sourceNode.type = .file then do
        let content ← readFile sourcePath
        createFile now destPath content options.force
        if options.preserveTimestamps then
          modifyFs (restampDest sourceNode resolvedDest)
        else pure ()
      else do
        (if !options.recursive then (throwFs .eisdir : FsM Unit)
         else pure ())
        createDirectoryFuel now 1 destPath false
        copyChildren now fuel resolvedSource resolvedDest options 0

/-- The live-array child loop of `copy`. -/
def copyChildren (now : Nat) :
    Nat → String → String → CopyOptions → Nat → FsM Unit
  | 0, _, _, _, _ => throwFs .fuel
  | fuel + 1, src, dst, options, i => do
    let s ← getFs
    match objGet s.nodes src with
    | none => pure ()
    | some node =>
      let cs := node.children.getD []
      if h : i < cs.length then do
        copyFuel now fuel (PathUtils.join src cs[i])
          (PathUtils.join dst cs[i]) options
        copyChildren now fuel src dst options (i + 1)
      else pure ()

end

/-- `copy`. -/
def copy (now : Nat) (sourcePath destPath : String)
    (options : CopyOptions) : FsM Unit := do
  let s ← getFs
  copyFuel now (opFuel s + jsLength sourcePath + jsLength destPath)
    sourcePath destPath options

/-- `move`: copy (recursive, forced), then recursive delete of the
source. -/
def move (now : Nat) (sourcePath destPath : String) : FsM Unit := do
  copy now sourcePath destPath
    { recursive := true, force := true, preserveTimestamps := false }
  deleteOp now sourcePath true

end FileSystemService

/-! ## Argument Parser (`parser.ts`) and command schemas (`types.ts`) -/

/-- `Array.prototype.join(sep)`. -/
def joinSep (sep : String) : List String → String
  | [] => ""
  | [x] => x
  | x :: xs => x ++ sep ++ joinSep sep xs

/-- `ArgType`: the literal type tags, or an inline enum (an array of
strings). -/
inductive ArgTy where
  | str
  | num
  | boolean
  | url
  | file
  | theme
  | fmt
  | enum (options : List String)
deriving Repr, DecidableEq, BEq

/-- A parsed argument value (`string | number | boolean | array`). -/
inductive ArgValue where
  | str (s : String)
  | num (q : Rat)
  | boolean (b : Bool)
  | arr (xs : List ArgValue)
deriving Repr, BEq

/-- JS string coercion of a value (numbers modelled loosely; no claim
depends on coercing a number). -/
def jsToString : ArgValue → String
  | .str s => s
  | .num q => toString q
  | .boolean b => if b then "true" else "false"
  | .arr xs => joinSep "," (xs.map fun v =>
      match v with
      | .str s => s
      | .num q => toString q
      | .boolean b => if b then "true" else "false"
      | .arr _ => "")

/-- JS strict equality of a parsed value with a string literal
(`value === "lit"`). -/
def ArgValue.isStr (v : ArgValue) (s : String) : Bool :=
  match v with
  | .str t => t == s
  | _ => false

/-- JS truthiness of a parsed value. -/
def truthyV : ArgValue → Bool
  | .str s => !(s == "")
  | .num q => !(q == 0)
  | .boolean b => b
  | .arr _ => true

/-- `CommandArg` (recursive through `nested`). -/
inductive CArg where
  | mk (name description : String) (type : ArgTy) (required : Bool)
      (default : Option ArgValue) (choices : Option (List String))
      (nested : Option (List CArg))
deriving Repr

def CArg.name : CArg → String
  | .mk n _ _ _ _ _ _ => n

def CArg.description : CArg → String
  | .mk _ d _ _ _ _ _ => d

def CArg.type : CArg → ArgTy
  | .mk _ _ t _ _ _ _ => t

def CArg.required : CArg → Bool
  | .mk _ _ _ r _ _ _ => r

def CArg.default : CArg → Option ArgValue
  | .mk _ _ _ _ d _ _ => d

def CArg.choices : CArg → Option (List String)
  | .mk _ _ _ _ _ c _ => c

def CArg.nested : CArg → Option (List CArg)
  | .mk _ _ _ _ _ _ n => n

@[simp] theorem CArg.name_mk (n d t r df ch ns) :
    (CArg.mk n d t r df ch ns).name = n := rfl

@[simp] theorem CArg.description_mk (n d t r df ch ns) :
    (CArg.mk n d t r df ch ns).description = d := rfl

@[simp] theorem CArg.type_mk (n d t r df ch ns) :
    (CArg.mk n d t r df ch ns).type = t := rfl

@[simp] theorem CArg.required_mk (n d t r df ch ns) :
    (CArg.mk n d t r df ch ns).required = r := rfl

@[simp] theorem CArg.default_mk (n d t r df ch ns) :
    (CArg.mk n d t r df ch ns).default = df := rfl

@[simp] theorem CArg.choices_mk (n d t r df ch ns) :
    (CArg.mk n d t r df ch ns).choices = ch := rfl

@[simp] theorem CArg.nested_mk (n d t r df ch ns) :
    (CArg.mk n d t r df ch ns).nested = ns := rfl

/-- `.split(sep)` on a character list (generalizing `sepSplit`). -/
def splitOnChar (sep : Char) : List Char → List (List Char)
  | [] => [[]]
  | c :: cs =>
    if c = sep then [] :: splitOnChar sep cs
    else
      match splitOnChar sep cs with
      | p :: ps => (c :: p) :: ps
      | [] => [[c]]

/-- `Number(value)`, modelled for trimmed decimal literals (sign,
digits, optional fraction); the empty string is `0`, anything else is
`NaN` (`none`).  No claim depends on the numeric value itself. -/
def natOfDigits (cs : List Char) : Option Nat :=
  if cs ≠ [] && cs.all (·.isDigit) then
    some (cs.foldl (fun a c => a * 10 + (c.toNat - 48)) 0)
  else none

def jsToNumber (s : String) : Option Rat :=
  let t := jsTrim s
  if t = "" then some 0
  else
    let (sign, body) :=
      match t.data with
      | '-' :: r => ((-1 : Int), r)
      | '+' :: r => ((1 : Int), r)
      | r => ((1 : Int), r)
    match splitOnChar '.' body with
    | [ip] => (natOfDigits ip).map fun n => (sign * n : Int)
    | [ip, fp] =>
      if ip = [] && fp = [] then none
      else
        let ipv := if ip = [] then some 0 else natOfDigits ip
        let fpv := if fp = [] then some 0 else natOfDigits fp
        match ipv, fpv with
        | some i, some f =>
          some ((sign : Rat) * ((i : Rat) + (f : Rat) / ((10 : Rat) ^ fp.length)))
        | _, _ => none
    | _ => none

/-- `new URL(u)` parseability, modelled as scheme`://`nonempty-rest.  No
claim depends on URL validity. -/
def jsURLValid (u : String) : Bool :=
  match u.splitOn "://" with
  | scheme :: rest :: _ => !(scheme == "") && !(rest == "")
  | _ => false

/-- The JS type tag interpolated into parse error messages
(`${argDef.type}`: arrays join with a comma). -/
def typeName : ArgTy → String
  | .str => "string"
  | .num => "number"
  | .boolean => "boolean"
  | .url => "url"
  | .file => "file"
  | .theme => "theme"
  | .fmt => "format"
  | .enum xs => joinSep "," xs

namespace ArgumentParser

/-- `convertType`. -/
def convertType (value : String) (type : ArgTy) : Option ArgValue :=
  match type with
  | .enum xs => if xs.contains value then some (.str value) else none
  | .str => some (.str value)
  | .num => (jsToNumber value).map .num
  | .boolean =>
    let lower := jsToLower value
    if ["true", "1", "yes", "on"].contains lower then some (.boolean true)
    else if ["false", "0", "no", "off"].contains lower then
      some (.boolean false)
    else none
  | .url =>
    let urlValue := if jsStartsWith value "http" then value
      else "https://" ++ value
    if jsURLValid urlValue then some (.str urlValue) else none
  | .file => if value.length > 0 then some (.str value) else none
  | .theme => some (.str value)
  | .fmt => some (.str value)

/-- The trailing-token handling of `ArgumentParser.parse` (greedy join
for a lone string argument; list collection for a trailing enum
argument; otherwise surplus tokens are dropped), applied to the result
of the main loop. -/
def parseFinish (args : List String) (definition : List CArg)
    (r : Except String (Nat × List (String × ArgValue))) :
    Except String (List (String × ArgValue)) :=
  match r with
  | .error e => .error e
  | .ok (argIndex, result) =>
    if argIndex < args.length then
      if definition.length = 1 &&
          ((definition.head?.map CArg.type) == some ArgTy.str) then
        let remaining := args.drop argIndex
        let joined := joinSep " " remaining
        let name0 := (definition.head?.map CArg.name).getD ""
        match objGet result name0 with
        | some v =>
          if truthyV v then
            .ok (objSet result name0 (.str (jsToString v ++ " " ++ joined)))
          else .ok (objSet result name0 (.str joined))
        | none => .ok (objSet result name0 (.str joined))
      else
        match definition.getLast? with
        | some lastArg =>
          match lastArg.type with
          | .enum _ =>
            let remaining := args.drop argIndex
            match objGet result lastArg.name with
            | some v =>
              if truthyV v then
                .ok (objSet result lastArg.name
                  (.arr (v :: remaining.map ArgValue.str)))
              else
                .ok (objSet result lastArg.name
                  (.arr (remaining.map ArgValue.str)))
            | none =>
              .ok (objSet result lastArg.name
                (.arr (remaining.map ArgValue.str)))
          | _ => .ok result
        | none => .ok result
    else .ok result

/-- The main loop of `ArgumentParser.parse`: walks the definition,
consuming tokens by `argIndex`; returns the final `argIndex` and the
result object.  The recursion into nested subcommand schemas (the TS
`this.parse(remainingArgs, subcommand.nested)`) is the `nestedParse`
parameter, supplied by `parseDepth` below. -/
def parseGo
    (nestedParse : List String → List CArg →
      Except String (List (String × ArgValue)))
    (args : List String) :
    List CArg → Nat → List (String × ArgValue) →
      Except String (Nat × List (String × ArgValue))
  | [], argIndex, result => .ok (argIndex, result)
  | argDef :: rest, argIndex, result =>
    let inputValue := args[argIndex]?
    match argDef.nested with
    | some nl =>
      if jsFalsyStr inputValue then
        if argDef.required then
          .error ("Missing required argument: " ++ argDef.name)
        else parseGo nestedParse args rest argIndex result
      else
        let iv := inputValue.getD ""
        match nl.find? (fun sub => sub.name == iv) with
        | none =>
          .error ("Invalid " ++ argDef.name ++ ": " ++ iv ++
            ". Valid options: " ++ joinSep ", " (nl.map CArg.name))
        | some subcommand =>
          let result' := objSet result argDef.name (.str iv)
          match subcommand.nested with
          | some nl2 =>
            match nestedParse (args.drop (argIndex + 1)) nl2 with
            | .error e => .error e
            | .ok nargs =>
              parseGo nestedParse args rest (argIndex + 1 + nargs.length)
                (objAssign result' nargs)
          | none => parseGo nestedParse args rest (argIndex + 1) result'
    | none =>
      if jsFalsyStr inputValue then
        if argDef.required then
          .error ("Missing required argument: " ++ argDef.name)
        else
          match argDef.default with
          | some dv =>
            parseGo nestedParse args rest argIndex
              (objSet result argDef.name dv)
          | none => parseGo nestedParse args rest argIndex result
      else
        let iv := inputValue.getD ""
        if (match argDef.choices with
            | some cs => !(cs.contains iv)
            | none => false) then
          .error ("Invalid value for " ++ argDef.name ++ ": " ++ iv ++
            ". Valid options: " ++ joinSep ", " (argDef.choices.getD []))
        else
          match convertType iv argDef.type with
          | none =>
            .error ("Invalid " ++ typeName argDef.type ++ " value for " ++
              argDef.name ++ ": " ++ iv)
          | some v =>
            parseGo nestedParse args rest (argIndex + 1)
              (objSet result argDef.name v)

/-- `ArgumentParser.parse` at a given nesting depth: the loop, then the
trailing-token handling.  Every descent into a nested schema consumes
one token (`args.drop (argIndex + 1)`), so a depth of
`args.length + 1` can never be exhausted; the fuel branch is
unreachable from the `parse` wrapper. -/
def parseDepth : Nat → List String → List CArg →
    Except String (List (String × ArgValue))
  | 0, _, _ => .error "Nested schema recursion exhausted"
  | fuel + 1, args, definition =>
    parseFinish args definition
      (parseGo (parseDepth fuel) args definition 0 [])

/-- `ArgumentParser.parse`. -/
def parse (args : List String) (definition : List CArg) :
    Except String (List (String × ArgValue)) :=
  parseDepth (args.length + 1) args definition

/-- `ArgumentParser.generateHelp`. -/
def argHelp (arg : CArg) : List String :=
  let required := if arg.required then "required" else "optional"
  let typeInfo :=
    match arg.type with
    | .enum xs => "(" ++ joinSep "|" xs ++ ")"
    | t => "(" ++ typeName t ++ ")"
  let defaultInfo :=
    match arg.default with
    | some dv => " [default: " ++ jsToString dv ++ "]"
    | none => ""
  let base :=
    ["  " ++ arg.name ++ " " ++ typeInfo ++ " - " ++ arg.description ++
      " (" ++ required ++ ")" ++ defaultInfo]
  let choiceLines :=
    match arg.choices with
    | some cs => ["    Valid values: " ++ joinSep ", " cs]
    | none => []
  let nestedLines :=
    match arg.nested with
    | some nl =>
      "    Subcommands:" ::
        nl.map (fun sub => "      " ++ sub.name ++ " - " ++ sub.description)
    | none => []
  base ++ choiceLines ++ nestedLines

def generateHelp (definition : List CArg) (commandName : String) : String :=
  if definition.length = 0 then commandName ++ " - No arguments required"
  else
    joinSep "\n" (("Usage: " ++ commandName) :: (definition.map argHelp).join)

end ArgumentParser

/-! ## Theme store (`themeSlice.ts`, `selectors.ts`, `presets.ts`) and
command dispatch (`registry.ts`, `theme.ts`)

`JSON.parse`/`JSON.stringify` and the clipboard are external
collaborators, passed in as an environment. -/

/-- The `TerminalTheme` fields the core reads. -/
structure TerminalTheme where
  name : String
  displayName : String
  author : Option String := none
  description : Option String := none
deriving Repr, DecidableEq

def darkTheme : TerminalTheme :=
  { name := "dark", displayName := "Dark Terminal",
    author := some "MonokaiJs",
    description := some "Classic dark terminal theme with green text" }

def lightTheme : TerminalTheme :=
  { name := "light", displayName := "Light Terminal",
    author := some "MonokaiJs",
    description := some "Clean light theme with dark text" }

def matrixTheme : TerminalTheme :=
  { name := "matrix", displayName := "Matrix",
    author := some "MonokaiJs",
    description := some "Green matrix-style theme" }

def retroTheme : TerminalTheme :=
  { name := "retro", displayName := "Retro Amber",
    author := some "MonokaiJs",
    description := some "Vintage amber terminal theme" }

def presetThemes : List (String × TerminalTheme) :=
  [("dark", darkTheme), ("light", lightTheme), ("matrix", matrixTheme),
   ("retro", retroTheme)]

/-- The theme slice state. -/
structure ThemeState where
  currentThemeName : String := "dark"
  customThemes : List (String × TerminalTheme) := []
deriving Repr, DecidableEq

/-- The theme slice actions. -/
inductive ThemeAction where
  | setTheme (name : String)
  | addCustomTheme (theme : TerminalTheme)
  | removeCustomTheme (name : String)
  | importTheme (json : String)
deriving Repr, DecidableEq

/-- External collaborators of the theme command: JSON codec and the
clipboard availability. -/
structure ThemeEnv where
  parseThemeJson : String → Option TerminalTheme
  stringifyTheme : TerminalTheme → String
  clipboard : Bool

/-- `selectAllThemes`: `{ ...presetThemes, ...customThemes }`. -/
def selectAllThemes (s : ThemeState) : List (String × TerminalTheme) :=
  objAssign presetThemes s.customThemes

/-- `selectCurrentTheme`: `allThemes[currentThemeName] ||
presetThemes.dark`. -/
def selectCurrentTheme (s : ThemeState) : TerminalTheme :=
  (objGet (selectAllThemes s) s.currentThemeName).getD darkTheme

/-- The theme slice reducer (`importTheme`'s `JSON.parse` plus structure
validation is the environment's `parseThemeJson`). -/
def themeReducer (env : ThemeEnv) (s : ThemeState) :
    ThemeAction → ThemeState
  | .setTheme themeName =>
    if (objGet (selectAllThemes s) themeName).isSome then
      { s with currentThemeName := themeName }
    else s
  | .addCustomTheme theme =>
    { s with customThemes := objSet s.customThemes theme.name theme }
  | .removeCustomTheme themeName =>
    if (objGet presetThemes themeName).isSome then s
    else
      let s' := { s with customThemes := objDel s.customThemes themeName }
      if s'.currentThemeName = themeName then
        { s' with currentThemeName := "dark" }
      else s'
  | .importTheme json =>
    match env.parseThemeJson json with
    | some theme =>
      { s with customThemes := objSet s.customThemes theme.name theme }
    | none => s

/-- `String.prototype.padEnd`. -/
def padEnd (n : Nat) (s : String) : String :=
  s ++ ⟨List.replicate (n - jsLength s) ' '⟩

/-- JS `x || d` for an optional string. -/
def jsOrStr (o : Option String) (d : String) : String :=
  match o with
  | some a => if a == "" then d else a
  | none => d

/-- JS string coercion of a possibly-absent parsed value
(`${undefined}` is `"undefined"`). -/
def jsToStringOpt (o : Option ArgValue) : String :=
  match o with
  | some v => jsToString v
  | none => "undefined"

/-- A handler invocation result: the returned string (or nothing), the
store after dispatches, and the dispatched actions. -/
structure HandlerOut where
  output : Option String
  store : ThemeState
  dispatched : List ThemeAction
deriving Repr

/-- The handler of `theme.ts`. -/
def themeHandler (env : ThemeEnv) (store : ThemeState)
    (args : List (String × ArgValue)) : HandlerOut :=
  let currentTheme := selectCurrentTheme store
  let currentThemeName := store.currentThemeName
  let allThemes := selectAllThemes store
  let action : ArgValue :=
    match objGet args "action" with
    | some v => if truthyV v then v else .str "list"
    | none => .str "list"
  if ArgValue.isStr action "list" then
    let body := (allThemes.map Prod.snd).foldl
      (fun acc theme =>
        let marker := if theme.name == currentThemeName then "* " else "  "
        let author :=
          match theme.author with
          | some a => if a == "" then "" else " (by " ++ a ++ ")"
          | none => ""
        acc ++ marker ++ padEnd 12 theme.name ++ " - " ++
          theme.displayName ++ author ++ "\n")
      "Available themes:\n"
    { output := some (body ++ "\nUse \"theme set <name>\" to switch themes"),
      store := store, dispatched := [] }
  else if ArgValue.isStr action "set" then
    let themeName := jsToStringOpt (objGet args "themeName")
    if (objGet allThemes themeName).isSome then
      { output := some ("Switched to theme: " ++ themeName),
        store := themeReducer env store (.setTheme themeName),
        dispatched := [.setTheme themeName] }
    else
      { output := some ("Theme not found: " ++ themeName ++
          ". Use \"theme list\" to see available themes."),
        store := store, dispatched := [] }
  else if ArgValue.isStr action "export" then
    let themeName := jsToStringOpt (objGet args "themeName")
    match objGet allThemes themeName with
    | none =>
      { output := some ("Theme not found: " ++ themeName),
        store := store, dispatched := [] }
    | some theme =>
      let themeJson := env.stringifyTheme theme
      if env.clipboard then
        { output := some ("Theme \"" ++ themeName ++
            "\" exported and copied to clipboard."),
          store := store, dispatched := [] }
      else
        { output := some ("Theme \"" ++ themeName ++ "\" exported:\n\n" ++
            themeJson),
          store := store, dispatched := [] }
  else if ArgValue.isStr action "import" then
    let themeJson := jsToStringOpt (objGet args "themeJson")
    { output := some "Theme imported successfully!",
      store := themeReducer env store (.importTheme themeJson),
      dispatched := [.importTheme themeJson] }
  else if ArgValue.isStr action "current" then
    { output := some ("Current theme: " ++ currentTheme.name ++ " (" ++
        currentTheme.displayName ++ ")\nAuthor: " ++
        jsOrStr currentTheme.author "Unknown" ++ "\nDescription: " ++
        jsOrStr currentTheme.description "No description"),
      store := store, dispatched := [] }
  else
    { output := some "Unknown action", store := store, dispatched := [] }

/-- The theme command's argument schema (`theme.ts`). -/
def themeNameArg : CArg :=
  .mk "themeName" "Name of the theme to activate" .theme true none none none

def themeActionArg : CArg :=
  .mk "action" "Action to perform"
    (.enum ["list", "set", "export", "import", "current"]) false
    (some (.str "list")) none
    (some
      [.mk "list" "List all available themes" .str false none none none,
       .mk "set" "Set active theme" .str false none none
         (some [themeNameArg]),
       .mk "export" "Export theme to JSON" .str false none none
         (some [.mk "themeName" "Name of the theme to export" .theme true
           none none none]),
       .mk "import" "Import theme from JSON" .str false none none
         (some [.mk "themeJson" "JSON string of the theme to import" .str
           true none none none]),
       .mk "current" "Show current theme information" .str false none none
         none])

/-- A registered command (the fields `executeCommand` reads). -/
structure Cmd where
  name : String
  aliases : List String
  args : List CArg
  handler : ThemeEnv → ThemeState → List (String × ArgValue) → HandlerOut

/-- `theme` as produced by `defineCommand` (single name, no aliases). -/
def themeCommand : Cmd :=
  { name := "theme", aliases := [], args := [themeActionArg],
    handler := themeHandler }

/-- `registerCommand`: the command under its lower-cased name and each
alias; later registrations silently overwrite. -/
def registerCommand (registry : List (String × Cmd)) (command : Cmd) :
    List (String × Cmd) :=
  (command.aliases).foldl
    (fun acc alias' => objSet acc (jsToLower alias') command)
    (objSet registry (jsToLower command.name) command)

/-- `getCommand` (case-insensitive lookup). -/
def getCommand (registry : List (String × Cmd)) (name : String) :
    Option Cmd :=
  objGet registry (jsToLower name)

/-- Outcome type tags. -/
inductive OutcomeTy where
  | success
  | error
  | info
deriving Repr, DecidableEq

/-- The uniform `{ output?, type }` outcome. -/
structure Outcome where
  output : Option String
  type : OutcomeTy
deriving Repr, DecidableEq

/-- `executeCommand` of `registry.ts`: resolve, parse, run the handler,
normalize.  The modelled handlers do not throw, so the try/catch
wrapper's error outcome is unreachable here. -/
def executeCommand (registry : List (String × Cmd)) (commandName : String)
    (args : List String) (env : ThemeEnv) (store : ThemeState) :
    Outcome × ThemeState × List ThemeAction :=
  match getCommand registry commandName with
  | none =>
    ({ output := some ("Command not found: " ++ commandName ++
        ". Type \"help\" for available commands."), type := .error },
      store, [])
  | some command =>
    match ArgumentParser.parse args command.args with
    | .error e =>
      let msg :=
        e ++ "\n\n" ++ ArgumentParser.generateHelp command.args command.name
      ({ output := some msg, type := .error }, store, [])
    | .ok parsedArgs =>
      let r := command.handler env store parsedArgs
      match r.output with
      | none => ({ output := none, type := .success }, r.store, r.dispatched)
      | some out =>
        ({ output := some out, type := .success }, r.store, r.dispatched)

/-! ## Autocomplete Engine (`autocomplete.ts`, `autocomplete-providers.ts`)

The browsing-history domain service is an external collaborator,
modelled as an environment function; provider `getCompletions` calls
never throw in the model, so the per-provider try/catch contributes its
normal result. -/

mutual

/-- `.split(/\s+/)`: accumulate the current token (reversed). -/
def wsTok : List Char → List Char → List String
  | cur, [] => [⟨cur.reverse⟩]
  | cur, c :: rest =>
    if isWS c then ⟨cur.reverse⟩ :: wsSkip rest
    else wsTok (c :: cur) rest

/-- `.split(/\s+/)`: inside a separator run. -/
def wsSkip : List Char → List String
  | [] => [""]
  | c :: rest =>
    if isWS c then wsSkip rest
    else wsTok [c] rest

end

/-- `.split(/\s+/)` (on already-trimmed input; `""` yields `[""]`). -/
def wsSplit (s : String) : List String :=
  wsTok [] s.data

/-- `CompletionContext`. -/
structure CompletionContext where
  input : String
  cursorPosition : Nat
  commandName : Option String := none
  args : List String := []
  currentArg : String := ""
  argIndex : Nat := 0
  isCommandPosition : Bool
deriving Repr, DecidableEq

/-- `AutocompleteService.parseContext`. -/
def parseContext (input : String) (cursorPosition : Nat) :
    CompletionContext :=
  let beforeCursor : String := ⟨input.data.take cursorPosition⟩
  let trimmed := jsTrim beforeCursor
  let parts := wsSplit trimmed
  if trimmed == "" || parts.length = 0 then
    { input := input, cursorPosition := cursorPosition,
      isCommandPosition := true }
  else
    let isAfterSpace := beforeCursor.data.getLast? == some ' '
    if parts.length = 1 && !isAfterSpace then
      { input := input, cursorPosition := cursorPosition,
        currentArg := parts.headD "", isCommandPosition := true }
    else
      let commandName := parts.headD ""
      let args := parts.drop 1
      if isAfterSpace then
        { input := input, cursorPosition := cursorPosition,
          commandName := some commandName, args := args, currentArg := "",
          argIndex := args.length, isCommandPosition := false }
      else
        { input := input, cursorPosition := cursorPosition,
          commandName := some commandName, args := args,
          currentArg := args.getD (args.length - 1) "",
          argIndex := args.length - 1, isCommandPosition := false }

/-- Environment of the provider pipeline: the command registry, the
external domain-suggestion service, and the theme store. -/
structure ACEnv where
  registry : List (String × Cmd)
  domainSuggest : String → List String
  store : ThemeState

/-- A completion provider (`{name, canComplete, getCompletions,
priority}`). -/
structure Provider where
  name : String
  priority : Nat := 0
  canComplete : CompletionContext → Bool
  getCompletions : ACEnv → FS → CompletionContext → List String

/-- The command-name provider (priority 100). -/
def commandCompletionProvider : Provider :=
  { name := "commands", priority := 100,
    canComplete := fun ctx => ctx.isCommandPosition,
    getCompletions := fun env _ ctx =>
      let commandNames :=
        dedupKeepFirst []
          ((env.registry.map Prod.snd).map
            (fun cmd => cmd.name :: cmd.aliases)).flatten
      jsSort (fun a b => decide (a ≤ b))
        (commandNames.filter fun name =>
          jsStartsWith (jsToLower name) (jsToLower ctx.currentArg)) }

/-- The browsing-history domain provider (priority 50; the service call
is the environment function). -/
def domainCompletionProvider : Provider :=
  { name := "domains", priority := 50,
    canComplete := fun ctx =>
      ctx.isCommandPosition && ctx.currentArg.length ≥ 2 &&
        !(ctx.input.data.contains ' '),
    getCompletions := fun env _ ctx => env.domainSuggest ctx.currentArg }

/-- The file/directory provider. -/
def fileCompletionProvider : Provider :=
  { name := "files", priority := 0,
    canComplete := fun ctx => !ctx.isCommandPosition,
    getCompletions := fun _ fs ctx =>
      let hasSlash := ctx.currentArg.data.contains '/'
      let dirPart : String :=
        ⟨(ctx.currentArg.data.reverse.dropWhile (· ≠ '/')).reverse⟩
      let filePfx : String :=
        if hasSlash then
          ⟨(ctx.currentArg.data.reverse.takeWhile (· ≠ '/')).reverse⟩
        else ctx.currentArg
      let searchDir : String :=
        if hasSlash then
          if jsStartsWith dirPart "/" then PathUtils.normalize dirPart
          else PathUtils.resolve fs.cwd dirPart
        else fs.cwd
      match FileSystemService.listDirectory (some searchDir)
          { showHidden := jsStartsWith filePfx ".", sortBy := .byName } fs with
      | (.ok items, _) =>
        items.filterMap fun item =>
          if !(jsStartsWith (jsToLower item.name) (jsToLower filePfx)) then none
          else
            let completion := item.name ++
              (if item.type == FType.directory then "/" else "")
            some (if hasSlash then dirPart ++ completion else completion)
      | (.error _, _) => [] }

/-- The theme-name provider (`theme set|export <name>`). -/
def themeCompletionProvider : Provider :=
  { name := "themes", priority := 0,
    canComplete := fun ctx =>
      ctx.commandName == some "theme" && ctx.args.length > 0 &&
        (ctx.args.headD "" == "set" || ctx.args.headD "" == "export"),
    getCompletions := fun env _ ctx =>
      jsSort (fun a b => decide (a ≤ b))
        (((objAssign presetThemes env.store.customThemes).map Prod.fst).filter
          fun name => jsStartsWith (jsToLower name) (jsToLower ctx.currentArg)) }

/-- The search-engine-name provider. -/
def searchEngineCompletionProvider : Provider :=
  { name := "searchEngines", priority := 0,
    canComplete := fun ctx =>
      ctx.commandName == some "search-config" && ctx.args.length > 0 &&
        ctx.args.headD "" == "engine",
    getCompletions := fun _ _ ctx =>
      ["google", "bing", "duckduckgo", "yahoo"].filter fun engine =>
        jsStartsWith (jsToLower engine) (jsToLower ctx.currentArg) }

/-- The config section/property provider. -/
def configCompletionProvider : Provider :=
  { name := "config", priority := 0,
    canComplete := fun ctx => ctx.commandName == some "config",
    getCompletions := fun _ _ ctx =>
      if ctx.argIndex = 0 then
        ["background", "show"].filter fun sec =>
          jsStartsWith (jsToLower sec) (jsToLower ctx.currentArg)
      else if ctx.argIndex = 1 && ctx.args.headD "" == "background" then
        ["image", "brightness"].filter fun prop =>
          jsStartsWith (jsToLower prop) (jsToLower ctx.currentArg)
      else [] }

/-- The boolean-literal provider. -/
def booleanCompletionProvider : Provider :=
  { name := "boolean", priority := 0,
    canComplete := fun ctx =>
      jsStartsWith (jsToLower ctx.currentArg) "t" ||
      jsStartsWith (jsToLower ctx.currentArg) "f" ||
      jsStartsWith (jsToLower ctx.currentArg) "y" ||
      jsStartsWith (jsToLower ctx.currentArg) "n",
    getCompletions := fun _ _ ctx =>
      ["true", "false", "yes", "no"].filter fun b =>
        jsStartsWith (jsToLower b) (jsToLower ctx.currentArg) }

/-- `String.prototype.includes` (substring containment). -/
def strIncludes (hay needle : String) : Bool :=
  go hay.data
where
  go : List Char → Bool
    | [] => listStarts needle.data []
    | h :: t => listStarts needle.data (h :: t) || go t

def commonUrls : List String :=
  ["github.com", "stackoverflow.com", "google.com", "youtube.com",
   "reddit.com", "twitter.com", "facebook.com", "linkedin.com",
   "wikipedia.org", "mozilla.org"]

/-- The URL-literal provider. -/
def urlCompletionProvider : Provider :=
  { name := "urls", priority := 0,
    canComplete := fun ctx =>
      ctx.commandName == some "open" ||
        (ctx.commandName == some "config" &&
          ctx.args.getD 0 "" == "background" &&
          ctx.args.getD 1 "" == "image"),
    getCompletions := fun _ _ ctx =>
      (commonUrls.filter fun url =>
        strIncludes (jsToLower url) (jsToLower ctx.currentArg)).map
        fun url =>
          if jsStartsWith ctx.currentArg "http" then
            if jsStartsWith url "http" then url else "https://" ++ url
          else url }

/-- The registered provider list, in registration order. -/
def completionProviders : List Provider :=
  [commandCompletionProvider, domainCompletionProvider,
   fileCompletionProvider, themeCompletionProvider,
   searchEngineCompletionProvider, configCompletionProvider,
   booleanCompletionProvider, urlCompletionProvider]

/-- Providers sorted by descending priority
(`sort((a, b) => (b.priority || 0) - (a.priority || 0))`, stable). -/
def sortedProviders : List Provider :=
  jsSort (fun a b => decide (b.priority ≤ a.priority)) completionProviders

/-- `getCompletionsFromProviders`: query applicable providers in order,
then merge with first-seen deduplication. -/
def getCompletionsFromProviders (env : ACEnv) (fs : FS)
    (context : CompletionContext) : List String :=
  let byProvider := sortedProviders.filterMap fun provider =>
    if provider.canComplete context then
      let completions := provider.getCompletions env fs context
      if completions.length > 0 then some completions else none
    else none
  dedupKeepFirst [] byProvider.flatten

/-- The common-case-insensitive-prefix shrink loop
(`while (prefix && !c.toLowerCase().startsWith(prefix.toLowerCase()))`). -/
def shrinkPrefAux (c : String) : List Char → List Char
  | [] => []
  | a :: t =>
    if jsStartsWith (jsToLower c) (jsToLower (⟨a :: t⟩ : String)) then a :: t
    else shrinkPrefAux c (a :: t).dropLast
termination_by l => l.length
decreasing_by
  simp [List.length_dropLast]

def shrinkPref (pfx c : String) : String :=
  ⟨shrinkPrefAux c pfx.data⟩

def findCommonPref : List String → String
  | [] => ""
  | [c] => c
  | c :: rest => rest.foldl (fun pfx x => shrinkPref pfx x) c

def findWordStart (input : String) (cursor : Nat) : Nat :=
  cursor -
    ((input.data.take cursor).reverse.takeWhile fun c => !isWS c).length

def findWordEnd (input : String) (cursor : Nat) : Nat :=
  cursor + ((input.data.drop cursor).takeWhile fun c => !isWS c).length

/-- `CompletionResult`. -/
structure CompletionResult where
  completions : List String
  commonPref : String
  hasMultiple : Bool
  originalInput : String
  cursorPosition : Nat
  replaceStart : Nat
  replaceEnd : Nat
deriving Repr, DecidableEq

namespace AutocompleteService

/-- `AutocompleteService.getCompletions`. -/
def getCompletions (env : ACEnv) (input : String) (cursorPosition : Nat)
    (fs : FS) : CompletionResult :=
  let context := parseContext input cursorPosition
  let completions := getCompletionsFromProviders env fs context
  let filtered := completions.filter fun completion =>
    jsStartsWith (jsToLower completion) (jsToLower context.currentArg)
  { completions := filtered
    commonPref := findCommonPref filtered
    hasMultiple := filtered.length > 1
    originalInput := input
    cursorPosition := cursorPosition
    replaceStart := findWordStart input cursorPosition
    replaceEnd := findWordEnd input cursorPosition }

end AutocompleteService

/-! ## Characterization lemmas for the file-system operations -/

namespace FileSystemService

/-- The node a successful `createFile` stores at the resolved path. -/
def createFileNode (now : Nat) (s : FS) (resolved content : String) :
    FileNode :=
  { name := (PathUtils.parseInfo resolved).base
    type := .file
    path := resolved
    parent := some (PathUtils.parseInfo resolved).parent
    size := jsLength content
    createdAt := now
    modifiedAt := now
    permissions := permissionsFile
    extension := some (PathUtils.parseInfo resolved).extension
    contentId := some (freshContentId s.nextId) }

/-- The state of a successful `createFile` just before the parent
registration: blob stored, id counter bumped, node written. -/
def createFileMid (now : Nat) (s : FS) (resolved content : String) : FS :=
  let contentId := freshContentId s.nextId
  let blob : FileContent := ⟨contentId, content, "utf-8"⟩
  { s with
    nextId := s.nextId + 1
    contents := objSet s.contents (contentKey contentId) blob
    nodes := objSet s.nodes resolved (createFileNode now s resolved content) }

/-- The successful-result state of `createFile` (pure mirror). -/
def createFileOut (now : Nat) (s : FS) (resolved content : String) : FS :=
  registerFileInParent now (PathUtils.parseInfo resolved).parent
    (PathUtils.parseInfo resolved).base (createFileMid now s resolved content)

theorem createFile_eq (now : Nat) (path content : String) (force : Bool)
    (s : FS) :
    createFile now path content force s =
      (let resolved := resolveIn s path
       if pathViolation resolved then (.error .einval, s)
       else if (objGet s.nodes resolved).isSome && !force then
         (.error .eexist, s)
       else
         match objGet s.nodes (PathUtils.parseInfo resolved).parent with
         | none => (.error .enoent, s)
         | some parentNode =>
           if parentNode.type ≠ .directory then (.error .enotdir, s)
           else if (storageUsed s : Int) + jsLength content >
               (maxTotalSize : Int) then (.error .enospc, s)
           else (.ok (), createFileOut now s resolved content)) := by
  unfold createFile createFileOut validatePath checkStorageLimit
  simp only [bind_apply, resolvePath_apply, getFs_apply, setFs_apply,
    throwFs_apply, pure_apply]
  by_cases hv : pathViolation (resolveIn s path)
  · simp [hv]
  · simp only [hv, if_false, Bool.false_eq_true, if_neg]
    by_cases he : (objGet s.nodes (resolveIn s path)).isSome && !force
    · simp [he]
    · simp only [he, Bool.false_eq_true, if_false]
      cases hp : objGet s.nodes
          (PathUtils.parseInfo (resolveIn s path)).parent with
      | none => simp
      | some parentNode =>
        by_cases ht : parentNode.type ≠ FType.directory
        · simp [ht]
        · simp only [ht, if_false]
          by_cases hq : (storageUsed s : Int) + jsLength content >
              (maxTotalSize : Int)
          · simp [hq]
          · simp only [bind_apply, getFs_apply, setFs_apply, pure_apply,
              if_neg hq]
            rfl

/-- The metadata of a node that the parent-registration and detach steps
never touch. -/
def nodeMeta (n : FileNode) : FType × Option String × Nat :=
  (n.type, n.parent, n.size)

theorem registerDirInParent_spec (now : Nat) (pp base : String) (s : FS) :
    (registerDirInParent now pp base s).cwd = s.cwd ∧
    (registerDirInParent now pp base s).contents = s.contents ∧
    (registerDirInParent now pp base s).nextId = s.nextId ∧
    (registerDirInParent now pp base s).nodes.map Prod.fst =
      s.nodes.map Prod.fst ∧
    ∀ k, (objGet (registerDirInParent now pp base s).nodes k).map nodeMeta =
      (objGet s.nodes k).map nodeMeta := by
  unfold registerDirInParent
  cases hp : objGet s.nodes pp with
  | none => simp [hp]
  | some parent =>
    cases hc : parent.children with
    | none => simp [hp, hc]
    | some cs =>
      simp only [hp, hc]
      refine ⟨by trivial, by trivial, by trivial, ?_, ?_⟩
      · rw [objSet_map_fst]
        have : pp ∈ s.nodes.map Prod.fst := by
          have := objGet_mem s.nodes pp parent hp
          exact List.mem_map.mpr ⟨(pp, parent), this, rfl⟩
        simp [this]
      · intro k
        by_cases hk : pp = k
        · subst hk
          rw [objGet_objSet_self, hp]
          rfl
        · rw [objGet_objSet_ne _ _ _ _ hk]

theorem registerFileInParent_spec (now : Nat) (pp base : String) (s : FS) :
    (registerFileInParent now pp base s).cwd = s.cwd ∧
    (registerFileInParent now pp base s).contents = s.contents ∧
    (registerFileInParent now pp base s).nextId = s.nextId ∧
    (registerFileInParent now pp base s).nodes.map Prod.fst =
      s.nodes.map Prod.fst ∧
    ∀ k, (objGet (registerFileInParent now pp base s).nodes k).map nodeMeta =
      (objGet s.nodes k).map nodeMeta := by
  unfold registerFileInParent
  cases hp : objGet s.nodes pp with
  | none => simp [hp]
  | some parent =>
    cases hc : parent.children with
    | none => simp [hp, hc]
    | some cs =>
      simp only [hp, hc]
      have hmem : pp ∈ s.nodes.map Prod.fst := by
        have := objGet_mem s.nodes pp parent hp
        exact List.mem_map.mpr ⟨(pp, parent), this, rfl⟩
      by_cases hb : base ∈ cs
      · simp only [if_pos hb]
        refine ⟨by trivial, by trivial, by trivial, ?_, ?_⟩
        · rw [objSet_map_fst]
          simp [hmem]
        · intro k
          by_cases hk : pp = k
          · subst hk
            rw [objGet_objSet_self, hp]
            rfl
          · rw [objGet_objSet_ne _ _ _ _ hk]
      · simp only [if_neg hb]
        refine ⟨by trivial, by trivial, by trivial, ?_, ?_⟩
        · rw [objSet_map_fst]
          simp [hmem]
        · intro k
          by_cases hk : pp = k
          · subst hk
            rw [objGet_objSet_self, hp]
            rfl
          · rw [objGet_objSet_ne _ _ _ _ hk]

theorem detachFromParent_spec (now : Nat) (node : FileNode) (s : FS) :
    (detachFromParent now node s).cwd = s.cwd ∧
    (detachFromParent now node s).contents = s.contents ∧
    (detachFromParent now node s).nextId = s.nextId ∧
    (detachFromParent now node s).nodes.map Prod.fst =
      s.nodes.map Prod.fst ∧
    ∀ k, (objGet (detachFromParent now node s).nodes k).map nodeMeta =
      (objGet s.nodes k).map nodeMeta := by
  unfold detachFromParent
  cases hpp : node.parent with
  | none => simp [hpp]
  | some pp =>
    cases hp : objGet s.nodes pp with
    | none => simp [hpp, hp]
    | some parent =>
      cases hc : parent.children with
      | none => simp [hpp, hp, hc]
      | some cs =>
        simp only [hpp, hp, hc]
        by_cases hb : node.name ∈ cs
        · simp only [if_pos hb]
          have hmem : pp ∈ s.nodes.map Prod.fst := by
            have := objGet_mem s.nodes pp parent hp
            exact List.mem_map.mpr ⟨(pp, parent), this, rfl⟩
          refine ⟨by trivial, by trivial, by trivial, ?_, ?_⟩
          · rw [objSet_map_fst]
            simp [hmem]
          · intro k
            by_cases hk : pp = k
            · subst hk
              rw [objGet_objSet_self, hp]
              rfl
            · rw [objGet_objSet_ne _ _ _ _ hk]
        · simp only [if_neg hb]
          simp

theorem restampDest_spec (sourceNode : FileNode) (resolvedDest : String)
    (s : FS) :
    (restampDest sourceNode resolvedDest s).cwd = s.cwd ∧
    (restampDest sourceNode resolvedDest s).contents = s.contents ∧
    (restampDest sourceNode resolvedDest s).nextId = s.nextId ∧
    (restampDest sourceNode resolvedDest s).nodes.map Prod.fst =
      s.nodes.map Prod.fst ∧
    ∀ k, (objGet (restampDest sourceNode resolvedDest s).nodes k).map
        nodeMeta = (objGet s.nodes k).map nodeMeta := by
  unfold restampDest
  cases hp : objGet s.nodes resolvedDest with
  | none => simp [hp]
  | some newNode =>
    simp only [hp]
    have hmem : resolvedDest ∈ s.nodes.map Prod.fst := by
      have := objGet_mem s.nodes resolvedDest newNode hp
      exact List.mem_map.mpr ⟨(resolvedDest, newNode), this, rfl⟩
    refine ⟨by trivial, by trivial, by trivial, ?_, ?_⟩
    · rw [objSet_map_fst]
      simp [hmem]
    · intro k
      by_cases hk : resolvedDest = k
      · subst hk
        rw [objGet_objSet_self, hp]
        rfl
      · rw [objGet_objSet_ne _ _ _ _ hk]

/-- `resolveIn` only depends on the working directory. -/
theorem resolveIn_cwd {s s' : FS} (h : s'.cwd = s.cwd) (path : String) :
    resolveIn s' path = resolveIn s path := by
  unfold resolveIn
  rw [h]

/-- The content a `readFile` of an existing file returns (pure
mirror). -/
def fileContentAt (s : FS) (node : FileNode) : String :=
  match node.contentId with
  | none => ""
  | some cid =>
    match objGet s.contents (contentKey cid) with
    | none => ""
    | some fc => fc.content

theorem readFile_eq (path : String) (s : FS) :
    readFile path s =
      (match objGet s.nodes (resolveIn s path) with
       | none => (.error .enoent, s)
       | some node =>
         if node.type ≠ .file then (.error .eisdir, s)
         else (.ok (fileContentAt s node), s)) := by
  unfold readFile fileContentAt
  simp only [bind_apply, resolvePath_apply, getFs_apply]
  cases objGet s.nodes (resolveIn s path) with
  | none => rfl
  | some node =>
    by_cases ht : node.type ≠ FType.file
    · simp [ht]
    · simp only [ht, if_false]
      cases node.contentId with
      | none => rfl
      | some cid =>
        show (match objGet s.contents (contentKey cid) with
          | none => (pure "" : FsM String)
          | some fc => pure fc.content) s =
          (Except.ok (match objGet s.contents (contentKey cid) with
            | none => ""
            | some fc => fc.content), s)
        cases objGet s.contents (contentKey cid) <;> rfl

theorem stat_eq (path : String) (s : FS) :
    stat path s =
      (match objGet s.nodes (resolveIn s path) with
       | none => (.error .enoent, s)
       | some node => (.ok node, s)) := by
  unfold stat
  simp only [bind_apply, resolvePath_apply, getFs_apply]
  cases objGet s.nodes (resolveIn s path) <;> rfl

theorem changeDirectory_eq (path : String) (s : FS) :
    changeDirectory path s =
      (match objGet s.nodes (resolveIn s path) with
       | none => (.error .enoent, s)
       | some node =>
         if node.type ≠ .directory then (.error .enotdir, s)
         else (.ok (), { s with cwd := resolveIn s path })) := by
  unfold changeDirectory
  simp only [bind_apply, resolvePath_apply, getFs_apply]
  cases objGet s.nodes (resolveIn s path) with
  | none => rfl
  | some node =>
    by_cases ht : node.type ≠ FType.directory
    · simp [ht]
    · simp [ht]

/-- The successful-result state of `writeFile` on an existing file node
(pure mirror). -/
def writeFileOut (now : Nat) (s : FS) (resolved : String) (node : FileNode)
    (finalContent : String) : FS :=
  let idAndState : String × FS :=
    match node.contentId with
    | some cid => (cid, s)
    | none => (freshContentId s.nextId, { s with nextId := s.nextId + 1 })
  let contentId := idAndState.1
  let s1 := idAndState.2
  let blob : FileContent := ⟨contentId, finalContent, "utf-8"⟩
  let contents' := objSet s1.contents (contentKey contentId) blob
  let s2 := { s1 with contents := contents' }
  let node' : FileNode :=
    { node with
      size := jsLength finalContent
      modifiedAt := now
      contentId := some contentId }
  { s2 with nodes := objSet s2.nodes resolved node' }

theorem writeFile_eq (now : Nat) (path content : String) (append : Bool)
    (s : FS) :
    writeFile now path content append s =
      (match objGet s.nodes (resolveIn s path) with
       | some node =>
         if node.type ≠ .file then (.error .eisdir, s)
         else
           let finalContent :=
             if append then fileContentAt s node ++ content else content
           if (storageUsed s : Int) +
               ((jsLength finalContent : Int) - (node.size : Int)) >
               (maxTotalSize : Int) then (.error .enospc, s)
           else (.ok (), writeFileOut now s (resolveIn s path) node
             finalContent)
       | none => createFile now path content false s) := by
  unfold writeFile checkStorageLimit
  simp only [bind_apply, resolvePath_apply, getFs_apply]
  cases hn : objGet s.nodes (resolveIn s path) with
  | none => rfl
  | some node =>
    by_cases ht : node.type ≠ FType.file
    · simp [ht]
    · simp only [ht, if_false]
      have hrf : readFile path s = (.ok (fileContentAt s node), s) := by
        rw [readFile_eq, hn]
        simp [ht]
      cases append with
      | false =>
        simp only [Bool.false_eq_true, if_false, pure_apply]
        by_cases hq : (storageUsed s : Int) +
            ((jsLength content : Int) - (node.size : Int)) >
            (maxTotalSize : Int)
        · simp [hq]
        · simp only [if_neg hq, bind_apply, getFs_apply, setFs_apply,
            pure_apply, if_false]
          unfold writeFileOut
          cases hcid : node.contentId <;> rfl
      | true =>
        simp only [if_true, bind_apply, hrf, pure_apply]
        by_cases hq : (storageUsed s : Int) +
            ((jsLength (fileContentAt s node ++ content) : Int) -
              (node.size : Int)) > (maxTotalSize : Int)
        · simp [hq]
        · simp only [if_neg hq, bind_apply, getFs_apply, setFs_apply,
            pure_apply, if_false]
          unfold writeFileOut
          cases hcid : node.contentId <;> rfl

theorem createFileOut_cwd (now : Nat) (s : FS) (resolved content : String) :
    (createFileOut now s resolved content).cwd = s.cwd := by
  unfold createFileOut
  rw [(registerFileInParent_spec now
    (PathUtils.parseInfo resolved).parent
    (PathUtils.parseInfo resolved).base
    (createFileMid now s resolved content)).1]
  rfl

theorem createFileMid_get (now : Nat) (s : FS) (resolved content : String) :
    objGet (createFileMid now s resolved content).nodes resolved =
      some (createFileNode now s resolved content) :=
  objGet_objSet_self _ _ _

theorem createFileOut_get (now : Nat) (s : FS) (resolved content : String) :
    ∃ n, objGet (createFileOut now s resolved content).nodes resolved =
      some n ∧ n.size = jsLength content ∧ n.type = .file := by
  have hall := (registerFileInParent_spec now
    (PathUtils.parseInfo resolved).parent
    (PathUtils.parseInfo resolved).base
    (createFileMid now s resolved content)).2.2.2.2 resolved
  rw [createFileMid_get] at hall
  rcases Option.map_eq_some'.mp hall with ⟨n, hn, hm⟩
  refine ⟨n, hn, ?_, ?_⟩
  · simpa [nodeMeta, createFileNode] using congrArg (fun p => p.2.2) hm
  · simpa [nodeMeta, createFileNode] using congrArg (fun p => p.1) hm

/-- The node a successful `createDirectory` stores at the resolved
path. -/
def createDirNode (now : Nat) (resolved parentPath : String) : FileNode :=
  { name := (PathUtils.parseInfo resolved).base
    type := .directory
    path := resolved
    parent := some parentPath
    size := 0
    createdAt := now
    modifiedAt := now
    permissions := permissionsDirectory
    children := some [] }

/-- The intermediate state of `createDirectory`: the new node stored. -/
def createDirMid (now : Nat) (resolved parentPath : String) (s1 : FS) :
    FS :=
  let nodes' := objSet s1.nodes resolved (createDirNode now resolved parentPath)
  { s1 with nodes := nodes' }

/-- The final steps of `createDirectory` from an intermediate state:
store the new node, then register it in the parent. -/
def createDirApply (now : Nat) (resolved parentPath : String) (s1 : FS) :
    FS :=
  registerDirInParent now parentPath (PathUtils.parseInfo resolved).base
    (createDirMid now resolved parentPath s1)

theorem createDirectoryFuel_succ_eq (now fuel : Nat) (path : String)
    (recursive : Bool) (s : FS) :
    createDirectoryFuel now (fuel + 1) path recursive s =
      (let resolved := resolveIn s path
       if pathViolation resolved then (.error .einval, s)
       else if (objGet s.nodes resolved).isSome then (.error .eexist, s)
       else
         let parentPath := (PathUtils.parseInfo resolved).parent
         match objGet s.nodes parentPath with
         | none =>
           if recursive then
             match createDirectoryFuel now fuel parentPath true s with
             | (.ok _, s1) =>
               (.ok (), createDirApply now resolved parentPath s1)
             | (.error e, s1) => (.error e, s1)
           else (.error .enoent, s)
         | some parentNode =>
           if parentNode.type ≠ .directory then (.error .enotdir, s)
           else (.ok (), createDirApply now resolved parentPath s)) := by
  simp only [createDirectoryFuel]
  unfold validatePath
  simp only [bind_apply, resolvePath_apply, getFs_apply]
  by_cases hv : pathViolation (resolveIn s path)
  · simp [hv]
  · simp only [hv, Bool.false_eq_true, if_false, pure_apply]
    by_cases he : (objGet s.nodes (resolveIn s path)).isSome
    · simp [he]
    · simp only [he, Bool.false_eq_true, if_false]
      cases hp : objGet s.nodes
          (PathUtils.parseInfo (resolveIn s path)).parent with
      | none =>
        cases recursive with
        | false => simp
        | true =>
          simp only [if_true]
          cases hrec : createDirectoryFuel now fuel
              (PathUtils.parseInfo (resolveIn s path)).parent true s with
          | mk r1 s1 =>
            cases r1 with
            | ok a =>
              simp only [bind_apply, hrec, getFs_apply, setFs_apply]
              rfl
            | error e => simp [hrec]
      | some parentNode =>
        by_cases ht : parentNode.type ≠ FType.directory
        · simp [ht]
        · simp only [ht, if_false, bind_apply, pure_apply, getFs_apply,
            setFs_apply]
          rfl

theorem createDirApply_cwd (now : Nat) (resolved parentPath : String)
    (s1 : FS) : (createDirApply now resolved parentPath s1).cwd = s1.cwd := by
  unfold createDirApply
  rw [(registerDirInParent_spec now parentPath
    (PathUtils.parseInfo resolved).base
    (createDirMid now resolved parentPath s1)).1]
  rfl

theorem createDirMid_get (now : Nat) (resolved parentPath : String)
    (s1 : FS) :
    objGet (createDirMid now resolved parentPath s1).nodes resolved =
      some (createDirNode now resolved parentPath) :=
  objGet_objSet_self _ _ _

theorem createDirApply_get (now : Nat) (resolved parentPath : String)
    (s1 : FS) :
    ∃ n, objGet (createDirApply now resolved parentPath s1).nodes resolved =
      some n ∧ n.size = 0 ∧ n.type = .directory := by
  unfold createDirApply
  have hall := (registerDirInParent_spec now parentPath
    (PathUtils.parseInfo resolved).base
    (createDirMid now resolved parentPath s1)).2.2.2.2 resolved
  rw [createDirMid_get] at hall
  rcases Option.map_eq_some'.mp hall with ⟨n, hn, hm⟩
  refine ⟨n, hn, ?_, ?_⟩
  · simpa [nodeMeta, createDirNode] using congrArg (fun p => p.2.2) hm
  · simpa [nodeMeta, createDirNode] using congrArg (fun p => p.1) hm

theorem createDirectoryFuel_cwd (now : Nat) :
    ∀ fuel path recursive s,
      ((createDirectoryFuel now fuel path recursive s).2).cwd = s.cwd := by
  intro fuel
  induction fuel with
  | zero => intro path recursive s; rfl
  | succ n ih =>
    intro path recursive s
    rw [createDirectoryFuel_succ_eq]
    simp only []
    by_cases hv : pathViolation (resolveIn s path)
    · simp [hv]
    · simp only [hv, if_false]
      by_cases he : (objGet s.nodes (resolveIn s path)).isSome
      · simp [he]
      · simp only [he, if_false]
        cases hp : objGet s.nodes
            (PathUtils.parseInfo (resolveIn s path)).parent with
        | none =>
          cases recursive with
          | false => simp
          | true =>
            simp only [if_true]
            cases hrec : createDirectoryFuel now n
                (PathUtils.parseInfo (resolveIn s path)).parent true s with
            | mk r1 s1 =>
              have hc : s1.cwd = s.cwd := by
                have := ih (PathUtils.parseInfo (resolveIn s path)).parent
                  true s
                rw [hrec] at this
                exact this
              cases r1 with
              | ok a => simp [createDirApply_cwd, hc]
              | error e => simp [hc]
        | some parentNode =>
          by_cases ht : parentNode.type ≠ FType.directory
          · simp [ht]
          · simp [ht, createDirApply_cwd]

/-- Inversion: a successful `createDirectory` leaves a size-0 directory
node at the resolved path and does not move the working directory. -/
theorem createDirectoryFuel_ok {now fuel : Nat} {path : String}
    {recursive : Bool} {s s' : FS}
    (h : createDirectoryFuel now fuel path recursive s = (.ok (), s')) :
    s'.cwd = s.cwd ∧
    ∃ n, objGet s'.nodes (resolveIn s path) = some n ∧ n.size = 0 ∧
      n.type = .directory := by
  cases fuel with
  | zero => exact absurd h (by simp [createDirectoryFuel, throwFs])
  | succ n =>
    rw [createDirectoryFuel_succ_eq] at h
    simp only [] at h
    by_cases hv : pathViolation (resolveIn s path)
    · rw [if_pos hv] at h
      simp at h
    · rw [if_neg hv] at h
      by_cases he : (objGet s.nodes (resolveIn s path)).isSome
      · rw [if_pos he] at h
        simp at h
      · rw [if_neg he] at h
        cases hp : objGet s.nodes
            (PathUtils.parseInfo (resolveIn s path)).parent with
        | none =>
          simp only [hp] at h
          cases recursive with
          | false => simp at h
          | true =>
            rw [if_pos rfl] at h
            cases hrec : createDirectoryFuel now n
                (PathUtils.parseInfo (resolveIn s path)).parent true s with
            | mk r1 s1 =>
              rw [hrec] at h
              cases r1 with
              | error e => simp at h
              | ok a =>
                simp only [Prod.mk.injEq, true_and] at h
                subst h
                constructor
                · rw [createDirApply_cwd]
                  have := createDirectoryFuel_cwd now n
                    (PathUtils.parseInfo (resolveIn s path)).parent true s
                  rw [hrec] at this
                  exact this
                · exact createDirApply_get now (resolveIn s path) _ s1
        | some parentNode =>
          simp only [hp] at h
          by_cases ht : parentNode.type ≠ FType.directory
          · rw [if_pos ht] at h
            simp at h
          · rw [if_neg ht] at h
            simp only [Prod.mk.injEq, true_and] at h
            subst h
            exact ⟨createDirApply_cwd now _ _ s,
              createDirApply_get now (resolveIn s path) _ s⟩

theorem writeFileOut_cwd (now : Nat) (s : FS) (resolved : String)
    (node : FileNode) (finalContent : String) :
    (writeFileOut now s resolved node finalContent).cwd = s.cwd := by
  unfold writeFileOut
  cases node.contentId <;> rfl

theorem writeFileOut_get (now : Nat) (s : FS) (resolved : String)
    (node : FileNode) (finalContent : String) :
    ∃ n, objGet (writeFileOut now s resolved node finalContent).nodes
        resolved = some n ∧ n.size = jsLength finalContent ∧
      n.type = node.type := by
  unfold writeFileOut
  cases node.contentId with
  | some cid => exact ⟨_, objGet_objSet_self _ _ _, rfl, rfl⟩
  | none => exact ⟨_, objGet_objSet_self _ _ _, rfl, rfl⟩

/-- Inversion: a successful `createFile` ends in the mirrored state. -/
theorem createFile_ok {now : Nat} {path content : String} {force : Bool}
    {s s' : FS} (h : createFile now path content force s = (.ok (), s')) :
    s' = createFileOut now s (resolveIn s path) content := by
  rw [createFile_eq] at h
  simp only [] at h
  split at h
  · simp at h
  · split at h
    · simp at h
    · split at h
      · simp at h
      · split at h
        · simp at h
        · split at h
          · simp at h
          · simp only [Prod.mk.injEq] at h
            exact h.2.symm

end FileSystemService

namespace FileSystemService

theorem createFileNode_type (now : Nat) (s : FS) (resolved content : String) :
    (createFileNode now s resolved content).type = FType.file := rfl

theorem createFileNode_contentId (now : Nat) (s : FS)
    (resolved content : String) :
    (createFileNode now s resolved content).contentId =
      some (freshContentId s.nextId) := rfl

theorem registerFileInParent_get_ne (now : Nat) (pp base k : String) (s : FS)
    (h : pp ≠ k) :
    objGet (registerFileInParent now pp base s).nodes k =
      objGet s.nodes k := by
  unfold registerFileInParent
  cases hp : objGet s.nodes pp with
  | none => simp [hp]
  | some parent =>
    cases hc : parent.children with
    | none => simp [hp, hc]
    | some cs =>
      simp only [hp, hc]
      by_cases hb : base ∈ cs
      · simp only [if_pos hb]
        exact objGet_objSet_ne _ _ _ _ h
      · simp only [if_neg hb]
        exact objGet_objSet_ne _ _ _ _ h

theorem createFileOut_contents (now : Nat) (s : FS)
    (resolved content : String) :
    (createFileOut now s resolved content).contents =
      objSet s.contents (contentKey (freshContentId s.nextId))
        ⟨freshContentId s.nextId, content, "utf-8"⟩ := by
  unfold createFileOut
  rw [(registerFileInParent_spec now (PathUtils.parseInfo resolved).parent
    (PathUtils.parseInfo resolved).base
    (createFileMid now s resolved content)).2.1]
  rfl

/-- A successful `createFile` leaves a file node at the resolved path
whose `stat` size is the UTF-16 length of the content. -/
theorem createFile_stat_size {now : Nat} {path content : String}
    {force : Bool} {s s' : FS}
    (h : createFile now path content force s = (.ok (), s')) :
    ∃ n, stat path s' = (.ok n, s') ∧ n.size = jsLength content ∧
      n.type = FType.file := by
  have hs := createFile_ok h
  subst hs
  have hcwd := createFileOut_cwd now s (resolveIn s path) content
  obtain ⟨n, hn, hsz, hty⟩ := createFileOut_get now s (resolveIn s path)
    content
  refine ⟨n, ?_, hsz, hty⟩
  rw [stat_eq, resolveIn_cwd hcwd]
  simp only [hn]

/-- A successful non-append `writeFile` leaves a file node at the
resolved path whose `stat` size is the UTF-16 length of the content. -/
theorem writeFile_stat_size {now : Nat} {path content : String} {s s' : FS}
    (h : writeFile now path content false s = (.ok (), s')) :
    ∃ n, stat path s' = (.ok n, s') ∧ n.size = jsLength content ∧
      n.type = FType.file := by
  rw [writeFile_eq] at h
  cases hn : objGet s.nodes (resolveIn s path) with
  | none =>
    simp only [hn] at h
    exact createFile_stat_size h
  | some node =>
    simp only [hn] at h
    by_cases ht : node.type ≠ FType.file
    · rw [if_pos ht] at h
      exact absurd h (by simp)
    · rw [if_neg ht] at h
      simp only [Bool.false_eq_true, if_false] at h
      by_cases hq : (storageUsed s : Int) +
          ((jsLength content : Int) - (node.size : Int)) >
          (maxTotalSize : Int)
      · rw [if_pos hq] at h
        exact absurd h (by simp)
      · rw [if_neg hq] at h
        simp only [Prod.mk.injEq, true_and] at h
        subst h
        have hcwd := writeFileOut_cwd now s (resolveIn s path) node content
        obtain ⟨n, hn2, hsz, hty⟩ := writeFileOut_get now s
          (resolveIn s path) node content
        refine ⟨n, ?_, hsz, ?_⟩
        · rw [stat_eq, resolveIn_cwd hcwd]
          simp only [hn2]
        · rw [hty]
          exact not_not.mp ht

/-- A successful `createDirectory` leaves a size-0 directory node at
the resolved path. -/
theorem createDirectory_stat_size {now : Nat} {path : String}
    {recursive : Bool} {s s' : FS}
    (h : createDirectory now path recursive s = (.ok (), s')) :
    ∃ n, stat path s' = (.ok n, s') ∧ n.size = 0 ∧
      n.type = FType.directory := by
  have h2 : createDirectoryFuel now (jsLength s.cwd + jsLength path + 2)
      path recursive s = (.ok (), s') := h
  obtain ⟨hcwd, n, hn, hsz, hty⟩ := createDirectoryFuel_ok h2
  refine ⟨n, ?_, hsz, hty⟩
  rw [stat_eq, resolveIn_cwd hcwd]
  simp only [hn]

/-- A successful `createFile` reached the branch where the resolved
path's parent exists. -/
theorem createFile_ok_parent {now : Nat} {path content : String}
    {force : Bool} {s s' : FS}
    (h : createFile now path content force s = (.ok (), s')) :
    ∃ parentNode, objGet s.nodes
      (PathUtils.parseInfo (resolveIn s path)).parent = some parentNode := by
  rw [createFile_eq] at h
  simp only [] at h
  split at h
  · simp at h
  · split at h
    · simp at h
    · split at h
      · simp at h
      · next parentNode heq => exact ⟨parentNode, heq⟩

/-- Reading back a file just created at a previously free path returns
exactly the written content. -/
theorem createFile_readFile {now : Nat} {path content : String}
    {force : Bool} {s s' : FS}
    (hn : objGet s.nodes (resolveIn s path) = none)
    (h : createFile now path content force s = (.ok (), s')) :
    readFile path s' = (.ok content, s') := by
  obtain ⟨pn, hp⟩ := createFile_ok_parent h
  have hne : (PathUtils.parseInfo (resolveIn s path)).parent ≠
      resolveIn s path := by
    intro he
    rw [he, hn] at hp
    exact Option.noConfusion hp
  have hs' := createFile_ok h
  subst hs'
  have hcwd := createFileOut_cwd now s (resolveIn s path) content
  have hg : objGet (createFileOut now s (resolveIn s path) content).nodes
      (resolveIn s path) =
      some (createFileNode now s (resolveIn s path) content) := by
    unfold createFileOut
    rw [registerFileInParent_get_ne _ _ _ _ _ hne]
    exact createFileMid_get now s (resolveIn s path) content
  rw [readFile_eq, resolveIn_cwd hcwd]
  simp only [hg, createFileNode_type, fileContentAt,
    createFileNode_contentId, createFileOut_contents, objGet_objSet_self]
  simp

/-- Reading back after `writeFileOut` returns the final content. -/
theorem writeFileOut_readFile (now : Nat) (path : String) (s : FS)
    (node : FileNode) (fc : String) (ht : node.type = FType.file) :
    readFile path (writeFileOut now s (resolveIn s path) node fc) =
      (.ok fc, writeFileOut now s (resolveIn s path) node fc) := by
  have hcwd := writeFileOut_cwd now s (resolveIn s path) node fc
  rw [readFile_eq, resolveIn_cwd hcwd]
  unfold writeFileOut
  cases hcid : node.contentId with
  | some cid =>
    simp only [hcid, objGet_objSet_self, fileContentAt, ht]
    simp [objGet_objSet_self]
  | none =>
    simp only [hcid, objGet_objSet_self, fileContentAt, ht]
    simp [objGet_objSet_self]

/-- Inversion of a successful `readFile`. -/
theorem readFile_ok {path : String} {s : FS} {c : String}
    (h : readFile path s = (.ok c, s)) :
    ∃ node, objGet s.nodes (resolveIn s path) = some node ∧
      node.type = FType.file ∧ fileContentAt s node = c := by
  rw [readFile_eq] at h
  cases hn : objGet s.nodes (resolveIn s path) with
  | none =>
    simp only [hn] at h
    exact absurd h (by simp)
  | some node =>
    simp only [hn] at h
    by_cases ht : node.type ≠ FType.file
    · rw [if_pos ht] at h
      exact absurd h (by simp)
    · rw [if_neg ht] at h
      simp only [Prod.mk.injEq, Except.ok.injEq, and_true] at h
      exact ⟨node, rfl, not_not.mp ht, h⟩

end FileSystemService

/-! ## Path structure theory for the state invariant (claim C2) -/

/-- The clean segments of a normalized absolute path: split on `/` and
drop empties. -/
def segsOf (p : String) : List (List Char) :=
  (sepSplit p.data).filter fun s => !s.isEmpty

/-- `p` is an ancestor of `q` (or `q` itself), segment-wise. -/
def pathLE (p q : String) : Prop :=
  (segsOf p).IsPrefix (segsOf q)

instance (p q : String) : Decidable (pathLE p q) := by
  unfold pathLE
  infer_instance

theorem pathLE_refl (p : String) : pathLE p p :=
  List.prefix_refl _

theorem interSep_append_last (l : List (List Char)) (x : List Char)
    (hl : l ≠ []) :
    interSep (l ++ [x]) = interSep l ++ '/' :: x := by
  induction l with
  | nil => exact absurd rfl hl
  | cons a t ih =>
    cases t with
    | nil => rfl
    | cons b t2 =>
      rw [List.cons_append, interSep_cons a ((b :: t2) ++ [x]) (by simp),
        interSep_cons a (b :: t2) (by simp), ih (by simp)]
      simp

theorem segsOf_mkAbs (l : List (List Char)) (hl : ∀ s ∈ l, goodSeg s) :
    segsOf (mkAbs l) = l := by
  unfold segsOf
  have hdata : (mkAbs l).data = '/' :: interSep l := rfl
  rw [hdata]
  rw [show sepSplit ('/' :: interSep l) = [] :: sepSplit (interSep l) from by
    rw [sepSplit, if_pos rfl]]
  cases hcase : l with
  | nil =>
    rw [show interSep ([] : List (List Char)) = [] from rfl]
    rfl
  | cons p t =>
    rw [← hcase]
    have hlne : l ≠ [] := by rw [hcase]; simp
    rw [sepSplit_interSep l hlne (fun s hs => (hl s hs).2.1)]
    rw [show (([] :: l).filter fun s => !s.isEmpty) =
        l.filter fun s => !s.isEmpty from by simp [List.filter]]
    rw [List.filter_eq_self]
    intro s hs
    simpa using (hl s hs).1

theorem mkAbs_ne_root (l : List (List Char)) (hl : ∀ s ∈ l, goodSeg s)
    (hne : l ≠ []) : mkAbs l ≠ "/" := by
  intro hc
  have h1 : segsOf (mkAbs l) = l := segsOf_mkAbs l hl
  have h2 : segsOf "/" = [] := rfl
  rw [hc, h2] at h1
  exact hne h1.symm

theorem mkAbs_inj {l m : List (List Char)} (hl : ∀ s ∈ l, goodSeg s)
    (hm : ∀ s ∈ m, goodSeg s) (h : mkAbs l = mkAbs m) : l = m := by
  have := segsOf_mkAbs l hl
  rw [h, segsOf_mkAbs m hm] at this
  exact this.symm

theorem pathLE_mkAbs_iff {l m : List (List Char)}
    (hl : ∀ s ∈ l, goodSeg s) (hm : ∀ s ∈ m, goodSeg s) :
    pathLE (mkAbs l) (mkAbs m) ↔ l.IsPrefix m := by
  unfold pathLE
  rw [segsOf_mkAbs l hl, segsOf_mkAbs m hm]

theorem sepSplit_interSep_append (l : List (List Char)) (rest : List Char)
    (hne : l ≠ []) (h : ∀ s ∈ l, '/' ∉ s) :
    sepSplit (interSep l ++ '/' :: rest) = l ++ sepSplit rest := by
  induction l with
  | nil => exact absurd rfl hne
  | cons p t ih =>
    cases t with
    | nil =>
      show sepSplit (p ++ '/' :: rest) = p :: sepSplit rest
      exact sepSplit_append p rest (h p (List.mem_cons_self _ _))
    | cons q t2 =>
      rw [interSep_cons p _ (by simp), List.append_assoc, List.cons_append]
      rw [sepSplit_append p _ (h p (List.mem_cons_self _ _))]
      rw [ih (by simp) (fun x hx => h x (List.mem_cons_of_mem _ hx))]
      rfl

/-- Joining a valid child name onto a normalized absolute path appends
one segment. -/
theorem join_mkAbs (l : List (List Char)) (hl : ∀ s ∈ l, goodSeg s)
    (c : String) (hc : ValidSeg c) :
    PathUtils.join (mkAbs l) c = mkAbs (l ++ [c.data]) := by
  unfold PathUtils.join
  have hgood : ∀ s ∈ l ++ [c.data], goodSeg s := by
    intro s hs
    rcases List.mem_append.mp hs with h | h
    · exact hl s h
    · rw [List.mem_singleton.mp h]
      exact hc
  have hdata : (mkAbs l ++ "/" ++ c).data =
      '/' :: (interSep l ++ '/' :: c.data) := by
    show (mkAbs l).data ++ "/".data ++ c.data = _
    rw [show (mkAbs l).data = '/' :: interSep l from rfl]
    simp
  have hne : mkAbs l ++ "/" ++ c ≠ "" :=
    string_ne_empty_of_data _ '/' _ hdata
  have hnobs : '\\' ∉ (mkAbs l ++ "/" ++ c).data := by
    rw [hdata]
    intro hmem
    rcases List.mem_cons.mp hmem with h | h
    · exact absurd h (by decide)
    · rcases List.mem_append.mp h with h | h
      · rcases mem_interSep l '\\' h with h | ⟨sg, hsg, hcs⟩
        · exact absurd h (by decide)
        · exact (hl sg hsg).2.2.1 hcs
      · rcases List.mem_cons.mp h with h | h
        · exact absurd h (by decide)
        · exact hc.2.2.1 h
  rw [PathUtils.normalize, if_neg hne, map_id_of_no_bs _ hnobs, hdata,
    PathUtils.normCore_abs]
  have hsplit : sepSplit ('/' :: (interSep l ++ '/' :: c.data)) =
      [] :: (sepSplit (interSep l ++ '/' :: c.data)) := by
    rw [sepSplit, if_pos rfl]
  cases hcase : l with
  | nil =>
    subst hcase
    rw [show (interSep ([] : List (List Char)) ++ '/' :: c.data) =
        '/' :: c.data from rfl] at hsplit
    rw [show sepSplit ('/' :: c.data) = [] :: sepSplit c.data from by
      rw [sepSplit, if_pos rfl]] at hsplit
    rw [sepSplit_no_slash c.data hc.2.1] at hsplit
    rw [show (interSep ([] : List (List Char)) ++ '/' :: c.data) =
        '/' :: c.data from rfl]
    rw [hsplit]
    have hfil : (([] :: [] :: [c.data]).filter
        fun s => !s.isEmpty && !(s == ['.'])) = [c.data] := by
      have h1 : c.data.isEmpty = false := by
        cases hd : c.data with
        | nil => exact absurd hd hc.1
        | cons a t => rfl
      have h2 : (c.data == ['.']) = false := by
        simp only [beq_eq_false_iff_ne, ne_eq]
        exact hc.2.2.2.1
      simp [List.filter, h1, h2]
    rw [hfil, normSegs_all_push true [c.data]
      (by intro s hs; rw [List.mem_singleton.mp hs]; exact hc.2.2.2.2) []]
  | cons p t =>
    rw [← hcase]
    have hlne : l ≠ [] := by rw [hcase]; simp
    rw [sepSplit_interSep_append l c.data hlne
      (fun sg hsg => (hl sg hsg).2.1)] at hsplit
    rw [sepSplit_no_slash c.data hc.2.1] at hsplit
    rw [hsplit]
    have hfil : (([] :: (l ++ [c.data])).filter
        fun s => !s.isEmpty && !(s == ['.'])) = l ++ [c.data] := by
      rw [show (([] :: (l ++ [c.data])).filter
          fun s => !s.isEmpty && !(s == ['.'])) =
          (l ++ [c.data]).filter fun s => !s.isEmpty && !(s == ['.']) from
        by simp [List.filter]]
      rw [List.filter_eq_self]
      intro sg hsg
      rcases hgood sg hsg with ⟨h1, _, _, h4, _⟩
      simp [h1, h4]
    rw [hfil, normSegs_all_push true (l ++ [c.data])
      (fun sg hsg => (hgood sg hsg).2.2.2.2) []]
    simp [mkAbs]

theorem takeWhile_all_stop (p : Char → Bool) (xs : List Char) (y : Char)
    (ys : List Char) (hall : ∀ a ∈ xs, p a = true) (hy : p y = false) :
    (xs ++ y :: ys).takeWhile p = xs := by
  induction xs with
  | nil => simp [List.takeWhile, hy]
  | cons a t ih =>
    simp [List.takeWhile_cons, hall a (List.mem_cons_self _ _),
      ih (fun b hb => hall b (List.mem_cons_of_mem _ hb))]

/-- The basename of a nonempty normalized absolute path is its last
segment. -/
theorem basename_mkAbs (l : List (List Char)) (x : List Char)
    (hl : ∀ s ∈ l ++ [x], goodSeg s) :
    PathUtils.basename (mkAbs (l ++ [x])) = ⟨x⟩ := by
  unfold PathUtils.basename
  rw [PathUtils.normalize_mkAbs (l ++ [x]) hl]
  have hx : goodSeg x := hl x (by simp)
  have hrev : ('/' :: interSep (l ++ [x])).reverse.takeWhile (· ≠ '/') =
      x.reverse := by
    cases hcase : l with
    | nil =>
      show ('/' :: interSep [x]).reverse.takeWhile (· ≠ '/') = x.reverse
      rw [show interSep [x] = x from rfl]
      rw [show ('/' :: x).reverse = x.reverse ++ ['/'] from by simp]
      rw [show x.reverse ++ ['/'] = x.reverse ++ '/' :: [] from rfl]
      apply takeWhile_all_stop
      · intro a ha
        have : a ∈ x := List.mem_reverse.mp ha
        have hns := hx.2.1
        simp only [decide_eq_true_eq]
        intro hc
        rw [hc] at this
        exact hns this
      · simp
    | cons p t =>
      rw [← hcase]
      have hlne : l ≠ [] := by rw [hcase]; simp
      rw [interSep_append_last l x hlne]
      rw [show ('/' :: (interSep l ++ '/' :: x)).reverse =
          x.reverse ++ '/' :: ((interSep l).reverse ++ ['/']) from by simp]
      apply takeWhile_all_stop
      · intro a ha
        have : a ∈ x := List.mem_reverse.mp ha
        have hns := hx.2.1
        simp only [decide_eq_true_eq]
        intro hc
        rw [hc] at this
        exact hns this
      · simp
  show (⟨(((mkAbs (l ++ [x])).data).reverse.takeWhile (· ≠ '/')).reverse⟩ :
      String) = ⟨x⟩
  rw [show (mkAbs (l ++ [x])).data = '/' :: interSep (l ++ [x]) from rfl,
    hrev]
  simp

theorem isAbsolute_append (a b : String)
    (h : PathUtils.isAbsolute a = true) :
    PathUtils.isAbsolute (a ++ b) = true := by
  rcases (PathUtils.isAbsolute_data a).mp h with ⟨rest, hrest⟩
  apply (PathUtils.isAbsolute_data (a ++ b)).mpr
  refine ⟨rest ++ b.data, ?_⟩
  show a.data ++ b.data = '/' :: (rest ++ b.data)
  rw [hrest]
  rfl

theorem normalize_isAbs (p : String) (h : PathUtils.isAbsolute p = true) :
    PathUtils.isAbsolute (PathUtils.normalize p) = true := by
  rcases PathUtils.normalize_abs_repr p h with ⟨l, _, heq⟩
  rw [heq]
  exact PathUtils.isAbsolute_mkAbs l

theorem mem_objSet {α : Type} (l : List (String × α)) (k : String)
    (v : α) : ∀ kv ∈ objSet l k v, kv = (k, v) ∨ kv ∈ l := by
  induction l with
  | nil =>
    intro kv hkv
    simp [objSet] at hkv
    simp [hkv]
  | cons hd t ih =>
    obtain ⟨a, b⟩ := hd
    intro kv hkv
    by_cases hk : a = k
    · rw [show objSet ((a, b) :: t) k v = (k, v) :: t from by
        simp [objSet, hk]] at hkv
      rcases List.mem_cons.mp hkv with h | h
      · exact Or.inl h
      · exact Or.inr (List.mem_cons_of_mem _ h)
    · rw [show objSet ((a, b) :: t) k v = (a, b) :: objSet t k v from by
        simp [objSet, hk]] at hkv
      rcases List.mem_cons.mp hkv with h | h
      · exact Or.inr (h ▸ List.mem_cons_self _ _)
      · rcases ih kv h with h2 | h2
        · exact Or.inl h2
        · exact Or.inr (List.mem_cons_of_mem _ h2)

theorem mem_objDel {α : Type} (l : List (String × α)) (k : String) :
    ∀ kv ∈ objDel l k, kv ∈ l := by
  induction l with
  | nil => intro kv hkv; simp [objDel] at hkv
  | cons hd t ih =>
    obtain ⟨a, b⟩ := hd
    intro kv hkv
    by_cases hk : a = k
    · rw [show objDel ((a, b) :: t) k = t from by simp [objDel, hk]] at hkv
      exact List.mem_cons_of_mem _ hkv
    · rw [show objDel ((a, b) :: t) k = (a, b) :: objDel t k from by
        simp [objDel, hk]] at hkv
      rcases List.mem_cons.mp hkv with h | h
      · exact h ▸ List.mem_cons_self _ _
      · exact List.mem_cons_of_mem _ (ih kv h)

/-- Deleting one key leaves every other key's lookup unchanged (no
uniqueness assumption: only the first occurrence of `k` is removed and
other keys keep their relative order). -/
theorem objDel_get_ne {α : Type} (l : List (String × α)) (k k' : String)
    (h : k ≠ k') : objGet (objDel l k) k' = objGet l k' := by
  induction l with
  | nil => rfl
  | cons hd t ih =>
    obtain ⟨a, b⟩ := hd
    by_cases hk : a = k
    · rw [show objDel ((a, b) :: t) k = t from by simp [objDel, hk],
        objGet_cons, if_neg (by rw [hk]; exact h)]
    · rw [show objDel ((a, b) :: t) k = (a, b) :: objDel t k from by
        simp [objDel, hk], objGet_cons, objGet_cons, ih]

/-! ## The state invariant of the file-system engine (claim C2) -/

namespace FileSystemService

/-- `nodes['/']` exists, is a directory and has no parent. -/
def RootOk (s : FS) : Prop :=
  ∃ n, objGet s.nodes "/" = some n ∧ n.type = FType.directory ∧
    n.parent = none

/-- `currentWorkingDirectory` is a normalized absolute path that
references an existing directory node. -/
def CwdOk (s : FS) : Prop :=
  NormAbs s.cwd ∧
    ∃ n, objGet s.nodes s.cwd = some n ∧ n.type = FType.directory

/-- The state invariant of claim C2. -/
def Inv (s : FS) : Prop := RootOk s ∧ CwdOk s

/-- Well-formed children lists: every child name is a single clean path
segment (spec §3: children reference existing nodes by valid names). -/
def WF (s : FS) : Prop :=
  ∀ kv ∈ s.nodes, ∀ c ∈ kv.2.children.getD [], ValidSeg c

instance (s : FS) : Decidable (WF s) := by
  unfold WF
  infer_instance

/-- Invariant and well-formedness together. -/
def Good (s : FS) : Prop := Inv s ∧ WF s

theorem Inv_of_meta {s₁ s₂ : FS} (hcwd : s₂.cwd = s₁.cwd)
    (hmeta : ∀ k, (objGet s₂.nodes k).map nodeMeta =
      (objGet s₁.nodes k).map nodeMeta) (h : Inv s₁) : Inv s₂ := by
  obtain ⟨⟨r, hr, hrt, hrp⟩, hna, c, hcg, hct⟩ := h
  refine ⟨?_, ?_, ?_⟩
  · have hm := hmeta "/"
    rw [hr] at hm
    rcases Option.map_eq_some'.mp hm with ⟨n, hn, hnm⟩
    refine ⟨n, hn, ?_, ?_⟩
    · have := congrArg (fun p => p.1) hnm
      simpa [nodeMeta, hrt] using this
    · have := congrArg (fun p => p.2.1) hnm
      simpa [nodeMeta, hrp] using this
  · rw [hcwd]
    exact hna
  · have hm := hmeta s₁.cwd
    rw [hcg] at hm
    rcases Option.map_eq_some'.mp hm with ⟨n, hn, hnm⟩
    refine ⟨n, by rw [hcwd]; exact hn, ?_⟩
    have := congrArg (fun p => p.1) hnm
    simpa [nodeMeta, hct] using this

theorem mem_childSort (x : String) (l : List String) :
    x ∈ childSort l ↔ x ∈ l :=
  mem_jsSort _ x l

theorem detachFromParent_wf (now : Nat) (node : FileNode) {s : FS}
    (h : WF s) : WF (detachFromParent now node s) := by
  unfold detachFromParent
  cases hpar : node.parent with
  | none => simp only [hpar]; exact h
  | some pp =>
    cases hp : objGet s.nodes pp with
    | none => simp only [hpar, hp]; exact h
    | some parent =>
      cases hc : parent.children with
      | none => simp only [hpar, hp, hc]; exact h
      | some cs =>
        by_cases hb : node.name ∈ cs
        · simp only [hpar, hp, hc, if_pos hb]
          intro kv hkv c hcm
          rcases mem_objSet _ _ _ kv hkv with heq | hmem
          · subst heq
            have hcs : c ∈ cs := by
              have : c ∈ cs.erase node.name := by simpa using hcm
              exact List.mem_of_mem_erase this
            exact h (pp, parent) (objGet_mem _ _ _ hp)
              c (by simpa [hc] using hcs)
          · exact h kv hmem c hcm
        · simp only [hpar, hp, hc, if_neg hb]
          exact h

theorem registerDirInParent_wf (now : Nat) (pp base : String) {s : FS}
    (h : WF s) (hb : ValidSeg base) :
    WF (registerDirInParent now pp base s) := by
  unfold registerDirInParent
  cases hp : objGet s.nodes pp with
  | none => simp only [hp]; exact h
  | some parent =>
    cases hc : parent.children with
    | none => simp only [hp, hc]; exact h
    | some cs =>
      simp only [hp, hc]
      intro kv hkv c hcm
      rcases mem_objSet _ _ _ kv hkv with heq | hmem
      · subst heq
        have hcs : c ∈ childSort (cs ++ [base]) := by simpa using hcm
        rcases List.mem_append.mp ((mem_childSort c _).mp hcs) with h2 | h2
        · exact h (pp, parent) (objGet_mem _ _ _ hp) c
            (by simpa [hc] using h2)
        · rw [List.mem_singleton.mp h2]
          exact hb
      · exact h kv hmem c hcm

theorem registerFileInParent_wf (now : Nat) (pp base : String) {s : FS}
    (h : WF s) (hb : ValidSeg base) :
    WF (registerFileInParent now pp base s) := by
  unfold registerFileInParent
  cases hp : objGet s.nodes pp with
  | none => simp only [hp]; exact h
  | some parent =>
    cases hc : parent.children with
    | none => simp only [hp, hc]; exact h
    | some cs =>
      by_cases hmem2 : base ∈ cs
      · simp only [hp, hc, if_pos hmem2]
        intro kv hkv c hcm
        rcases mem_objSet _ _ _ kv hkv with heq | hmem
        · subst heq
          exact h (pp, parent) (objGet_mem _ _ _ hp) c
            (by simpa [hc] using hcm)
        · exact h kv hmem c hcm
      · simp only [hp, hc, if_neg hmem2]
        intro kv hkv c hcm
        rcases mem_objSet _ _ _ kv hkv with heq | hmem
        · subst heq
          have hcs : c ∈ childSort (cs ++ [base]) := by simpa using hcm
          rcases List.mem_append.mp ((mem_childSort c _).mp hcs) with
            h2 | h2
          · exact h (pp, parent) (objGet_mem _ _ _ hp) c
              (by simpa [hc] using h2)
          · rw [List.mem_singleton.mp h2]
            exact hb
        · exact h kv hmem c hcm

theorem restampDest_wf (sourceNode : FileNode) (resolvedDest : String)
    {s : FS} (h : WF s) : WF (restampDest sourceNode resolvedDest s) := by
  unfold restampDest
  cases hp : objGet s.nodes resolvedDest with
  | none => simp only [hp]; exact h
  | some newNode =>
    simp only [hp]
    intro kv hkv c hcm
    rcases mem_objSet _ _ _ kv hkv with heq | hmem
    · subst heq
      exact h (resolvedDest, newNode) (objGet_mem _ _ _ hp) c hcm
    · exact h kv hmem c hcm

theorem WF_same_nodes {s s' : FS} (hn : s'.nodes = s.nodes) (h : WF s) :
    WF s' := by
  intro kv hkv c hcm
  exact h kv (hn ▸ hkv) c hcm

theorem Inv_same {s s' : FS} (hn : s'.nodes = s.nodes)
    (hc : s'.cwd = s.cwd) (h : Inv s) : Inv s' := by
  obtain ⟨⟨r, hr, hrt, hrp⟩, hna, c, hcg, hct⟩ := h
  exact ⟨⟨r, by rw [hn, hr], hrt, hrp⟩, by rw [hc]; exact hna,
    c, by rw [hn, hc, hcg], hct⟩

theorem WF_del_node {s s' : FS} {k : String}
    (hn : s'.nodes = objDel s.nodes k) (h : WF s) : WF s' := by
  intro kv hkv c hcm
  rw [hn] at hkv
  exact h kv (mem_objDel _ _ kv hkv) c hcm

theorem WF_set_node {s s' : FS} {k : String} {n : FileNode}
    (hn : s'.nodes = objSet s.nodes k n) (h : WF s)
    (hvn : ∀ c ∈ n.children.getD [], ValidSeg c) : WF s' := by
  intro kv hkv c hcm
  rw [hn] at hkv
  rcases mem_objSet _ _ _ kv hkv with heq | hmem
  · subst heq
    exact hvn c hcm
  · exact h kv hmem c hcm

theorem Inv_set_node {s s' : FS} {k : String} {n : FileNode}
    (hn : s'.nodes = objSet s.nodes k n) (hc : s'.cwd = s.cwd)
    (h : Inv s) (hk1 : k ≠ "/") (hk2 : k ≠ s.cwd) : Inv s' := by
  obtain ⟨⟨r, hr, hrt, hrp⟩, hna, c, hcg, hct⟩ := h
  refine ⟨⟨r, ?_, hrt, hrp⟩, by rw [hc]; exact hna, c, ?_, hct⟩
  · rw [hn, objGet_objSet_ne _ _ _ _ hk1, hr]
  · rw [hn, hc, objGet_objSet_ne _ _ _ _ hk2, hcg]

theorem Inv_del_node {s s' : FS} {k : String}
    (hn : s'.nodes = objDel s.nodes k) (hc : s'.cwd = s.cwd)
    (h : Inv s) (hk1 : k ≠ "/") (hk2 : k ≠ s.cwd) : Inv s' := by
  obtain ⟨⟨r, hr, hrt, hrp⟩, hna, c, hcg, hct⟩ := h
  refine ⟨⟨r, ?_, hrt, hrp⟩, by rw [hc]; exact hna, c, ?_, hct⟩
  · rw [hn, objDel_get_ne _ _ _ hk1, hr]
  · rw [hn, hc, objDel_get_ne _ _ _ hk2, hcg]

theorem ne_root_cwd_of_get_none {s : FS} {k : String} (h : Inv s)
    (hk : objGet s.nodes k = none) : k ≠ "/" ∧ k ≠ s.cwd := by
  obtain ⟨⟨r, hr, _, _⟩, _, c, hcg, _⟩ := h
  constructor
  · intro he
    rw [he, hr] at hk
    exact Option.noConfusion hk
  · intro he
    rw [he, hcg] at hk
    exact Option.noConfusion hk

theorem ne_root_cwd_of_file {s : FS} {k : String} {n : FileNode}
    (h : Inv s) (hk : objGet s.nodes k = some n)
    (ht : n.type = FType.file) : k ≠ "/" ∧ k ≠ s.cwd := by
  obtain ⟨⟨r, hr, hrt, _⟩, _, c, hcg, hct⟩ := h
  constructor
  · intro he
    rw [he, hr] at hk
    cases hk
    rw [hrt] at ht
    exact FType.noConfusion ht
  · intro he
    rw [he, hcg] at hk
    cases hk
    rw [hct] at ht
    exact FType.noConfusion ht

theorem parseInfo_base_valid {p : String} (h : NormAbs p)
    (hne : p ≠ "/") : ValidSeg (PathUtils.parseInfo p).base := by
  obtain ⟨l, hl, rfl⟩ := h
  rcases List.eq_nil_or_concat l with rfl | ⟨init, x, rfl⟩
  · exact absurd rfl hne
  · simp only [List.concat_eq_append] at hl hne ⊢
    have hbase : (PathUtils.parseInfo (mkAbs (init ++ [x]))).base =
        PathUtils.basename (PathUtils.normalize (mkAbs (init ++ [x]))) :=
      rfl
    rw [hbase, PathUtils.normalize_mkAbs _ hl, basename_mkAbs init x hl]
    exact hl x (by simp)

theorem resolveIn_normAbs (s : FS) (path : String) (h : NormAbs s.cwd) :
    NormAbs (resolveIn s path) := by
  unfold resolveIn
  by_cases hp : PathUtils.isAbsolute path
  · simp only [hp, if_true]
    exact PathUtils.normAbs_of_abs path hp
  · simp only [hp, Bool.false_eq_true, if_false]
    unfold PathUtils.resolve
    simp only [hp, Bool.false_eq_true, if_false]
    apply PathUtils.normAbs_of_abs
    unfold PathUtils.join
    apply normalize_isAbs
    exact isAbsolute_append _ _ (isAbsolute_append _ _ h.isAbs)

/-- `changeDirectory` preserves the invariant unconditionally. -/
theorem changeDirectory_pres (path : String) {s : FS} (h : Good s) :
    Good (changeDirectory path s).2 := by
  obtain ⟨hInv, hWF⟩ := h
  rw [changeDirectory_eq]
  cases hn : objGet s.nodes (resolveIn s path) with
  | none => exact ⟨hInv, hWF⟩
  | some node =>
    simp only [hn]
    by_cases ht : node.type ≠ FType.directory
    · rw [if_pos ht]
      exact ⟨hInv, hWF⟩
    · rw [if_neg ht]
      refine ⟨⟨?_, ?_, ?_⟩, ?_⟩
      · exact hInv.1
      · exact resolveIn_normAbs s path hInv.2.1
      · exact ⟨node, hn, not_not.mp ht⟩
      · exact hWF

/-- `createFile` preserves the invariant provided it does not
force-overwrite the root or the working-directory node (automatic when
the target does not exist yet). -/
theorem createFile_pres (now : Nat) (path content : String) (force : Bool)
    {s : FS} (h : Good s)
    (hfc : (resolveIn s path ≠ "/" ∧ resolveIn s path ≠ s.cwd) ∨
      objGet s.nodes (resolveIn s path) = none) :
    Good (createFile now path content force s).2 ∧
    (createFile now path content force s).2.cwd = s.cwd := by
  obtain ⟨hInv, hWF⟩ := h
  have hne : resolveIn s path ≠ "/" ∧ resolveIn s path ≠ s.cwd := by
    rcases hfc with h | h
    · exact h
    · exact ne_root_cwd_of_get_none hInv h
  rw [createFile_eq]
  dsimp only
  by_cases hv : pathViolation (resolveIn s path)
  · rw [if_pos hv]
    exact ⟨⟨hInv, hWF⟩, rfl⟩
  · rw [if_neg hv]
    by_cases he : ((objGet s.nodes (resolveIn s path)).isSome && !force) =
        true
    · rw [if_pos he]
      exact ⟨⟨hInv, hWF⟩, rfl⟩
    · rw [if_neg he]
      cases hp : objGet s.nodes
          (PathUtils.parseInfo (resolveIn s path)).parent with
      | none => exact ⟨⟨hInv, hWF⟩, rfl⟩
      | some parentNode =>
        simp only [hp]
        by_cases ht : parentNode.type ≠ FType.directory
        · rw [if_pos ht]
          exact ⟨⟨hInv, hWF⟩, rfl⟩
        · rw [if_neg ht]
          by_cases hq : (storageUsed s : Int) + (jsLength content : Int) >
              (maxTotalSize : Int)
          · rw [if_pos hq]
            exact ⟨⟨hInv, hWF⟩, rfl⟩
          · rw [if_neg hq]
            have hres := resolveIn_normAbs s path hInv.2.1
            have hb : ValidSeg
                (PathUtils.parseInfo (resolveIn s path)).base :=
              parseInfo_base_valid hres hne.1
            have hmid_inv : Inv (createFileMid now s (resolveIn s path)
                content) :=
              Inv_set_node rfl rfl hInv hne.1 hne.2
            have hmid_wf : WF (createFileMid now s (resolveIn s path)
                content) :=
              WF_set_node rfl hWF
                (fun c hc => absurd hc (List.not_mem_nil c))
            have hspec := registerFileInParent_spec now
              (PathUtils.parseInfo (resolveIn s path)).parent
              (PathUtils.parseInfo (resolveIn s path)).base
              (createFileMid now s (resolveIn s path) content)
            refine ⟨⟨?_, ?_⟩, createFileOut_cwd now s (resolveIn s path)
              content⟩
            · exact Inv_of_meta hspec.1 hspec.2.2.2.2 hmid_inv
            · exact registerFileInParent_wf now _ _ hmid_wf hb

/-- `writeFile` preserves the invariant unconditionally: in-place
writes target an existing file node (never the root or working
directory, which are directories), and the create path targets a free
path. -/
theorem writeFile_pres (now : Nat) (path content : String)
    (append : Bool) {s : FS} (h : Good s) :
    Good (writeFile now path content append s).2 ∧
    (writeFile now path content append s).2.cwd = s.cwd := by
  rw [writeFile_eq]
  cases hn : objGet s.nodes (resolveIn s path) with
  | none =>
    simp only [hn]
    exact createFile_pres now path content false h (Or.inr hn)
  | some node =>
    simp only [hn]
    obtain ⟨hInv, hWF⟩ := h
    by_cases ht : node.type ≠ FType.file
    · rw [if_pos ht]
      exact ⟨⟨hInv, hWF⟩, rfl⟩
    · rw [if_neg ht]
      have hne := ne_root_cwd_of_file hInv hn (not_not.mp ht)
      by_cases hq : (storageUsed s : Int) +
          ((jsLength (if append then fileContentAt s node ++ content
            else content) : Int) - (node.size : Int)) >
          (maxTotalSize : Int)
      · rw [if_pos hq]
        exact ⟨⟨hInv, hWF⟩, rfl⟩
      · rw [if_neg hq]
        have hnodes : ∃ nn, (writeFileOut now s (resolveIn s path) node
            (if append then fileContentAt s node ++ content
              else content)).nodes =
            objSet s.nodes (resolveIn s path) nn ∧
            nn.children = node.children := by
          unfold writeFileOut
          cases node.contentId <;> exact ⟨_, rfl, rfl⟩
        obtain ⟨nn, hnn, hch⟩ := hnodes
        have hvn : ∀ c ∈ nn.children.getD [], ValidSeg c := by
          rw [hch]
          exact hWF (resolveIn s path, node) (objGet_mem _ _ _ hn)
        refine ⟨⟨?_, ?_⟩, writeFileOut_cwd now s (resolveIn s path) node
          _⟩
        · exact Inv_set_node hnn
            (writeFileOut_cwd now s (resolveIn s path) node _)
            hInv hne.1 hne.2
        · exact WF_set_node hnn hWF hvn

theorem createDirApply_pres (now : Nat) (resolved parentPath : String)
    {s1 : FS} (hInv : Inv s1) (hWF : WF s1) (hk1 : resolved ≠ "/")
    (hk2 : resolved ≠ s1.cwd)
    (hb : ValidSeg (PathUtils.parseInfo resolved).base) :
    Good (createDirApply now resolved parentPath s1) := by
  unfold createDirApply
  have hmid_inv : Inv (createDirMid now resolved parentPath s1) :=
    Inv_set_node rfl rfl hInv hk1 hk2
  have hmid_wf : WF (createDirMid now resolved parentPath s1) :=
    WF_set_node rfl hWF (fun c hc => absurd hc (List.not_mem_nil c))
  have hspec := registerDirInParent_spec now parentPath
    (PathUtils.parseInfo resolved).base
    (createDirMid now resolved parentPath s1)
  exact ⟨Inv_of_meta hspec.1 hspec.2.2.2.2 hmid_inv,
    registerDirInParent_wf now _ _ hmid_wf hb⟩

/-- `createDirectory` (at any fuel) preserves the invariant
unconditionally: the target never exists beforehand (EEXIST guard), so
it is neither the root nor the working directory. -/
theorem createDirectoryFuel_pres (now : Nat) :
    ∀ fuel path recursive {s : FS}, Good s →
      Good (createDirectoryFuel now fuel path recursive s).2 ∧
      (createDirectoryFuel now fuel path recursive s).2.cwd = s.cwd := by
  intro fuel
  induction fuel with
  | zero => intro path recursive s h; exact ⟨h, rfl⟩
  | succ n ih =>
    intro path recursive s h
    obtain ⟨hInv, hWF⟩ := h
    rw [createDirectoryFuel_succ_eq]
    dsimp only
    by_cases hv : pathViolation (resolveIn s path)
    · rw [if_pos hv]
      exact ⟨⟨hInv, hWF⟩, rfl⟩
    · rw [if_neg hv]
      by_cases he : (objGet s.nodes (resolveIn s path)).isSome = true
      · rw [if_pos he]
        exact ⟨⟨hInv, hWF⟩, rfl⟩
      · rw [if_neg he]
        have hn : objGet s.nodes (resolveIn s path) = none := by
          cases hg : objGet s.nodes (resolveIn s path) with
          | none => rfl
          | some x => rw [hg] at he; exact absurd rfl he
        have hne := ne_root_cwd_of_get_none hInv hn
        have hres := resolveIn_normAbs s path hInv.2.1
        have hb := parseInfo_base_valid hres hne.1
        cases hp : objGet s.nodes
            (PathUtils.parseInfo (resolveIn s path)).parent with
        | none =>
          simp only [hp]
          cases recursive with
          | false =>
            simp only [Bool.false_eq_true, if_false]
            exact ⟨⟨hInv, hWF⟩, by trivial⟩
          | true =>
            simp only [if_true]
            obtain ⟨⟨hInv1, hWF1⟩, hcwd1⟩ :=
              ih (PathUtils.parseInfo (resolveIn s path)).parent true
                ⟨hInv, hWF⟩
            cases hrec : createDirectoryFuel now n
                (PathUtils.parseInfo (resolveIn s path)).parent true s with
            | mk r1 s1 =>
              rw [hrec] at hInv1 hWF1 hcwd1
              cases r1 with
              | error e => exact ⟨⟨hInv1, hWF1⟩, hcwd1⟩
              | ok a =>
                refine ⟨createDirApply_pres now _ _ hInv1 hWF1 hne.1
                  (by rw [hcwd1]; exact hne.2) hb, ?_⟩
                rw [createDirApply_cwd]
                exact hcwd1
        | some parentNode =>
          simp only [hp]
          by_cases ht : parentNode.type ≠ FType.directory
          · rw [if_pos ht]
            exact ⟨⟨hInv, hWF⟩, rfl⟩
          · rw [if_neg ht]
            refine ⟨createDirApply_pres now _ _ hInv hWF hne.1 hne.2 hb,
              ?_⟩
            rw [createDirApply_cwd]

/-- `createDirectory` preserves the invariant. -/
theorem createDirectory_pres (now : Nat) (path : String)
    (recursive : Bool) {s : FS} (h : Good s) :
    Good (createDirectory now path recursive s).2 ∧
    (createDirectory now path recursive s).2.cwd = s.cwd :=
  createDirectoryFuel_pres now (jsLength s.cwd + jsLength path + 2)
    path recursive h

theorem deleteFuel_succ_eq (now fuel : Nat) (path : String)
    (recursive : Bool) (s : FS) :
    deleteFuel now (fuel + 1) path recursive s =
      (match objGet s.nodes (resolveIn s path) with
       | none => (.error .enoent, s)
       | some node =>
         match
           (if node.type = FType.directory then
             (if (node.children.getD []).length > 0 && !recursive then
               ((.error .enotempty, s) : Except FsErr Unit × FS)
             else deleteChildren now fuel (resolveIn s path) 0 s)
           else
             match node.contentId with
             | some cid =>
               ((.ok (), { s with
                 contents := objDel s.contents (contentKey cid) }) :
                 Except FsErr Unit × FS)
             | none => (.ok (), s)) with
         | (.ok _, s1) =>
           let s2 := detachFromParent now node s1
           (.ok (), { s2 with
             nodes := objDel s2.nodes (resolveIn s path) })
         | (.error e, s1) => (.error e, s1)) := by
  simp only [deleteFuel]
  simp only [bind_apply, resolvePath_apply, getFs_apply, throwFs_apply,
    modifyFs_apply, pure_apply]
  cases hn : objGet s.nodes (resolveIn s path) with
  | none => rfl
  | some node =>
    by_cases htd : node.type = FType.directory
    · simp only [if_pos htd]
      by_cases hch : ((node.children.getD []).length > 0 && !recursive) =
          true
      · simp [hch]
      · simp only [hch, Bool.false_eq_true, if_false]
        cases hdc : deleteChildren now fuel (resolveIn s path) 0 s with
        | mk r1 s1 =>
          cases r1 with
          | ok a => simp [hdc]
          | error e => simp [hdc]
    · simp only [if_neg htd]
      cases hcid : node.contentId with
      | some cid => simp
      | none => simp

theorem deleteChildren_succ_eq (now fuel : Nat) (p : String) (i : Nat)
    (s : FS) :
    deleteChildren now (fuel + 1) p i s =
      (match objGet s.nodes p with
       | none => (.ok (), s)
       | some node =>
         if h : i < (node.children.getD []).length then
           match deleteFuel now fuel
               (PathUtils.join p ((node.children.getD [])[i])) true s with
           | (.ok _, s1) => deleteChildren now fuel p (i + 1) s1
           | (.error e, s1) => (.error e, s1)
         else (.ok (), s)) := by
  simp only [deleteChildren]
  simp only [bind_apply, getFs_apply, pure_apply]
  cases hn : objGet s.nodes p with
  | none => rfl
  | some node =>
    by_cases hi : i < (node.children.getD []).length
    · simp only [dif_pos hi]
      cases hdf : deleteFuel now fuel
          (PathUtils.join p ((node.children.getD [])[i])) true s with
      | mk r1 s1 =>
        cases r1 with
        | ok a => simp [hdf]
        | error e => simp [hdf]
    · simp only [dif_neg hi]
      rfl

/-- `delete` (at any fuel) preserves the invariant provided the target
is neither the root nor an ancestor-or-self of the working directory;
the recursive child deletions stay strictly below the target, so the
conditions propagate. -/
theorem delete_pres (now : Nat) :
    ∀ fuel,
      (∀ path recursive {s : FS}, Good s →
        resolveIn s path ≠ "/" → ¬ pathLE (resolveIn s path) s.cwd →
        Good (deleteFuel now fuel path recursive s).2 ∧
        (deleteFuel now fuel path recursive s).2.cwd = s.cwd) ∧
      (∀ p i {s : FS}, Good s → NormAbs p → p ≠ "/" →
        ¬ pathLE p s.cwd →
        Good (deleteChildren now fuel p i s).2 ∧
        (deleteChildren now fuel p i s).2.cwd = s.cwd) := by
  intro fuel
  induction fuel with
  | zero =>
    exact ⟨fun path recursive s h _ _ => ⟨h, rfl⟩,
      fun p i s h _ _ _ => ⟨h, rfl⟩⟩
  | succ n ih =>
    obtain ⟨ihF, ihC⟩ := ih
    constructor
    · intro path recursive s hGood hr hc
      obtain ⟨hInv, hWF⟩ := hGood
      rw [deleteFuel_succ_eq]
      cases hn : objGet s.nodes (resolveIn s path) with
      | none => exact ⟨⟨hInv, hWF⟩, rfl⟩
      | some node =>
        simp only [hn]
        have hkcwd : resolveIn s path ≠ s.cwd :=
          fun he => hc (he ▸ pathLE_refl (resolveIn s path))
        have hstep : ∀ r1 s1,
            (if node.type = FType.directory then
              (if (node.children.getD []).length > 0 && !recursive then
                ((.error .enotempty, s) : Except FsErr Unit × FS)
              else deleteChildren now n (resolveIn s path) 0 s)
            else
              match node.contentId with
              | some cid =>
                ((.ok (), { s with
                  contents := objDel s.contents (contentKey cid) }) :
                  Except FsErr Unit × FS)
              | none => (.ok (), s)) = (r1, s1) →
            Good s1 ∧ s1.cwd = s.cwd := by
          intro r1 s1 heq
          by_cases htd : node.type = FType.directory
          · rw [if_pos htd] at heq
            by_cases hch : ((node.children.getD []).length > 0 &&
                !recursive) = true
            · rw [if_pos hch] at heq
              cases heq
              exact ⟨⟨hInv, hWF⟩, rfl⟩
            · rw [if_neg hch] at heq
              have hq := ihC (resolveIn s path) 0 ⟨hInv, hWF⟩
                (resolveIn_normAbs s path hInv.2.1) hr hc
              rw [heq] at hq
              exact hq
          · rw [if_neg htd] at heq
            cases hcid : node.contentId with
            | some cid =>
              rw [hcid] at heq
              cases heq
              exact ⟨⟨Inv_same rfl rfl hInv, WF_same_nodes rfl hWF⟩, rfl⟩
            | none =>
              rw [hcid] at heq
              cases heq
              exact ⟨⟨hInv, hWF⟩, rfl⟩
        cases hs1 : (if node.type = FType.directory then
            (if (node.children.getD []).length > 0 && !recursive then
              ((.error .enotempty, s) : Except FsErr Unit × FS)
            else deleteChildren now n (resolveIn s path) 0 s)
          else
            match node.contentId with
            | some cid =>
              ((.ok (), { s with
                contents := objDel s.contents (contentKey cid) }) :
                Except FsErr Unit × FS)
            | none => (.ok (), s)) with
        | mk r1 s1 =>
          obtain ⟨⟨hInv1, hWF1⟩, hcwd1⟩ := hstep r1 s1 hs1
          cases r1 with
          | error e => exact ⟨⟨hInv1, hWF1⟩, hcwd1⟩
          | ok a =>
            have hdspec := detachFromParent_spec now node s1
            have hInv2 : Inv (detachFromParent now node s1) :=
              Inv_of_meta hdspec.1 hdspec.2.2.2.2 hInv1
            have hWF2 : WF (detachFromParent now node s1) :=
              detachFromParent_wf now node hWF1
            have hcwd2 : (detachFromParent now node s1).cwd = s.cwd := by
              rw [hdspec.1, hcwd1]
            refine ⟨⟨Inv_del_node rfl rfl hInv2 hr ?_,
              WF_del_node rfl hWF2⟩, hcwd2⟩
            rw [hcwd2]
            exact hkcwd
    · intro p i s hGood hNA hp0 hpc
      obtain ⟨hInv, hWF⟩ := hGood
      rw [deleteChildren_succ_eq]
      cases hn : objGet s.nodes p with
      | none => exact ⟨⟨hInv, hWF⟩, rfl⟩
      | some node =>
        simp only [hn]
        by_cases hi : i < (node.children.getD []).length
        · rw [dif_pos hi]
          have hcv : ValidSeg ((node.children.getD [])[i]) := by
            apply hWF (p, node) (objGet_mem _ _ _ hn)
            exact List.getElem_mem hi
          obtain ⟨l, hl, hpl⟩ := hNA
          have hgood2 : ∀ sg ∈ l ++ [((node.children.getD [])[i]).data],
              goodSeg sg := by
            intro sg hsg
            rcases List.mem_append.mp hsg with h2 | h2
            · exact hl sg h2
            · rw [List.mem_singleton.mp h2]
              exact hcv
          have hj : PathUtils.join p ((node.children.getD [])[i]) =
              mkAbs (l ++ [((node.children.getD [])[i]).data]) := by
            rw [hpl]
            exact join_mkAbs l hl _ hcv
          have habs : PathUtils.isAbsolute
              (PathUtils.join p ((node.children.getD [])[i])) = true := by
            rw [hj]
            exact PathUtils.isAbsolute_mkAbs _
          have hresolve : ∀ t : FS,
              resolveIn t (PathUtils.join p ((node.children.getD [])[i])) =
              PathUtils.join p ((node.children.getD [])[i]) := by
            intro t
            unfold resolveIn
            rw [if_pos habs, hj]
            exact PathUtils.normalize_mkAbs _ hgood2
          have hne2 : resolveIn s
              (PathUtils.join p ((node.children.getD [])[i])) ≠ "/" := by
            rw [hresolve s, hj]
            exact mkAbs_ne_root _ hgood2 (by simp)
          have hle2 : ¬ pathLE (resolveIn s
              (PathUtils.join p ((node.children.getD [])[i]))) s.cwd := by
            rw [hresolve s, hj]
            intro hle
            apply hpc
            unfold pathLE at hle ⊢
            rw [segsOf_mkAbs _ hgood2] at hle
            rw [hpl, segsOf_mkAbs l hl]
            exact List.IsPrefix.trans (List.prefix_append l _) hle
          have h1 := ihF (PathUtils.join p ((node.children.getD [])[i]))
            true ⟨hInv, hWF⟩ hne2 hle2
          cases hdf : deleteFuel now n
              (PathUtils.join p ((node.children.getD [])[i])) true s with
          | mk r1 s1 =>
            rw [hdf] at h1
            obtain ⟨⟨hInv1, hWF1⟩, hcwd1⟩ := h1
            cases r1 with
            | error e => exact ⟨⟨hInv1, hWF1⟩, hcwd1⟩
            | ok a =>
              have h2 := ihC p (i + 1) ⟨hInv1, hWF1⟩
                ⟨l, hl, hpl⟩ hp0 (by rw [hcwd1]; exact hpc)
              exact ⟨h2.1, by rw [h2.2, hcwd1]⟩
        · rw [dif_neg hi]
          exact ⟨⟨hInv, hWF⟩, rfl⟩

/-- `delete` preserves the invariant away from the root and the
working-directory chain. -/
theorem deleteOp_pres (now : Nat) (path : String) (recursive : Bool)
    {s : FS} (h : Good s) (h1 : resolveIn s path ≠ "/")
    (h2 : ¬ pathLE (resolveIn s path) s.cwd) :
    Good (deleteOp now path recursive s).2 ∧
    (deleteOp now path recursive s).2.cwd = s.cwd :=
  (delete_pres now (opFuel s)).1 path recursive h h1 h2

theorem readFile_state (path : String) (s : FS) :
    (readFile path s).2 = s := by
  rw [readFile_eq]
  cases objGet s.nodes (resolveIn s path) with
  | none => rfl
  | some node =>
    by_cases ht : node.type ≠ FType.file
    · simp [ht]
    · simp [ht]

theorem copyFuel_succ_eq (now fuel : Nat) (src dst : String)
    (options : CopyOptions) (s : FS) :
    copyFuel now (fuel + 1) src dst options s =
      (match objGet s.nodes (resolveIn s src) with
       | none => (.error .enoent, s)
       | some sourceNode =>
         if (objGet s.nodes (resolveIn s dst)).isSome && !options.force
             then (.error .eexist, s)
         else
           if sourceNode.type = FType.file then
             match readFile src s with
             | (.ok content, s0) =>
               match createFile now dst content options.force s0 with
               | (.ok _, s1) =>
                 if options.preserveTimestamps then
                   ((.ok (), restampDest sourceNode (resolveIn s dst) s1) :
                     Except FsErr Unit × FS)
                 else (.ok (), s1)
               | (.error e, s1) => (.error e, s1)
             | (.error e, s0) => (.error e, s0)
           else
             if !options.recursive then (.error .eisdir, s)
             else
               match createDirectoryFuel now 1 dst false s with
               | (.ok _, s1) =>
                 copyChildren now fuel (resolveIn s src) (resolveIn s dst)
                   options 0 s1
               | (.error e, s1) => (.error e, s1)) := by
  simp only [copyFuel]
  simp only [bind_apply, resolvePath_apply, getFs_apply, throwFs_apply,
    modifyFs_apply, pure_apply]
  cases hn : objGet s.nodes (resolveIn s src) with
  | none => rfl
  | some sourceNode =>
    by_cases he : ((objGet s.nodes (resolveIn s dst)).isSome &&
        !options.force) = true
    · simp [he]
    · simp only [he, Bool.false_eq_true, if_false]
      by_cases htf : sourceNode.type = FType.file
      · simp only [if_pos htf]
        cases hrf : readFile src s with
        | mk r0 s0 =>
          cases r0 with
          | error e => simp [hrf]
          | ok content =>
            simp only [hrf]
            cases hcf : createFile now dst content options.force s0 with
            | mk r1 s1 =>
              cases r1 with
              | error e => simp [hrf, hcf]
              | ok a =>
                simp only [hcf]
                by_cases hpt : options.preserveTimestamps = true
                · simp [hrf, hcf, hpt]
                · simp [hrf, hcf, hpt]
      · simp only [if_neg htf]
        by_cases hrec : (!options.recursive) = true
        · simp [hrec]
        · simp only [hrec, Bool.false_eq_true, if_false]
          cases hcd : createDirectoryFuel now 1 dst false s with
          | mk r1 s1 =>
            cases r1 with
            | error e => simp [hcd]
            | ok a => simp [hcd]

theorem copyChildren_succ_eq (now fuel : Nat) (src dst : String)
    (options : CopyOptions) (i : Nat) (s : FS) :
    copyChildren now (fuel + 1) src dst options i s =
      (match objGet s.nodes src with
       | none => (.ok (), s)
       | some node =>
         if h : i < (node.children.getD []).length then
           match copyFuel now fuel
               (PathUtils.join src ((node.children.getD [])[i]))
               (PathUtils.join dst ((node.children.getD [])[i]))
               options s with
           | (.ok _, s1) => copyChildren now fuel src dst options (i + 1) s1
           | (.error e, s1) => (.error e, s1)
         else (.ok (), s)) := by
  simp only [copyChildren]
  simp only [bind_apply, getFs_apply, pure_apply]
  cases hn : objGet s.nodes src with
  | none => rfl
  | some node =>
    by_cases hi : i < (node.children.getD []).length
    · simp only [dif_pos hi]
      cases hcf : copyFuel now fuel
          (PathUtils.join src ((node.children.getD [])[i]))
          (PathUtils.join dst ((node.children.getD [])[i])) options s with
      | mk r1 s1 =>
        cases r1 with
        | ok a => simp [hcf]
        | error e => simp [hcf]
    · simp only [dif_neg hi]
      rfl

/-- `copy` (at any fuel) preserves the invariant provided the
destination is neither the root nor an ancestor-or-self of the working
directory. -/
theorem copy_pres_fuel (now : Nat) :
    ∀ fuel,
      (∀ src dst options {s : FS}, Good s →
        resolveIn s dst ≠ "/" → ¬ pathLE (resolveIn s dst) s.cwd →
        Good (copyFuel now fuel src dst options s).2 ∧
        (copyFuel now fuel src dst options s).2.cwd = s.cwd) ∧
      (∀ src dst options (i : Nat) {s : FS}, Good s → NormAbs dst →
        dst ≠ "/" → ¬ pathLE dst s.cwd →
        Good (copyChildren now fuel src dst options i s).2 ∧
        (copyChildren now fuel src dst options i s).2.cwd = s.cwd) := by
  intro fuel
  induction fuel with
  | zero =>
    exact ⟨fun src dst options s h _ _ => ⟨h, rfl⟩,
      fun src dst options i s h _ _ _ => ⟨h, rfl⟩⟩
  | succ n ih =>
    obtain ⟨ihF, ihC⟩ := ih
    constructor
    · intro src dst options s hGood hd1 hd2
      obtain ⟨hInv, hWF⟩ := hGood
      rw [copyFuel_succ_eq]
      cases hn : objGet s.nodes (resolveIn s src) with
      | none => exact ⟨⟨hInv, hWF⟩, rfl⟩
      | some sourceNode =>
        simp only [hn]
        have hdcwd : resolveIn s dst ≠ s.cwd :=
          fun he => hd2 (he ▸ pathLE_refl (resolveIn s dst))
        by_cases he : ((objGet s.nodes (resolveIn s dst)).isSome &&
            !options.force) = true
        · rw [if_pos he]
          exact ⟨⟨hInv, hWF⟩, rfl⟩
        · rw [if_neg he]
          by_cases htf : sourceNode.type = FType.file
          · rw [if_pos htf]
            cases hrf : readFile src s with
            | mk r0 s0 =>
              have hs0 : s0 = s := by
                have := readFile_state src s
                rw [hrf] at this
                exact this
              subst hs0
              cases r0 with
              | error e => exact ⟨⟨hInv, hWF⟩, rfl⟩
              | ok content =>
                dsimp only
                have hcp := createFile_pres now dst content options.force
                  ⟨hInv, hWF⟩ (Or.inl ⟨hd1, hdcwd⟩)
                cases hcf : createFile now dst content options.force s0 with
                | mk r1 s1 =>
                  rw [hcf] at hcp
                  obtain ⟨⟨hInv1, hWF1⟩, hcwd1⟩ := hcp
                  cases r1 with
                  | error e => exact ⟨⟨hInv1, hWF1⟩, hcwd1⟩
                  | ok a =>
                    dsimp only
                    by_cases hpt : options.preserveTimestamps = true
                    · rw [if_pos hpt]
                      have hrspec := restampDest_spec sourceNode
                        (resolveIn s0 dst) s1
                      refine ⟨⟨Inv_of_meta hrspec.1 hrspec.2.2.2.2 hInv1,
                        restampDest_wf _ _ hWF1⟩, ?_⟩
                      rw [hrspec.1, hcwd1]
                    · rw [if_neg hpt]
                      exact ⟨⟨hInv1, hWF1⟩, hcwd1⟩
          · rw [if_neg htf]
            by_cases hrec : (!options.recursive) = true
            · rw [if_pos hrec]
              exact ⟨⟨hInv, hWF⟩, rfl⟩
            · rw [if_neg hrec]
              have hcd := createDirectoryFuel_pres now 1 dst false
                ⟨hInv, hWF⟩
              cases hcdf : createDirectoryFuel now 1 dst false s with
              | mk r1 s1 =>
                rw [hcdf] at hcd
                obtain ⟨⟨hInv1, hWF1⟩, hcwd1⟩ := hcd
                cases r1 with
                | error e => exact ⟨⟨hInv1, hWF1⟩, hcwd1⟩
                | ok a =>
                  have hq := ihC (resolveIn s src) (resolveIn s dst)
                    options 0 ⟨hInv1, hWF1⟩
                    (resolveIn_normAbs s dst hInv.2.1) hd1
                    (by rw [hcwd1]; exact hd2)
                  exact ⟨hq.1, by rw [hq.2, hcwd1]⟩
    · intro src dst options i s hGood hNA hp0 hpc
      obtain ⟨hInv, hWF⟩ := hGood
      rw [copyChildren_succ_eq]
      cases hn : objGet s.nodes src with
      | none => exact ⟨⟨hInv, hWF⟩, rfl⟩
      | some node =>
        simp only [hn]
        by_cases hi : i < (node.children.getD []).length
        · rw [dif_pos hi]
          have hcv : ValidSeg ((node.children.getD [])[i]) := by
            apply hWF (src, node) (objGet_mem _ _ _ hn)
            exact List.getElem_mem hi
          obtain ⟨l, hl, hpl⟩ := hNA
          have hgood2 : ∀ sg ∈ l ++ [((node.children.getD [])[i]).data],
              goodSeg sg := by
            intro sg hsg
            rcases List.mem_append.mp hsg with h2 | h2
            · exact hl sg h2
            · rw [List.mem_singleton.mp h2]
              exact hcv
          have hj : PathUtils.join dst ((node.children.getD [])[i]) =
              mkAbs (l ++ [((node.children.getD [])[i]).data]) := by
            rw [hpl]
            exact join_mkAbs l hl _ hcv
          have habs : PathUtils.isAbsolute
              (PathUtils.join dst ((node.children.getD [])[i])) = true := by
            rw [hj]
            exact PathUtils.isAbsolute_mkAbs _
          have hresolve : ∀ t : FS,
              resolveIn t (PathUtils.join dst ((node.children.getD [])[i])) =
              PathUtils.join dst ((node.children.getD [])[i]) := by
            intro t
            unfold resolveIn
            rw [if_pos habs, hj]
            exact PathUtils.normalize_mkAbs _ hgood2
          have hne2 : resolveIn s
              (PathUtils.join dst ((node.children.getD [])[i])) ≠ "/" := by
            rw [hresolve s, hj]
            exact mkAbs_ne_root _ hgood2 (by simp)
          have hle2 : ¬ pathLE (resolveIn s
              (PathUtils.join dst ((node.children.getD [])[i]))) s.cwd := by
            rw [hresolve s, hj]
            intro hle
            apply hpc
            unfold pathLE at hle ⊢
            rw [segsOf_mkAbs _ hgood2] at hle
            rw [hpl, segsOf_mkAbs l hl]
            exact List.IsPrefix.trans (List.prefix_append l _) hle
          have h1 := ihF (PathUtils.join src ((node.children.getD [])[i]))
            (PathUtils.join dst ((node.children.getD [])[i]))
            options ⟨hInv, hWF⟩ hne2 hle2
          cases hcf : copyFuel now n
              (PathUtils.join src ((node.children.getD [])[i]))
              (PathUtils.join dst ((node.children.getD [])[i]))
              options s with
          | mk r1 s1 =>
            rw [hcf] at h1
            obtain ⟨⟨hInv1, hWF1⟩, hcwd1⟩ := h1
            cases r1 with
            | error e => exact ⟨⟨hInv1, hWF1⟩, hcwd1⟩
            | ok a =>
              have h2 := ihC src dst options (i + 1) ⟨hInv1, hWF1⟩
                ⟨l, hl, hpl⟩ hp0 (by rw [hcwd1]; exact hpc)
              exact ⟨h2.1, by rw [h2.2, hcwd1]⟩
        · rw [dif_neg hi]
          exact ⟨⟨hInv, hWF⟩, rfl⟩

/-- `copy` preserves the invariant when the destination avoids the root
and the working-directory chain. -/
theorem copy_pres (now : Nat) (src dst : String) (options : CopyOptions)
    {s : FS} (h : Good s) (h1 : resolveIn s dst ≠ "/")
    (h2 : ¬ pathLE (resolveIn s dst) s.cwd) :
    Good (copy now src dst options s).2 ∧
    (copy now src dst options s).2.cwd = s.cwd :=
  (copy_pres_fuel now (opFuel s + jsLength src + jsLength dst)).1
    src dst options h h1 h2

/-- `move` preserves the invariant when both endpoints avoid the root
and the working-directory chain. -/
theorem move_pres (now : Nat) (src dst : String) {s : FS} (h : Good s)
    (hs1 : resolveIn s src ≠ "/") (hs2 : ¬ pathLE (resolveIn s src) s.cwd)
    (hd1 : resolveIn s dst ≠ "/")
    (hd2 : ¬ pathLE (resolveIn s dst) s.cwd) :
    Good (move now src dst s).2 ∧ (move now src dst s).2.cwd = s.cwd := by
  have hcp := copy_pres now src dst
    { recursive := true, force := true, preserveTimestamps := false }
    h hd1 hd2
  show Good ((copy now src dst
      { recursive := true, force := true, preserveTimestamps := false } >>=
      fun _ => deleteOp now src true) s).2 ∧
    ((copy now src dst
      { recursive := true, force := true, preserveTimestamps := false } >>=
      fun _ => deleteOp now src true) s).2.cwd = s.cwd
  rw [bind_apply]
  cases hc : copy now src dst
      { recursive := true, force := true, preserveTimestamps := false }
      s with
  | mk r1 s1 =>
    rw [hc] at hcp
    obtain ⟨hGood1, hcwd1⟩ := hcp
    cases r1 with
    | error e => exact ⟨hGood1, hcwd1⟩
    | ok a =>
      have hres : resolveIn s1 src = resolveIn s src :=
        resolveIn_cwd hcwd1 src
      have hdp := deleteOp_pres now src true hGood1
        (by rw [hres]; exact hs1)
        (by rw [hres, hcwd1]; exact hs2)
      exact ⟨hdp.1, by rw [hdp.2, hcwd1]⟩

end FileSystemService

/-! ## Concrete example states used by the claim theorems -/

/-- A root directory node with the given children list. -/
def rootChildren (cs : List String) : FileNode :=
  { name := "/", type := .directory, path := "/", parent := none, size := 0,
    createdAt := 0, modifiedAt := 0, permissions := permissionsDirectory,
    children := some cs }

/-- A minimal state: the seeded root directory only. -/
def fs0 : FS :=
  { nodes := [("/", rootChildren [])], cwd := "/", contents := [],
    nextId := 0 }

/-- A directory `/d` with two file children. -/
def dNode : FileNode :=
  { name := "d", type := .directory, path := "/d", parent := some "/",
    size := 0, createdAt := 0, modifiedAt := 0,
    permissions := permissionsDirectory, children := some ["a", "b"] }

def aNode : FileNode :=
  { name := "a", type := .file, path := "/d/a", parent := some "/d",
    size := 1, createdAt := 0, modifiedAt := 0, permissions := permissionsFile,
    extension := some "", contentId := some "ca" }

def bNode : FileNode :=
  { name := "b", type := .file, path := "/d/b", parent := some "/d",
    size := 1, createdAt := 0, modifiedAt := 0, permissions := permissionsFile,
    extension := some "", contentId := some "cb" }

/-- Root containing `/d` containing files `/d/a` and `/d/b`. -/
def fsD : FS :=
  { nodes := [("/", rootChildren ["d"]), ("/d", dNode), ("/d/a", aNode),
      ("/d/b", bNode)],
    cwd := "/",
    contents := [("file-content-ca", ⟨"ca", "x", "utf-8"⟩),
      ("file-content-cb", ⟨"cb", "y", "utf-8"⟩)],
    nextId := 0 }

/-- A state whose stored file sizes already exceed the quota headroom:
one file node of size 11000000 > `maxTotalSize`. -/
def bigNode : FileNode :=
  { name := "big.txt", type := .file, path := "/big.txt",
    parent := some "/", size := 11000000, createdAt := 0, modifiedAt := 0,
    permissions := permissionsFile, extension := some ".txt",
    contentId := some "cbig" }

def fsBig : FS :=
  { nodes := [("/", rootChildren ["big.txt"]), ("/big.txt", bigNode)],
    cwd := "/",
    contents := [("file-content-cbig", ⟨"cbig", "", "utf-8"⟩)],
    nextId := 0 }

/-- A trivial theme-command environment (no JSON codec, no clipboard). -/
def env0 : ThemeEnv := ⟨fun _ => none, fun _ => "", false⟩

/-- The registry after registering the theme command. -/
def themeRegistry : List (String × Cmd) := registerCommand [] themeCommand

/-- The initial theme store. -/
def themeStore0 : ThemeState := {}

/-- The state left behind by `delete('/', recursive)` on `fs0`: no
nodes at all. -/
def fsEmpty : FS :=
  { nodes := [], cwd := "/", contents := [], nextId := 0 }

/-- A directory `documents` in the root, for the autocomplete claim. -/
def docsNode : FileNode :=
  { name := "documents", type := .directory, path := "/documents",
    parent := some "/", size := 0, createdAt := 0, modifiedAt := 0,
    permissions := permissionsDirectory, children := some [] }

def fsDocs : FS :=
  { nodes := [("/", rootChildren ["documents"]), ("/documents", docsNode)],
    cwd := "/", contents := [], nextId := 0 }

/-- A trivial autocomplete environment (no registry, no domain service,
default theme store). -/
def acEnv0 : ACEnv := ⟨[], fun _ => [], {}⟩

/-! ## Claim theorems -/

/-- C8: `PathUtils.normalize` is idempotent on every absolute path `p`
(a string beginning with `/`): `normalize (normalize p) = normalize p`. -/
theorem C8_normalize_idempotent_abs (p : String)
    (h : PathUtils.isAbsolute p = true) :
    PathUtils.normalize (PathUtils.normalize p) = PathUtils.normalize p :=
  PathUtils.normalize_idem_abs p h

/-- C8 witness: idempotence at the concrete absolute path `/a/../b//c`. -/
theorem C8_normalize_idempotent_witness :
    PathUtils.isAbsolute "/a/../b//c" = true ∧
    PathUtils.normalize (PathUtils.normalize "/a/../b//c") =
      PathUtils.normalize "/a/../b//c" :=
  ⟨rfl, C8_normalize_idempotent_abs "/a/../b//c" rfl⟩

/-- C1 counterexample: `createFile` stores `size = content.length`, the
UTF-16 code-unit count, not the UTF-8 byte count.  Creating `/a.txt`
with content `"é"` (1 code unit, 2 UTF-8 bytes) succeeds and `stat`
reports size 1, while the UTF-8 byte length is 2. -/
theorem C1_size_counterexample :
    (FileSystemService.createFile 0 "/a.txt" "é" false fs0).1 =
      Except.ok () ∧
    ((FileSystemService.stat "/a.txt"
        (FileSystemService.createFile 0 "/a.txt" "é" false fs0).2).1.toOption.map
      FileNode.size) = some 1 ∧
    utf8Len "é" = 2 :=
  ⟨rfl, rfl, rfl⟩

/-- C1: corrected size semantics.  After any successful
`createFile(p, c)` or non-append `writeFile(p, c)`, `stat(p)` reports a
file node whose `size` is the UTF-16 code-unit count `c.length` (not
the UTF-8 byte count), and after a successful `createDirectory` the
node's size is 0. -/
theorem C1_size_amended :
    (∀ now path content force s s',
        FileSystemService.createFile now path content force s =
          (Except.ok (), s') →
        ∃ n, FileSystemService.stat path s' = (Except.ok n, s') ∧
          n.size = jsLength content ∧ n.type = FType.file) ∧
    (∀ now path content s s',
        FileSystemService.writeFile now path content false s =
          (Except.ok (), s') →
        ∃ n, FileSystemService.stat path s' = (Except.ok n, s') ∧
          n.size = jsLength content ∧ n.type = FType.file) ∧
    (∀ now path recursive s s',
        FileSystemService.createDirectory now path recursive s =
          (Except.ok (), s') →
        ∃ n, FileSystemService.stat path s' = (Except.ok n, s') ∧
          n.size = 0 ∧ n.type = FType.directory) :=
  ⟨fun _ _ _ _ _ _ h => FileSystemService.createFile_stat_size h,
   fun _ _ _ _ _ h => FileSystemService.writeFile_stat_size h,
   fun _ _ _ _ _ h => FileSystemService.createDirectory_stat_size h⟩

/-- C1 witness: the corrected size semantics at the `"é"` example. -/
theorem C1_size_witness :
    ∃ n, FileSystemService.stat "/a.txt"
        (FileSystemService.createFile 0 "/a.txt" "é" false fs0).2 =
      (Except.ok n,
        (FileSystemService.createFile 0 "/a.txt" "é" false fs0).2) ∧
      n.size = jsLength "é" ∧ n.type = FType.file :=
  C1_size_amended.1 0 "/a.txt" "é" false fs0
    (FileSystemService.createFile 0 "/a.txt" "é" false fs0).2 rfl

/-- C3: a `createFile` whose content would push the stored total over
the quota ceiling, and a `writeFile` whose net size delta would, fail
with `ENOSPC` and return the state exactly as it was (no node, child
list, working-directory or content-blob mutation). -/
theorem C3_enospc_no_mutation :
    (∀ now path content force s,
        FileSystemService.pathViolation (FileSystemService.resolveIn s path)
            = false →
        ((objGet s.nodes (FileSystemService.resolveIn s path)).isSome &&
            !force) = false →
        (∃ p, objGet s.nodes
            (PathUtils.parseInfo
              (FileSystemService.resolveIn s path)).parent = some p ∧
          p.type = FType.directory) →
        (FileSystemService.storageUsed s : Int) + (jsLength content : Int) >
          (maxTotalSize : Int) →
        FileSystemService.createFile now path content force s =
          (Except.error FsErr.enospc, s)) ∧
    (∀ now path content append s node,
        objGet s.nodes (FileSystemService.resolveIn s path) = some node →
        node.type = FType.file →
        (FileSystemService.storageUsed s : Int) +
            ((jsLength (if append then
                FileSystemService.fileContentAt s node ++ content
              else content) : Int) - (node.size : Int)) >
          (maxTotalSize : Int) →
        FileSystemService.writeFile now path content append s =
          (Except.error FsErr.enospc, s)) := by
  constructor
  · intro now path content force s hv he hp hq
    obtain ⟨p, hpg, hpt⟩ := hp
    rw [FileSystemService.createFile_eq]
    simp only [hv, Bool.false_eq_true, if_false, he, hpg, hpt]
    simp [hq, hpt]
  · intro now path content append s node hn ht hq
    rw [FileSystemService.writeFile_eq]
    simp only [hn, ht]
    simp only [ht, ne_eq, not_true_eq_false, if_false]
    cases append with
    | false =>
      simp only [Bool.false_eq_true, if_false] at hq ⊢
      simp [hq]
    | true =>
      simp only [if_true] at hq ⊢
      simp [hq]

/-- C3 witness: on a state already holding 11000000 stored bytes, a
1-byte `createFile` fails `ENOSPC` with the state unchanged. -/
theorem C3_enospc_witness :
    FileSystemService.createFile 0 "/new.txt" "x" false fsBig =
      (Except.error FsErr.enospc, fsBig) :=
  C3_enospc_no_mutation.1 0 "/new.txt" "x" false fsBig rfl rfl
    ⟨rootChildren ["big.txt"], rfl, rfl⟩ (by decide)

/-- C4: write/read round-trips.  Writing `c` to a previously
non-existent path and reading it back yields exactly `c`; reading `c1`
from an existing file, appending `c2` and reading back yields
`c1 ++ c2` (both conditioned on the write succeeding, which rules out
quota failure). -/
theorem C4_write_read_roundtrip :
    (∀ now path content s s',
        objGet s.nodes (FileSystemService.resolveIn s path) = none →
        FileSystemService.writeFile now path content false s =
          (Except.ok (), s') →
        FileSystemService.readFile path s' = (Except.ok content, s')) ∧
    (∀ now path c1 c2 s s',
        FileSystemService.readFile path s = (Except.ok c1, s) →
        FileSystemService.writeFile now path c2 true s =
          (Except.ok (), s') →
        FileSystemService.readFile path s' =
          (Except.ok (c1 ++ c2), s')) := by
  constructor
  · intro now path content s s' hn h
    rw [FileSystemService.writeFile_eq] at h
    simp only [hn] at h
    exact FileSystemService.createFile_readFile hn h
  · intro now path c1 c2 s s' h1 h2
    obtain ⟨node, hn, ht, hc⟩ := FileSystemService.readFile_ok h1
    rw [FileSystemService.writeFile_eq] at h2
    simp only [hn] at h2
    rw [if_neg (not_not.mpr ht)] at h2
    simp only [if_true] at h2
    by_cases hq : (FileSystemService.storageUsed s : Int) +
        ((jsLength (FileSystemService.fileContentAt s node ++ c2) : Int) -
          (node.size : Int)) > (maxTotalSize : Int)
    · rw [if_pos hq] at h2
      exact absurd h2 (by simp)
    · rw [if_neg hq] at h2
      simp only [Prod.mk.injEq, true_and] at h2
      subst h2
      rw [← hc]
      exact FileSystemService.writeFileOut_readFile now path s node
        (FileSystemService.fileContentAt s node ++ c2) ht

/-- C4 witness: writing `"hi"` to the fresh path `/a.txt` and reading
it back returns `"hi"`. -/
theorem C4_write_read_witness :
    FileSystemService.readFile "/a.txt"
        (FileSystemService.writeFile 0 "/a.txt" "hi" false fs0).2 =
      (Except.ok "hi",
        (FileSystemService.writeFile 0 "/a.txt" "hi" false fs0).2) :=
  C4_write_read_roundtrip.1 0 "/a.txt" "hi" fs0
    (FileSystemService.writeFile 0 "/a.txt" "hi" false fs0).2 rfl rfl

/-- C2 counterexample: `delete('/', recursive)` on the seeded
(root-only) state succeeds and removes `nodes['/']` entirely, leaving a
state with no root node and a dangling `currentWorkingDirectory`: the
claimed invariant is not preserved by `delete`. -/
theorem C2_invariant_counterexample :
    FileSystemService.deleteOp 0 "/" true fs0 = (Except.ok (), fsEmpty) ∧
    objGet ((FileSystemService.deleteOp 0 "/" true fs0).2).nodes "/" =
      none :=
  ⟨rfl, rfl⟩

/-- C2: corrected invariant preservation.  The invariant (root node
present, a directory, parentless; cwd an absolute path referencing an
existing directory) together with well-formed children names is
preserved unconditionally by `changeDirectory`, `createDirectory` and
`writeFile`; by `createFile` provided it does not force-overwrite the
root or the working-directory node; and by `delete`, `copy` and `move`
provided the deleted path (respectively the copy destination, and both
endpoints for `move`) is neither `/` nor an ancestor-or-self of the
working directory.  Without those side conditions it fails: the
counterexample deletes `/`. -/
theorem C2_invariant_amended :
    (∀ path s, FileSystemService.Good s →
        FileSystemService.Good
          (FileSystemService.changeDirectory path s).2) ∧
    (∀ now path recursive s, FileSystemService.Good s →
        FileSystemService.Good
          (FileSystemService.createDirectory now path recursive s).2) ∧
    (∀ now path content force s, FileSystemService.Good s →
        ((FileSystemService.resolveIn s path ≠ "/" ∧
          FileSystemService.resolveIn s path ≠ s.cwd) ∨
          objGet s.nodes (FileSystemService.resolveIn s path) = none) →
        FileSystemService.Good
          (FileSystemService.createFile now path content force s).2) ∧
    (∀ now path content append s, FileSystemService.Good s →
        FileSystemService.Good
          (FileSystemService.writeFile now path content append s).2) ∧
    (∀ now path recursive s, FileSystemService.Good s →
        FileSystemService.resolveIn s path ≠ "/" →
        ¬ pathLE (FileSystemService.resolveIn s path) s.cwd →
        FileSystemService.Good
          (FileSystemService.deleteOp now path recursive s).2) ∧
    (∀ now src dst options s, FileSystemService.Good s →
        FileSystemService.resolveIn s dst ≠ "/" →
        ¬ pathLE (FileSystemService.resolveIn s dst) s.cwd →
        FileSystemService.Good
          (FileSystemService.copy now src dst options s).2) ∧
    (∀ now src dst s, FileSystemService.Good s →
        FileSystemService.resolveIn s src ≠ "/" →
        ¬ pathLE (FileSystemService.resolveIn s src) s.cwd →
        FileSystemService.resolveIn s dst ≠ "/" →
        ¬ pathLE (FileSystemService.resolveIn s dst) s.cwd →
        FileSystemService.Good (FileSystemService.move now src dst s).2) :=
  ⟨fun path s h => FileSystemService.changeDirectory_pres path h,
   fun now path recursive s h =>
     (FileSystemService.createDirectory_pres now path recursive h).1,
   fun now path content force s h hfc =>
     (FileSystemService.createFile_pres now path content force h hfc).1,
   fun now path content append s h =>
     (FileSystemService.writeFile_pres now path content append h).1,
   fun now path recursive s h h1 h2 =>
     (FileSystemService.deleteOp_pres now path recursive h h1 h2).1,
   fun now src dst options s h h1 h2 =>
     (FileSystemService.copy_pres now src dst options h h1 h2).1,
   fun now src dst s h hs1 hs2 hd1 hd2 =>
     (FileSystemService.move_pres now src dst h hs1 hs2 hd1 hd2).1⟩

/-- C2 witness: recursive delete of `/d` on the example state keeps the
invariant. -/
theorem C2_invariant_witness :
    FileSystemService.Good (FileSystemService.deleteOp 0 "/d" true fsD).2 :=
  C2_invariant_amended.2.2.2.2.1 0 "/d" true fsD
    ⟨⟨⟨rootChildren ["d"], rfl, rfl, rfl⟩,
      ⟨[], by simp, rfl⟩, rootChildren ["d"], rfl, rfl⟩,
     by decide⟩
    (by decide) (by decide)

/-- C5: the non-recursive half of the claim holds on the example state
(`ENOTEMPTY`, state unchanged), but recursive delete of `/d` (children
`a`, `b`) iterates the live children array while the recursive child
deletions splice it, so it skips every other child: the call succeeds
and removes `/d` and `/d/a`, yet `/d/b` and its content blob survive,
contradicting "removes the directory and all descendants". -/
theorem C5_delete_recursive_code_bug :
    FileSystemService.deleteOp 0 "/d" false fsD =
      (Except.error FsErr.enotempty, fsD) ∧
    (FileSystemService.deleteOp 0 "/d" true fsD).1 = Except.ok () ∧
    objGet ((FileSystemService.deleteOp 0 "/d" true fsD).2).nodes "/d" =
      none ∧
    objGet ((FileSystemService.deleteOp 0 "/d" true fsD).2).nodes "/d/a" =
      none ∧
    objGet ((FileSystemService.deleteOp 0 "/d" true fsD).2).nodes "/d/b" =
      some bNode ∧
    objGet ((FileSystemService.deleteOp 0 "/d" true fsD).2).contents
      "file-content-cb" = some ⟨"cb", "y", "utf-8"⟩ :=
  ⟨rfl, rfl, rfl, rfl, rfl, rfl⟩

/-- C6 counterexample: `theme set doesnotexist` (theme not registered)
produces the not-found message and leaves the store untouched, but the
outcome type is `success`, not `error` as claimed: the handler returns
the message as a plain string and `executeCommand` wraps every returned
string as a success outcome. -/
theorem C6_theme_set_counterexample :
    executeCommand themeRegistry "theme" ["set", "doesnotexist"] env0
        themeStore0 =
      ({ output := some ("Theme not found: doesnotexist." ++
          " Use \"theme list\" to see available themes."),
         type := OutcomeTy.success }, themeStore0, []) :=
  rfl

/-- C6: corrected outcome.  For any registry that resolves `theme` to
the theme command and any store with no theme named `doesnotexist`,
`theme set doesnotexist` produces the not-found message and leaves the
store untouched with no action dispatched, but the outcome type is
`success` (the handler returns the message as an ordinary string, which
`executeCommand` wraps as a success outcome), not `error`. -/
theorem C6_theme_set_amended :
    ∀ registry env store,
      getCommand registry "theme" = some themeCommand →
      objGet (selectAllThemes store) "doesnotexist" = none →
      executeCommand registry "theme" ["set", "doesnotexist"] env store =
        ({ output := some ("Theme not found: doesnotexist." ++
            " Use \"theme list\" to see available themes."),
           type := OutcomeTy.success }, store, []) := by
  intro registry env store hreg hth
  unfold executeCommand
  have ha : themeCommand.args = [themeActionArg] := rfl
  have hh : themeCommand.handler = themeHandler := rfl
  have hp : ArgumentParser.parse ["set", "doesnotexist"]
      [themeActionArg] =
      Except.ok [("action", ArgValue.str "set"),
        ("themeName", ArgValue.str "doesnotexist")] := rfl
  simp only [hreg, ha, hp, hh]
  have hact : objGet [("action", ArgValue.str "set"),
      ("themeName", ArgValue.str "doesnotexist")] "action" =
      some (ArgValue.str "set") := rfl
  have hnm : jsToStringOpt (objGet [("action", ArgValue.str "set"),
      ("themeName", ArgValue.str "doesnotexist")] "themeName") =
      "doesnotexist" := rfl
  simp only [themeHandler, hact, hnm, hth]
  rfl

/-- C6 witness: the corrected outcome at the concrete registry, store
and environment. -/
theorem C6_theme_set_witness :
    executeCommand themeRegistry "theme" ["set", "doesnotexist"] env0
        themeStore0 =
      ({ output := some ("Theme not found: doesnotexist." ++
          " Use \"theme list\" to see available themes."),
         type := OutcomeTy.success }, themeStore0, []) :=
  C6_theme_set_amended themeRegistry env0 themeStore0 rfl rfl

/-- C7: corrected joining behaviour.  With one required string-typed
argument and two tokens, parsing succeeds with the tokens joined by a
single space provided the first token is nonempty (an empty first token
is JS-falsy and makes parsing fail, as the counterexample shows). -/
theorem C7_join_amended :
    ∀ nm desc t1 t2 : String, t1 ≠ "" →
      ArgumentParser.parse [t1, t2]
          [.mk nm desc .str true none none none] =
        Except.ok [(nm, ArgValue.str (t1 ++ " " ++ t2))] := by
  intro nm desc t1 t2 h1
  have ht : (t1 == "") = false := by
    simp [h1]
  have hb : (ArgTy.str == ArgTy.str) = true := rfl
  simp [ArgumentParser.parse, ArgumentParser.parseDepth,
    ArgumentParser.parseGo, ArgumentParser.parseFinish,
    ArgumentParser.convertType, jsFalsyStr, h1, ht, hb, truthyV,
    jsToString, joinSep, objSet, objGet]

/-- C7 witness: the corrected joining behaviour at `hello`/`world`. -/
theorem C7_join_witness :
    ArgumentParser.parse ["hello", "world"]
        [.mk "x" "d" .str true none none none] =
      Except.ok [("x", ArgValue.str ("hello" ++ " " ++ "world"))] :=
  C7_join_amended "x" "d" "hello" "world" (by decide)

/-- C7 counterexample: with one required string argument and the two
tokens `""` and `"a"`, the empty first token is JS-falsy, so parsing
fails with "Missing required argument" instead of succeeding with the
joined string. -/
theorem C7_join_counterexample :
    ArgumentParser.parse ["", "a"]
        [.mk "x" "d" .str true none none none] =
      Except.error "Missing required argument: x" :=
  rfl

/-- The main parse loop reads only the tokens at positions
`argIndex..argIndex + defs.length - 1` and, on a schema with no nested
entries, never invokes the nested-parse callback: its result is
invariant under any change of callback or of tokens beyond that
range. -/
theorem parseGo_args_agree :
    ∀ (defs : List CArg)
      (np np2 : List String → List CArg →
        Except String (List (String × ArgValue)))
      (args args2 : List String) (argIndex : Nat)
      (res : List (String × ArgValue)),
      (∀ d ∈ defs, d.nested = none) →
      (∀ j, j < argIndex + defs.length → args[j]? = args2[j]?) →
      ArgumentParser.parseGo np args defs argIndex res =
        ArgumentParser.parseGo np2 args2 defs argIndex res := by
  intro defs
  induction defs with
  | nil => intro np np2 args args2 argIndex res _ _; rfl
  | cons argDef rest ih =>
    intro np np2 args args2 argIndex res hnest hagree
    have hd : argDef.nested = none := hnest argDef (List.mem_cons_self _ _)
    have hv : args[argIndex]? = args2[argIndex]? :=
      hagree argIndex (by simp only [List.length_cons]; omega)
    have hnest' : ∀ d ∈ rest, d.nested = none :=
      fun d hdm => hnest d (List.mem_cons_of_mem _ hdm)
    have hagree' : ∀ j, j < argIndex + rest.length →
        args[j]? = args2[j]? :=
      fun j hj => hagree j (by simp only [List.length_cons]; omega)
    have hagree1 : ∀ j, j < (argIndex + 1) + rest.length →
        args[j]? = args2[j]? :=
      fun j hj => hagree j (by simp only [List.length_cons]; omega)
    simp only [ArgumentParser.parseGo, hd, hv]
    split
    · split
      · rfl
      · split
        · exact ih np np2 args args2 argIndex _ hnest' hagree'
        · exact ih np np2 args args2 argIndex _ hnest' hagree'
    · split
      · rfl
      · split
        · rfl
        · exact ih np np2 args args2 (argIndex + 1) _ hnest' hagree1

/-- On a schema that is not a lone string argument and whose last entry
is not enum-typed, the trailing-token handling returns the loop's
result object unchanged, whatever tokens remain. -/
theorem parseFinish_discard :
    ∀ (defs : List CArg) (args : List String) (i : Nat)
      (res : List (String × ArgValue)),
      (decide (defs.length = 1) &&
        ((defs.head?.map CArg.type) == some ArgTy.str)) = false →
      (∀ lastArg, defs.getLast? = some lastArg →
        ∀ xs, lastArg.type ≠ ArgTy.enum xs) →
      ArgumentParser.parseFinish args defs (Except.ok (i, res)) =
        Except.ok res := by
  intro defs args i res h2 h3
  unfold ArgumentParser.parseFinish
  dsimp only
  by_cases hi : i < args.length
  · rw [if_pos hi, if_neg (by simp [h2])]
    cases hl : defs.getLast? with
    | none => rfl
    | some lastArg =>
      cases hty : lastArg.type with
      | enum xs => exact absurd hty (h3 lastArg hl xs)
      | str => simp only [hty]
      | num => simp only [hty]
      | boolean => simp only [hty]
      | url => simp only [hty]
      | file => simp only [hty]
      | theme => simp only [hty]
      | fmt => simp only [hty]
  · rw [if_neg hi]

/-- C10: corrected surplus handling.  On a schema that is not a lone
string argument, whose last entry is not enum-typed and whose entries
are all non-nested, surplus trailing tokens are ignored: the
trailing-token handling returns the loop's bindings unchanged, and the
whole parse result (success or error alike) equals the parse of the
token list truncated to the schema's length — surplus tokens neither
bind nor raise errors, but the parse can still fail on the positional
tokens themselves, as the counterexample shows. -/
theorem C10_surplus_amended :
    (∀ (defs : List CArg) (args : List String) (i : Nat)
        (res : List (String × ArgValue)),
        (decide (defs.length = 1) &&
          ((defs.head?.map CArg.type) == some ArgTy.str)) = false →
        (∀ lastArg, defs.getLast? = some lastArg →
          ∀ xs, lastArg.type ≠ ArgTy.enum xs) →
        ArgumentParser.parseFinish args defs (Except.ok (i, res)) =
          Except.ok res) ∧
    (∀ (defs : List CArg) (args : List String),
        (∀ d ∈ defs, d.nested = none) →
        (decide (defs.length = 1) &&
          ((defs.head?.map CArg.type) == some ArgTy.str)) = false →
        (∀ lastArg, defs.getLast? = some lastArg →
          ∀ xs, lastArg.type ≠ ArgTy.enum xs) →
        defs.length ≤ args.length →
        ArgumentParser.parse args defs =
          ArgumentParser.parse (args.take defs.length) defs) := by
  constructor
  · exact parseFinish_discard
  · intro defs args hnest h2 h3 hlen
    unfold ArgumentParser.parse
    simp only [ArgumentParser.parseDepth]
    have hr : ArgumentParser.parseGo (ArgumentParser.parseDepth args.length)
        args defs 0 [] =
        ArgumentParser.parseGo
          (ArgumentParser.parseDepth (args.take defs.length).length)
          (args.take defs.length) defs 0 [] := by
      refine parseGo_args_agree defs _ _ args _ 0 [] hnest ?_
      intro j hj
      rw [List.getElem?_take, if_pos (by omega)]
    rw [hr]
    cases hres : ArgumentParser.parseGo
        (ArgumentParser.parseDepth (args.take defs.length).length)
        (args.take defs.length) defs 0 [] with
    | error e => rfl
    | ok p =>
      obtain ⟨i, res⟩ := p
      rw [parseFinish_discard defs args i res h2 h3,
        parseFinish_discard defs (args.take defs.length) i res h2 h3]

/-- C10 witness: on the schema `[x : string, n : number]` with tokens
`["a", "1", "zzz"]`, the surplus token `zzz` does not affect the
result. -/
theorem C10_surplus_witness :
    ArgumentParser.parse ["a", "1", "zzz"]
        [.mk "x" "d" .str true none none none,
         .mk "n" "d" .num true none none none] =
      ArgumentParser.parse (["a", "1", "zzz"].take
          ([CArg.mk "x" "d" .str true none none none,
            CArg.mk "n" "d" .num true none none none].length))
        [.mk "x" "d" .str true none none none,
         .mk "n" "d" .num true none none none] :=
  C10_surplus_amended.2
    [.mk "x" "d" .str true none none none,
     .mk "n" "d" .num true none none none]
    ["a", "1", "zzz"]
    (by
      intro d hd
      rcases List.mem_cons.mp hd with rfl | hd2
      · rfl
      · rcases List.mem_cons.mp hd2 with rfl | hd3
        · rfl
        · exact absurd hd3 (List.not_mem_nil d))
    rfl
    (by
      intro lastArg hl xs hty
      rw [show ([CArg.mk "x" "d" ArgTy.str true none none none,
          CArg.mk "n" "d" ArgTy.num true none none none].getLast?) =
          some (CArg.mk "n" "d" ArgTy.num true none none none) from rfl]
        at hl
      cases hl
      exact ArgTy.noConfusion hty)
    (by decide)

/-- C10 counterexample: a surplus token list does not always parse
successfully: with the non-nested schema `[x : string, n : number]`
(not a single string entry, last entry not enum-typed) and tokens
`["a", "b", "c"]`, the conversion of `"b"` to a number fails, so parse
reports an error rather than binding each entry positionally. -/
theorem C10_surplus_counterexample :
    ArgumentParser.parse ["a", "b", "c"]
        [.mk "x" "d" .str true none none none,
         .mk "n" "d" .num true none none none] =
      Except.error "Invalid number value for n: b" :=
  rfl

/-- C9: for the input `cd doc` with the cursor at the end, when listing
the current working directory yields a directory named `documents`,
`getCompletions` classifies the position as an argument (not command
position) and the result includes the completion `documents/` with the
trailing separator. -/
theorem C9_cd_doc_completion :
    ∀ (env : ACEnv) (fs : FS) (items : List FileNode),
      FileSystemService.listDirectory (some fs.cwd)
          { showHidden := false, sortBy := .byName } fs =
        (Except.ok items, fs) →
      (∃ item ∈ items, item.name = "documents" ∧
        item.type = FType.directory) →
      (parseContext "cd doc" 6).isCommandPosition = false ∧
      "documents/" ∈
        (AutocompleteService.getCompletions env "cd doc" 6 fs).completions := by
  intro env fs items hld hitem
  obtain ⟨item, hmem, hname, hty⟩ := hitem
  have hctx : parseContext "cd doc" 6 =
      { input := "cd doc", cursorPosition := 6, commandName := some "cd",
        args := ["doc"], currentArg := "doc", argIndex := 0,
        isCommandPosition := false } := rfl
  refine ⟨by rw [hctx], ?_⟩
  have hfo : "documents/" ∈ fileCompletionProvider.getCompletions env fs
      { input := "cd doc", cursorPosition := 6, commandName := some "cd",
        args := ["doc"], currentArg := "doc", argIndex := 0,
        isCommandPosition := false } := by
    show "documents/" ∈
      (match FileSystemService.listDirectory (some fs.cwd)
          { showHidden := false, sortBy := .byName } fs with
       | (.ok items2, _) =>
         items2.filterMap fun (it : FileNode) =>
           if !(jsStartsWith (jsToLower it.name) (jsToLower "doc")) then none
           else some (it.name ++
             (if it.type == FType.directory then "/" else ""))
       | (.error _, _) => [])
    rw [hld]
    refine List.mem_filterMap.mpr ⟨item, hmem, ?_⟩
    rw [hname, hty]
    rfl
  unfold AutocompleteService.getCompletions
  rw [hctx]
  dsimp only
  rw [List.mem_filter]
  refine ⟨?_, rfl⟩
  unfold getCompletionsFromProviders
  rw [mem_dedupKeepFirst]
  refine ⟨?_, List.not_mem_nil _⟩
  rw [List.mem_flatten]
  refine ⟨fileCompletionProvider.getCompletions env fs
    { input := "cd doc", cursorPosition := 6, commandName := some "cd",
      args := ["doc"], currentArg := "doc", argIndex := 0,
      isCommandPosition := false }, ?_, hfo⟩
  rw [List.mem_filterMap]
  refine ⟨fileCompletionProvider, ?_, ?_⟩
  · have hsp : sortedProviders =
        [commandCompletionProvider, domainCompletionProvider,
         fileCompletionProvider, themeCompletionProvider,
         searchEngineCompletionProvider, configCompletionProvider,
         booleanCompletionProvider, urlCompletionProvider] := rfl
    rw [hsp]
    exact List.mem_cons_of_mem _ (List.mem_cons_of_mem _
      (List.mem_cons_self _ _))
  · have hcc : fileCompletionProvider.canComplete
        { input := "cd doc", cursorPosition := 6, commandName := some "cd",
          args := ["doc"], currentArg := "doc", argIndex := 0,
          isCommandPosition := false } = true := rfl
    rw [if_pos hcc]
    dsimp only
    rw [if_pos]
    exact List.length_pos.mpr (List.ne_nil_of_mem hfo)

/-- C9 witness: the completion at a concrete state whose root holds a
`documents` directory. -/
theorem C9_cd_doc_witness :
    (parseContext "cd doc" 6).isCommandPosition = false ∧
    "documents/" ∈
      (AutocompleteService.getCompletions acEnv0 "cd doc" 6
        fsDocs).completions :=
  C9_cd_doc_completion acEnv0 fsDocs [docsNode] rfl
    ⟨docsNode, List.mem_cons_self _ _, rfl, rfl⟩

end PrivEx
